import Mathlib

/-!
Verification of the one-way folder synchronizer in `veeam_task.py`.

The filesystem is shallowly embedded: a node is a file (byte content and
last-modified timestamp) or a directory (platform-reported size, timestamp,
and named children).  A path is the list of name components relative to a
root; the two trees (source and replica) are separate values, mirroring the
code's use of paths relative to each root (`os.path.relpath(f, source)` and
`os.path.relpath(f, replica)` cancel the `os.path.join` with the root, so the
visited set is modelled directly as relative paths).  Fallible filesystem
primitives return `Except FsError`.  The MD5 digest is modelled by an
abstract digest function `H` applied to the bytes absorbed chunk by chunk,
exactly as `hashlib.md5().update(chunk)`/`hexdigest()` absorb the file
content in 4096-byte chunks.  `os.walk` is modelled with explicit fuel; the
orchestrator supplies fuel exceeding the tree depth, and `os.walk`'s
silent tolerance of directories deleted mid-walk (its `onerror=None`
default) is the `lookup` guard at the head of each recursive step.
-/

namespace Veeam

/-- A relative path: the list of name components below a tree root. -/
abbrev Path := List String

mutual
/-- A filesystem node: a regular file (content bytes, `st_mtime`) or a
directory (platform-reported `st_size`, `st_mtime`, named children). -/
inductive FSNode where
  | file (content : List Nat) (mtime : Nat)
  | dir  (dsize : Nat) (dmtime : Nat) (children : FSEntries)
/-- The children of a directory, as an association list of names to nodes. -/
inductive FSEntries where
  | nil
  | cons (name : String) (node : FSNode) (rest : FSEntries)
end

/-- A logged Entry Operation: one per `logging.info` line in the primitives
`create_file`, `copy_file`, `delete_file`, `create_directory`,
`delete_directory`, tagged with the relative path it affects. -/
inductive Op where
  | createFile (p : Path)
  | copyFile (p : Path)
  | deleteFile (p : Path)
  | createDir (p : Path)
  | deleteDir (p : Path)
deriving DecidableEq, Repr

/-- The OS errors the Python code can raise: `FileExistsError`,
`NotADirectoryError` / `FileNotFoundError` on a bad path component,
`IsADirectoryError` (e.g. `open` or `shutil.copy2` on a directory). -/
inductive FsError where
  | fileExists
  | notADirectory
  | isADirectory
  | notFound
deriving DecidableEq, Repr

namespace FSEntries

/-- Look up the first child with the given name (directory entry lookup). -/
def find : FSEntries → String → Option FSNode
  | .nil, _ => none
  | .cons a n rest, b => if a = b then some n else rest.find b

/-- Replace the first child with the given name, or append a new one. -/
def set : FSEntries → String → FSNode → FSEntries
  | .nil, b, m => .cons b m .nil
  | .cons a n rest, b, m => if a = b then .cons a m rest else .cons a n (rest.set b m)

/-- Remove the first child with the given name. -/
def remove : FSEntries → String → FSEntries
  | .nil, _ => .nil
  | .cons a n rest, b => if a = b then rest else .cons a n (rest.remove b)

/-- All child names, in directory order. -/
def names : FSEntries → List String
  | .nil => []
  | .cons a _ rest => a :: rest.names

/-- The children as a list of (name, node) pairs. -/
def toList : FSEntries → List (String × FSNode)
  | .nil => []
  | .cons a n rest => (a, n) :: rest.toList

end FSEntries

/-- Whether a node is a directory (`os.path.isfile` is its negation on
existing paths). -/
def FSNode.isDirB : FSNode → Bool
  | .file _ _ => false
  | .dir _ _ _ => true

namespace FSEntries

/-- Names of the directory children, in order (`dirs` of `os.walk`). -/
def dirNames (cs : FSEntries) : List String :=
  (cs.toList.filter fun e => e.2.isDirB).map (·.1)

/-- Names of the file children, in order (`files` of `os.walk`). -/
def fileNames (cs : FSEntries) : List String :=
  (cs.toList.filter fun e => !e.2.isDirB).map (·.1)

/-- The children ordered directories first, then files: the order
`entries = dirs + files` used by both traversal loops. -/
def ordered (cs : FSEntries) : List (String × FSNode) :=
  cs.toList.filter (fun e => e.2.isDirB) ++ cs.toList.filter (fun e => !e.2.isDirB)

end FSEntries

mutual
/-- Depth of a node: files are leaves; a directory is one deeper than its
deepest child.  Used only to compute sufficient `os.walk` fuel. -/
def FSNode.depth : FSNode → Nat
  | .file _ _ => 0
  | .dir _ _ cs => cs.depthE + 1
/-- Depth of the deepest node in an entry list. -/
def FSEntries.depthE : FSEntries → Nat
  | .nil => 0
  | .cons _ n rest => max n.depth rest.depthE
end

/-- Resolve a relative path in a tree; `none` models a nonexistent path
(`os.path.exists` is `isSome` of this). -/
def FSNode.lookup : FSNode → Path → Option FSNode
  | n, [] => some n
  | .file _ _, _ :: _ => none
  | .dir _ _ cs, a :: p =>
    match cs.find a with
    | some c => c.lookup p
    | none => none

/-- `os.path.isfile`: the path exists and is a regular file. -/
def isfileAt (t : FSNode) (p : Path) : Bool :=
  match t.lookup p with
  | some (.file _ _) => true
  | _ => false

/-- `os.path.getsize` of an existing node (directories report `st_size`). -/
def getsize : FSNode → Nat
  | .file c _ => c.length
  | .dir s _ _ => s

/-- `os.path.getmtime` of an existing node. -/
def getmtime : FSNode → Nat
  | .file _ m => m
  | .dir _ m _ => m

/-- `os.makedirs(path, exist_ok)`: create the named directory and every
missing ancestor.  Raises `FileExistsError` when the target already exists
(unless `exist_ok` and it is a directory), and `NotADirectoryError` when an
existing path component is a regular file.  Newly created directories get
platform metadata, modelled as 0. -/
def mkdirs (exOk : Bool) : FSNode → Path → Except FsError FSNode
  | .file _ _, _ => .error .notADirectory
  | .dir sz mt cs, [] => if exOk then .ok (.dir sz mt cs) else .error .fileExists
  | .dir sz mt cs, a :: p =>
    match p, cs.find a with
    | [], some c => if exOk && c.isDirB then .ok (.dir sz mt cs) else .error .fileExists
    | [], none => .ok (.dir sz mt (cs.set a (.dir 0 0 .nil)))
    | _ :: _, some c => (mkdirs exOk c p).map fun c' => .dir sz mt (cs.set a c')
    | _ :: _, none => (mkdirs exOk (.dir 0 0 .nil) p).map fun c' => .dir sz mt (cs.set a c')

/-- Write a file at a path whose parent already exists: the effect of
`shutil.copy2(src, dst)` on the destination tree, copying content and
timestamp.  An existing directory at the destination is an error
(`IsADirectoryError`); both call sites guard the destination to be absent
(`create_file`) or a regular file (`copy_file`). -/
def writeFile : FSNode → Path → List Nat → Nat → Except FsError FSNode
  | .file _ _, _, _, _ => .error .notADirectory
  | .dir _ _ _, [], _, _ => .error .isADirectory
  | .dir sz mt cs, a :: p, c, m =>
    match p, cs.find a with
    | [], some (.dir _ _ _) => .error .isADirectory
    | [], _ => .ok (.dir sz mt (cs.set a (.file c m)))
    | _ :: _, some ch => (writeFile ch p c m).map fun ch' => .dir sz mt (cs.set a ch')
    | _ :: _, none => .error .notFound

/-- Remove the entry at a path (no-op when the path does not resolve);
the common core of `os.remove` and `shutil.rmtree`. -/
def removeAt : FSNode → Path → FSNode
  | n, [] => n
  | .file c m, _ :: _ => .file c m
  | .dir sz mt cs, a :: p =>
    match p with
    | [] => .dir sz mt (cs.remove a)
    | _ :: _ =>
      match cs.find a with
      | some ch => .dir sz mt (cs.set a (removeAt ch p))
      | none => .dir sz mt cs

/-- `os.remove`: delete a regular file; raises on a directory or a missing
path. -/
def osRemove (t : FSNode) (p : Path) : Except FsError FSNode :=
  match t.lookup p with
  | some (.file _ _) => .ok (removeAt t p)
  | some (.dir _ _ _) => .error .isADirectory
  | none => .error .notFound

/-- `shutil.rmtree`: delete a directory and all of its contents recursively;
raises on a regular file or a missing path. -/
def rmtree (t : FSNode) (p : Path) : Except FsError FSNode :=
  match t.lookup p with
  | some (.dir _ _ _) => .ok (removeAt t p)
  | some (.file _ _) => .error .notADirectory
  | none => .error .notFound

/-- Split a byte list into 4096-byte chunks, with `fuel ≥ length + 1`:
the read loop `iter(lambda: f.read(4096), b"")` of `calculate_hash`. -/
def chunksGo : Nat → List Nat → List (List Nat)
  | 0, _ => []
  | _ + 1, [] => []
  | f + 1, x :: l => ((x :: l).take 4096) :: chunksGo f ((x :: l).drop 4096)

/-- The sequence of 4096-byte chunks read from a file's content. -/
def chunks (l : List Nat) : List (List Nat) :=
  chunksGo (l.length + 1) l

/-- `hash_md5.update(chunk)`: the MD5 state absorbs the chunk's bytes. -/
def md5Update (st chunk : List Nat) : List Nat := st ++ chunk

/-- `calculate_hash`: stream the file in 4096-byte chunks through the MD5
state and return the digest of the absorbed bytes, where `H` is the
abstract digest function (`hexdigest` of the absorbed stream).  Opening a
directory for reading raises `IsADirectoryError`. -/
def calculateHash (H : List Nat → List Nat) : FSNode → Except FsError (List Nat)
  | .dir _ _ _ => .error .isADirectory
  | .file c _ => .ok (H ((chunks c).foldl md5Update []))

/-- `are_files_metadata_identical`: equal byte size and equal last-modified
timestamp. -/
def areFilesMetadataIdentical (n1 n2 : FSNode) : Bool :=
  getsize n1 == getsize n2 && getmtime n1 == getmtime n2

/-- `are_files_identical`: in checksum mode compare the streamed digests,
otherwise compare metadata. -/
def areFilesIdentical (H : List Nat → List Nat) (useChecksum : Bool)
    (n1 n2 : FSNode) : Except FsError Bool :=
  if useChecksum then
    match calculateHash H n1 with
    | .error e => .error e
    | .ok h1 =>
      match calculateHash H n2 with
      | .error e => .error e
      | .ok h2 => .ok (h1 == h2)
  else .ok (areFilesMetadataIdentical n1 n2)

/-- State threaded through `traverse_source_files`: the visited-source-paths
set (`source_files`, relativized), the replica tree, and the Entry
Operations logged so far. -/
structure SState where
  visited : List Path
  rep : FSNode
  ops : List Op


/-- The loop body of `traverse_source_files` for one source entry: record
the path unconditionally, then create a missing replica counterpart
(`create_file` for a file — which first ensures the parent directory via
`os.makedirs(..., exist_ok=True)` — or `create_directory`, i.e.
`os.makedirs`, for a directory), else if the existing counterpart is a
regular file and not identical per the oracle, `copy_file` it. -/
def sourceStep (H : List Nat → List Nat) (uc : Bool) (srcNode : FSNode)
    (p : Path) (st : SState) : Except FsError SState :=
  let st1 : SState := { st with visited := st.visited ++ [p] }
  match st1.rep.lookup p with
  | none =>
    match srcNode with
    | .file c m =>
      match mkdirs true st1.rep p.dropLast with
      | .error e => .error e
      | .ok r1 =>
        match writeFile r1 p c m with
        | .error e => .error e
        | .ok r2 => .ok { st1 with rep := r2, ops := st1.ops ++ [.createFile p] }
    | .dir _ _ _ =>
      match mkdirs false st1.rep p with
      | .error e => .error e
      | .ok r => .ok { st1 with rep := r, ops := st1.ops ++ [.createDir p] }
  | some (.file c m) =>
    match areFilesIdentical H uc srcNode (.file c m) with
    | .error e => .error e
    | .ok true => .ok st1
    | .ok false =>
      match srcNode with
      | .file c' m' =>
        match writeFile st1.rep p c' m' with
        | .error e => .error e
        | .ok r => .ok { st1 with rep := r, ops := st1.ops ++ [.copyFile p] }
      | .dir _ _ _ => .error .isADirectory
  | some (.dir _ _ _) => .ok st1

/-- Run a step for each element in order, short-circuiting on the first
error: the shape of both traversal loops. -/
def seqE {α σ : Type} (f : α → σ → Except FsError σ) : List α → σ → Except FsError σ
  | [], st => .ok st
  | x :: rest, st =>
    match f x st with
    | .error e => .error e
    | .ok st1 => seqE f rest st1

/-- `os.walk` over the source tree driving the source-pass loop body:
at each directory, process `dirs + files`, then descend into each
subdirectory.  The source tree is never mutated.  `fuel` exceeds the
depth of the subtree at `relRoot` whenever the orchestrator calls this. -/
def walkSourceAt (H : List Nat → List Nat) (uc : Bool) (src : FSNode) :
    Nat → Path → SState → Except FsError SState
  | 0, _, st => .ok st
  | fuel + 1, relRoot, st =>
    match src.lookup relRoot with
    | some (.dir _ _ cs) =>
      match seqE (fun e st1 => sourceStep H uc e.2 (relRoot ++ [e.1]) st1) cs.ordered st with
      | .error e => .error e
      | .ok st1 =>
        seqE (fun a st2 => walkSourceAt H uc src fuel (relRoot ++ [a]) st2) cs.dirNames st1
    | _ => .ok st

/-- `traverse_source_files`: walk the source tree from its root with ample
fuel, starting from an empty visited set and no operations. -/
def traverseSourceFiles (H : List Nat → List Nat) (uc : Bool)
    (src rep : FSNode) : Except FsError SState :=
  walkSourceAt H uc src (src.depth + 1) [] ⟨[], rep, []⟩

/-- State threaded through `traverse_replica_files`: the `replica_files`
set (recorded but never read), the replica tree, and the operations. -/
structure RState where
  rVisited : List Path
  rep : FSNode
  ops : List Op


/-- The loop body of `traverse_replica_files` for one replica entry: record
the path, and if its relative path is not among the relativized
visited-source paths, delete it — `delete_file` (`os.remove`) for a regular
file, `delete_directory` (`shutil.rmtree`, recursive) otherwise. -/
def replicaStep (visited : List Path) (p : Path) (st : RState) :
    Except FsError RState :=
  let st1 : RState := { st with rVisited := st.rVisited ++ [p] }
  if p ∈ visited then .ok st1
  else if isfileAt st1.rep p then
    match osRemove st1.rep p with
    | .error e => .error e
    | .ok r => .ok { st1 with rep := r, ops := st1.ops ++ [.deleteFile p] }
  else
    match rmtree st1.rep p with
    | .error e => .error e
    | .ok r => .ok { st1 with rep := r, ops := st1.ops ++ [.deleteDir p] }

/-- `os.walk` over the (mutating) replica tree driving the replica-pass
loop body.  The directory listing is taken from the tree as it is when the
walk reaches `relRoot`; descending into a directory that a recursive
delete has since removed silently yields nothing (`os.walk`'s default
`onerror=None`), which is the `lookup` guard here. -/
def walkReplicaAt (visited : List Path) :
    Nat → Path → RState → Except FsError RState
  | 0, _, st => .ok st
  | fuel + 1, relRoot, st =>
    match st.rep.lookup relRoot with
    | some (.dir _ _ cs) =>
      match seqE (fun a st1 => replicaStep visited (relRoot ++ [a]) st1)
          (cs.dirNames ++ cs.fileNames) st with
      | .error e => .error e
      | .ok st1 =>
        seqE (fun a st2 => walkReplicaAt visited fuel (relRoot ++ [a]) st2) cs.dirNames st1
    | _ => .ok st

/-- `traverse_replica_files`: walk the replica tree from its root with
ample fuel. -/
def traverseReplicaFiles (visited : List Path) (rep : FSNode) :
    Except FsError RState :=
  walkReplicaAt visited (rep.depth + 1) [] ⟨[], rep, []⟩

/-- The observable outcome of one `sync_folders` call: the error-level log
records, and either the propagated exception or the final replica root
(`none` when the replica root did not exist) together with the Entry
Operations performed. -/
structure SyncResult where
  errLogs : List String
  result : Except FsError (Option FSNode × List Op)


/-- `sync_folders`: report a missing source root, then a missing replica
root, and stop (without touching the filesystem) if either is missing;
otherwise run the source pass and then the replica pass, handing over the
visited-source-paths set. -/
def syncFolders (H : List Nat → List Nat) (uc : Bool)
    (src rep : Option FSNode) : SyncResult :=
  let errLogs :=
    (if src.isNone then ["Source directory does not exist"] else []) ++
    (if rep.isNone then ["Replica directory does not exist"] else [])
  match src, rep with
  | some s, some r =>
    { errLogs := errLogs,
      result :=
        match traverseSourceFiles H uc s r with
        | .error e => .error e
        | .ok st1 =>
          match traverseReplicaFiles st1.visited st1.rep with
          | .error e => .error e
          | .ok st2 => .ok (some st2.rep, st1.ops ++ st2.ops) }
  | _, _ => { errLogs := errLogs, result := .ok (rep, []) }

/-! ### Path prefix order -/

/-- `Under q p`: `p` is a prefix of `q`, i.e. the entry at `q` lives in the
subtree rooted at `p` (inclusively). -/
def Under (q p : Path) : Prop := ∃ r, q = p ++ r

theorem under_refl (p : Path) : Under p p := ⟨[], by simp⟩

theorem under_nil (q : Path) : Under q [] := ⟨q, rfl⟩

theorem Under.trans {q p r : Path} (h1 : Under q p) (h2 : Under p r) : Under q r := by
  obtain ⟨s1, rfl⟩ := h1
  obtain ⟨s2, rfl⟩ := h2
  exact ⟨s2 ++ s1, by simp⟩

theorem under_cons_iff {q : Path} {a : String} {p : Path} :
    Under q (a :: p) ↔ ∃ q', q = a :: q' ∧ Under q' p := by
  constructor
  · rintro ⟨r, rfl⟩
    exact ⟨p ++ r, rfl, r, rfl⟩
  · rintro ⟨q', rfl, r, rfl⟩
    exact ⟨r, rfl⟩

theorem under_antisymm {q p : Path} (h1 : Under q p) (h2 : Under p q) : q = p := by
  obtain ⟨r1, rfl⟩ := h1
  obtain ⟨r2, h⟩ := h2
  have hl := congrArg List.length h
  simp only [List.length_append] at hl
  have hr1 : r1 = [] := List.length_eq_zero.mp (by omega)
  simp [hr1]

theorem under_append_iff {q p r : Path} :
    Under q (p ++ r) ↔ ∃ q', q = p ++ q' ∧ Under q' r := by
  constructor
  · rintro ⟨s, rfl⟩
    exact ⟨r ++ s, by simp, s, rfl⟩
  · rintro ⟨q', rfl, s, rfl⟩
    exact ⟨s, by simp⟩

theorem under_strict_iff {q p : Path} :
    Under q p ∧ q ≠ p ↔ ∃ a r, q = p ++ a :: r := by
  constructor
  · rintro ⟨⟨r, rfl⟩, hne⟩
    cases r with
    | nil => simp at hne
    | cons a r => exact ⟨a, r, rfl⟩
  · rintro ⟨a, r, rfl⟩
    refine ⟨⟨a :: r, rfl⟩, ?_⟩
    intro h
    have hl := congrArg List.length h
    simp only [List.length_append, List.length_cons] at hl
    omega

instance (q p : Path) : Decidable (Under q p) := by
  unfold Under
  induction p generalizing q with
  | nil => exact .isTrue ⟨q, rfl⟩
  | cons a p ih =>
    cases q with
    | nil => exact .isFalse (by rintro ⟨r, h⟩; cases h)
    | cons b q =>
      by_cases hab : b = a
      · subst hab
        exact decidable_of_iff (∃ r, q = p ++ r)
          ⟨fun ⟨r, h⟩ => ⟨r, by simp [h]⟩, fun ⟨r, h⟩ => ⟨r, by injection h⟩⟩
      · exact .isFalse (by rintro ⟨r, h⟩; injection h with h1 _; exact hab h1)

/-! ### Directory entry lemmas -/

/-- Structural induction principle for entry lists alone (the mutual
recursor of the nested trees has multiple motives, so `induction` needs
this dedicated eliminator). -/
@[induction_eliminator]
def FSEntries.recE {motive : FSEntries → Prop} (nil : motive .nil)
    (cons : ∀ a n rest, motive rest → motive (.cons a n rest)) :
    ∀ cs, motive cs
  | .nil => nil
  | .cons a n rest => cons a n rest (FSEntries.recE nil cons rest)

namespace FSEntries

theorem find_set_self (cs : FSEntries) (a : String) (n : FSNode) :
    (cs.set a n).find a = some n := by
  induction cs with
  | nil => simp [set, find]
  | cons b m rest ih =>
    by_cases h : b = a
    · subst h; simp [set, find]
    · simp [set, find, h, ih]

theorem find_set_ne (cs : FSEntries) {a b : String} (n : FSNode) (h : b ≠ a) :
    (cs.set a n).find b = cs.find b := by
  have hab : ¬ a = b := fun hh => h hh.symm
  induction cs with
  | nil => simp [set, find, hab]
  | cons c m rest ih =>
    by_cases hc : c = a
    · subst hc
      simp [set, find, hab]
    · simp [set, find, hc, ih]

theorem find_remove_ne (cs : FSEntries) {a b : String} (h : b ≠ a) :
    (cs.remove a).find b = cs.find b := by
  have hab : ¬ a = b := fun hh => h hh.symm
  induction cs with
  | nil => simp [remove, find]
  | cons c m rest ih =>
    by_cases hc : c = a
    · subst hc
      simp [remove, find, hab]
    · simp [remove, find, hc, ih]

theorem mem_names_iff_find (cs : FSEntries) (a : String) :
    a ∈ cs.names ↔ (cs.find a).isSome := by
  induction cs with
  | nil => simp [names, find]
  | cons b m rest ih =>
    by_cases h : b = a
    · subst h; simp [names, find]
    · have hab : ¬ a = b := fun hh => h hh.symm
      simp [names, find, h, ih, hab]

theorem find_remove_self (cs : FSEntries) (a : String) :
    cs.names.Nodup → (cs.remove a).find a = none := by
  induction cs with
  | nil => intro _; simp [remove, find]
  | cons b m rest ih =>
    intro h
    simp only [names, List.nodup_cons] at h
    by_cases hb : b = a
    · subst hb
      rw [show (cons b m rest).remove b = rest from by simp [remove]]
      exact Option.not_isSome_iff_eq_none.mp
        (fun hs => h.1 ((mem_names_iff_find rest b).mpr hs))
    · simp [remove, find, hb, ih h.2]

theorem names_set_of_found (cs : FSEntries) {a : String} (n : FSNode)
    (h : (cs.find a).isSome) : (cs.set a n).names = cs.names := by
  induction cs with
  | nil => simp [find] at h
  | cons b m rest ih =>
    by_cases hb : b = a
    · subst hb; simp [set, names]
    · simp only [find, hb, if_false] at h
      simp [set, names, hb, ih h]

theorem names_set_of_not_found (cs : FSEntries) {a : String} (n : FSNode)
    (h : cs.find a = none) : (cs.set a n).names = cs.names ++ [a] := by
  induction cs with
  | nil => simp [set, names]
  | cons b m rest ih =>
    by_cases hb : b = a
    · subst hb; simp [find] at h
    · simp only [find, hb, if_false] at h
      simp [set, names, hb, ih h]

theorem names_remove_sub (cs : FSEntries) (a : String) :
    ∀ b, b ∈ (cs.remove a).names → b ∈ cs.names := by
  induction cs with
  | nil => simp [remove]
  | cons c m rest ih =>
    intro b hb
    by_cases hc : c = a
    · subst hc
      have hb' : b ∈ rest.names := by simpa [remove] using hb
      simp [names, hb']
    · simp only [remove, hc, if_false, names, List.mem_cons] at hb
      rcases hb with hb | hb
      · simp [names, hb]
      · simp [names, ih b hb]

theorem names_remove_nodup (cs : FSEntries) (a : String) (h : cs.names.Nodup) :
    (cs.remove a).names.Nodup := by
  induction cs with
  | nil => simp [remove, names]
  | cons c m rest ih =>
    simp only [names, List.nodup_cons] at h
    by_cases hc : c = a
    · subst hc; simpa [remove] using h.2
    · simp only [remove, hc, if_false, names, List.nodup_cons]
      exact ⟨fun hm => h.1 (names_remove_sub rest a c hm), ih h.2⟩

theorem names_set_nodup (cs : FSEntries) (a : String) (n : FSNode)
    (h : cs.names.Nodup) : (cs.set a n).names.Nodup := by
  cases hf : cs.find a with
  | some m => rwa [names_set_of_found cs n (by simp [hf])]
  | none =>
    rw [names_set_of_not_found cs n hf]
    simp only [List.nodup_append, List.nodup_cons]
    refine ⟨h, by simp, ?_⟩
    intro b hb
    simp only [List.mem_singleton]
    intro hba
    subst hba
    exact (by simp [hf] : ¬ (cs.find b).isSome) ((mem_names_iff_find cs b).mp hb)

theorem find_eq_of_mem_toList (cs : FSEntries) {a : String} {n : FSNode}
    (hnd : cs.names.Nodup) (h : (a, n) ∈ cs.toList) : cs.find a = some n := by
  induction cs with
  | nil => simp [toList] at h
  | cons b m rest ih =>
    simp only [toList, List.mem_cons, Prod.mk.injEq] at h
    simp only [names, List.nodup_cons] at hnd
    rcases h with ⟨rfl, rfl⟩ | h
    · simp [find]
    · have hmem : a ∈ rest.names := by
        have : (rest.find a).isSome := by simp [ih hnd.2 h]
        exact (mem_names_iff_find rest a).mpr this
      have hba : b ≠ a := fun hh => hnd.1 (hh ▸ hmem)
      simp [find, hba, ih hnd.2 h]

theorem mem_toList_of_find (cs : FSEntries) {a : String} {n : FSNode}
    (h : cs.find a = some n) : (a, n) ∈ cs.toList := by
  induction cs with
  | nil => simp [find] at h
  | cons b m rest ih =>
    by_cases hb : b = a
    · subst hb
      have h' : m = n := by simpa [find] using h
      simp [toList, h']
    · simp only [find, hb, if_false] at h
      simp [toList, ih h]

end FSEntries

namespace FSEntries

theorem remove_not_found (cs : FSEntries) {a : String} (h : cs.find a = none) :
    cs.remove a = cs := by
  induction cs with
  | nil => simp [remove]
  | cons b m rest ih =>
    by_cases hb : b = a
    · subst hb; simp [find] at h
    · simp only [find, hb, if_false] at h
      simp [remove, hb, ih h]

theorem set_self (cs : FSEntries) {a : String} {n : FSNode}
    (h : cs.find a = some n) : cs.set a n = cs := by
  induction cs with
  | nil => simp [find] at h
  | cons b m rest ih =>
    by_cases hb : b = a
    · subst hb
      have h' : m = n := by simpa [find] using h
      simp [set, h']
    · simp only [find, hb, if_false] at h
      simp [set, hb, ih h]

theorem toList_remove_sub (cs : FSEntries) (a : String) {b : String} {m : FSNode}
    (h : (b, m) ∈ (cs.remove a).toList) : (b, m) ∈ cs.toList := by
  induction cs with
  | nil => simp [remove, toList] at h
  | cons c n rest ih =>
    by_cases hc : c = a
    · subst hc
      have h' : (b, m) ∈ rest.toList := by simpa [remove] using h
      simp [toList, h']
    · simp only [remove, hc, if_false, toList, List.mem_cons] at h
      rcases h with h | h
      · simp [toList, h]
      · simp [toList, ih h]

theorem toList_set_mem (cs : FSEntries) (a : String) (n' : FSNode)
    {b : String} {m : FSNode} (h : (b, m) ∈ (cs.set a n').toList) :
    (b = a ∧ m = n') ∨ (b, m) ∈ cs.toList := by
  induction cs with
  | nil =>
    have h' : b = a ∧ m = n' := by simpa [set, toList] using h
    exact Or.inl h'
  | cons c k rest ih =>
    by_cases hc : c = a
    · subst hc
      simp only [set, if_pos rfl, toList, List.mem_cons, Prod.mk.injEq] at h
      rcases h with ⟨rfl, rfl⟩ | h
      · exact Or.inl ⟨rfl, rfl⟩
      · exact Or.inr (by simp [toList, h])
    · simp only [set, hc, if_false, toList, List.mem_cons, Prod.mk.injEq] at h
      rcases h with ⟨rfl, rfl⟩ | h
      · exact Or.inr (by simp [toList])
      · rcases ih h with h' | h'
        · exact Or.inl h'
        · exact Or.inr (by simp [toList, h'])

theorem names_eq_map (cs : FSEntries) : cs.names = cs.toList.map Prod.fst := by
  induction cs with
  | nil => simp [names, toList]
  | cons a n rest ih => simp [names, toList, ih]

theorem mem_ordered_iff (cs : FSEntries) (a : String) (n : FSNode) :
    (a, n) ∈ cs.ordered ↔ (a, n) ∈ cs.toList := by
  simp only [ordered, List.mem_append, List.mem_filter]
  constructor
  · rintro (⟨h, _⟩ | ⟨h, _⟩) <;> exact h
  · intro h
    by_cases hd : n.isDirB
    · exact Or.inl ⟨h, by simp [hd]⟩
    · exact Or.inr ⟨h, by simp [hd]⟩

theorem mem_dirNames_iff (cs : FSEntries) (a : String) :
    a ∈ cs.dirNames ↔ ∃ n, (a, n) ∈ cs.toList ∧ n.isDirB = true := by
  simp only [dirNames, List.mem_map, List.mem_filter]
  constructor
  · rintro ⟨⟨b, n⟩, ⟨hm, hd⟩, rfl⟩
    exact ⟨n, hm, hd⟩
  · rintro ⟨n, hm, hd⟩
    exact ⟨(a, n), ⟨hm, hd⟩, rfl⟩

theorem mem_fileNames_iff (cs : FSEntries) (a : String) :
    a ∈ cs.fileNames ↔ ∃ n, (a, n) ∈ cs.toList ∧ n.isDirB = false := by
  simp only [fileNames, List.mem_map, List.mem_filter]
  constructor
  · rintro ⟨⟨b, n⟩, ⟨hm, hd⟩, rfl⟩
    exact ⟨n, hm, by simpa using hd⟩
  · rintro ⟨n, hm, hd⟩
    exact ⟨(a, n), ⟨hm, by simpa using hd⟩, rfl⟩

theorem mem_names_of_mem_toList (cs : FSEntries) {a : String} {n : FSNode}
    (h : (a, n) ∈ cs.toList) : a ∈ cs.names := by
  rw [names_eq_map]
  exact List.mem_map.mpr ⟨(a, n), h, rfl⟩

theorem mem_allNames_iff (cs : FSEntries) (a : String) :
    a ∈ cs.dirNames ++ cs.fileNames ↔ (cs.find a).isSome := by
  rw [← mem_names_iff_find]
  simp only [List.mem_append, mem_dirNames_iff, mem_fileNames_iff]
  constructor
  · rintro (⟨n, hm, _⟩ | ⟨n, hm, _⟩) <;> exact mem_names_of_mem_toList cs hm
  · intro h
    obtain ⟨n, hn⟩ := Option.isSome_iff_exists.mp ((mem_names_iff_find cs a).mp h)
    have hm := mem_toList_of_find cs hn
    by_cases hd : n.isDirB
    · exact Or.inl ⟨n, hm, hd⟩
    · exact Or.inr ⟨n, hm, by simpa using hd⟩

end FSEntries

/-! ### Well-formed trees: distinct sibling names, as on a real filesystem -/

/-- A tree is well formed when every directory's children have pairwise
distinct names (guaranteed on a real filesystem). -/
inductive NodupTree : FSNode → Prop where
  | file (c : List Nat) (m : Nat) : NodupTree (.file c m)
  | dir (sz mt : Nat) (cs : FSEntries) :
      cs.names.Nodup → (∀ a n, (a, n) ∈ cs.toList → NodupTree n) →
      NodupTree (.dir sz mt cs)

mutual
/-- Executable well-formedness check on a node. -/
def FSNode.nodupB : FSNode → Bool
  | .file _ _ => true
  | .dir _ _ cs => decide cs.names.Nodup && cs.nodupBE
/-- Executable well-formedness check on an entry list. -/
def FSEntries.nodupBE : FSEntries → Bool
  | .nil => true
  | .cons _ n rest => n.nodupB && rest.nodupBE
end

mutual
/-- Mutual structural induction over nodes (helper). -/
def FSNode.recNGo {motive1 : FSNode → Prop} {motive2 : FSEntries → Prop}
    (hfile : ∀ c m, motive1 (.file c m))
    (hdir : ∀ sz mt cs, motive2 cs → motive1 (.dir sz mt cs))
    (hnil : motive2 .nil)
    (hcons : ∀ a n rest, motive1 n → motive2 rest → motive2 (.cons a n rest)) :
    ∀ n, motive1 n
  | .file c m => hfile c m
  | .dir sz mt cs => hdir sz mt cs (FSEntries.recNGoE hfile hdir hnil hcons cs)
/-- Mutual structural induction over entry lists (helper). -/
def FSEntries.recNGoE {motive1 : FSNode → Prop} {motive2 : FSEntries → Prop}
    (hfile : ∀ c m, motive1 (.file c m))
    (hdir : ∀ sz mt cs, motive2 cs → motive1 (.dir sz mt cs))
    (hnil : motive2 .nil)
    (hcons : ∀ a n rest, motive1 n → motive2 rest → motive2 (.cons a n rest)) :
    ∀ cs, motive2 cs
  | .nil => hnil
  | .cons a n rest =>
      hcons a n rest (FSNode.recNGo hfile hdir hnil hcons n)
        (FSEntries.recNGoE hfile hdir hnil hcons rest)
end

/-- Mutual structural induction over nodes and entry lists. -/
def FSNode.recN {motive1 : FSNode → Prop} {motive2 : FSEntries → Prop}
    (hfile : ∀ c m, motive1 (.file c m))
    (hdir : ∀ sz mt cs, motive2 cs → motive1 (.dir sz mt cs))
    (hnil : motive2 .nil)
    (hcons : ∀ a n rest, motive1 n → motive2 rest → motive2 (.cons a n rest)) :
    ∀ n, motive1 n :=
  FSNode.recNGo hfile hdir hnil hcons

theorem FSEntries.nodupBE_mem {cs : FSEntries} (h : cs.nodupBE = true)
    {a : String} {n : FSNode} (hm : (a, n) ∈ cs.toList) : n.nodupB = true := by
  induction cs with
  | nil => simp [toList] at hm
  | cons b m rest ih =>
    simp only [nodupBE, Bool.and_eq_true] at h
    simp only [toList, List.mem_cons, Prod.mk.injEq] at hm
    rcases hm with ⟨rfl, rfl⟩ | hm
    · exact h.1
    · exact ih h.2 hm

theorem nodupB_sound : ∀ n : FSNode, n.nodupB = true → NodupTree n :=
  @FSNode.recN (fun n => n.nodupB = true → NodupTree n)
    (fun cs => cs.nodupBE = true → ∀ a n, (a, n) ∈ cs.toList → NodupTree n)
    (fun c m _ => .file c m)
    (fun sz mt cs ih h => by
      simp only [FSNode.nodupB, Bool.and_eq_true, decide_eq_true_eq] at h
      exact .dir sz mt cs h.1 (ih h.2))
    (fun _ a n hm => by simp [FSEntries.toList] at hm)
    (fun a n rest ihn ihr h b m hm => by
      simp only [FSEntries.nodupBE, Bool.and_eq_true] at h
      simp only [FSEntries.toList, List.mem_cons, Prod.mk.injEq] at hm
      rcases hm with ⟨rfl, rfl⟩ | hm
      · exact ihn h.1
      · exact ihr h.2 b m hm)

theorem NodupTree.names_nodup {sz mt : Nat} {cs : FSEntries}
    (h : NodupTree (.dir sz mt cs)) : cs.names.Nodup := by
  cases h with | dir _ _ _ hnd _ => exact hnd

theorem NodupTree.child {sz mt : Nat} {cs : FSEntries} {a : String} {n : FSNode}
    (h : NodupTree (.dir sz mt cs)) (hf : cs.find a = some n) : NodupTree n := by
  cases h with
  | dir _ _ _ _ hmem => exact hmem a n (FSEntries.mem_toList_of_find cs hf)

/-! ### Lookup lemmas -/

theorem FSNode.lookup_append (t : FSNode) (p q : Path) :
    t.lookup (p ++ q) = (t.lookup p).bind fun n => n.lookup q := by
  induction p generalizing t with
  | nil => simp [lookup]
  | cons a p ih =>
    cases t with
    | file c m => simp [lookup]
    | dir sz mt cs =>
      simp only [List.cons_append, lookup]
      cases cs.find a with
      | some ch => simp [ih ch]
      | none => simp

theorem FSNode.lookup_single (sz mt : Nat) (cs : FSEntries) (a : String) :
    (FSNode.dir sz mt cs).lookup [a] = cs.find a := by
  simp only [lookup]
  cases cs.find a with
  | some ch => simp [lookup]
  | none => simp

theorem FSNode.lookup_child (t : FSNode) (p : Path) (a : String) :
    t.lookup (p ++ [a]) =
      match t.lookup p with
      | some (.dir _ _ cs) => cs.find a
      | _ => none := by
  rw [FSNode.lookup_append]
  cases h : t.lookup p with
  | none => simp
  | some n =>
    cases n with
    | file c m => simp [FSNode.lookup]
    | dir sz mt cs => simp [FSNode.lookup_single]

theorem isSome_lookup_of_under {t : FSNode} {p q : Path}
    (hu : Under q p) (h : (t.lookup q).isSome) : (t.lookup p).isSome := by
  obtain ⟨r, rfl⟩ := hu
  rw [FSNode.lookup_append] at h
  cases hl : t.lookup p with
  | none => rw [hl] at h; simp at h
  | some n => simp

theorem NodupTree.lookup {t : FSNode} {p : Path} {n : FSNode}
    (hw : NodupTree t) (h : t.lookup p = some n) : NodupTree n := by
  induction p generalizing t with
  | nil => simp only [FSNode.lookup] at h; injection h with h; exact h ▸ hw
  | cons a p ih =>
    cases t with
    | file c m => simp [FSNode.lookup] at h
    | dir sz mt cs =>
      simp only [FSNode.lookup] at h
      cases hf : cs.find a with
      | none => rw [hf] at h; cases h
      | some ch =>
        rw [hf] at h
        exact ih (hw.child hf) h

/-! ### Effects of `removeAt` (the core of `os.remove` and `shutil.rmtree`) -/

theorem removeAt_of_lookup_none (t : FSNode) (p : Path) (h : t.lookup p = none) :
    removeAt t p = t := by
  induction p generalizing t with
  | nil => simp [FSNode.lookup] at h
  | cons a p ih =>
    cases t with
    | file c m => simp [removeAt]
    | dir sz mt cs =>
      simp only [FSNode.lookup] at h
      cases p with
      | nil =>
        cases hf : cs.find a with
        | some ch => rw [hf] at h; simp [FSNode.lookup] at h
        | none => simp [removeAt, FSEntries.remove_not_found cs hf]
      | cons b q =>
        cases hf : cs.find a with
        | some ch =>
          rw [hf] at h
          simp only [removeAt, hf]
          rw [ih ch h, FSEntries.set_self cs hf]
        | none => simp [removeAt, hf]

theorem removeAt_lookup_disjoint (t : FSNode) (p q : Path)
    (h1 : ¬ Under q p) (h2 : ¬ Under p q) :
    (removeAt t p).lookup q = t.lookup q := by
  induction p generalizing t q with
  | nil => exact absurd (under_nil q) h1
  | cons a p ih =>
    cases q with
    | nil => exact absurd (under_nil (a :: p)) h2
    | cons b q' =>
      cases t with
      | file c m => simp [removeAt]
      | dir sz mt cs =>
        by_cases hab : b = a
        · subst hab
          have h1' : ¬ Under q' p := fun hu =>
            h1 (under_cons_iff.mpr ⟨q', rfl, hu⟩)
          have h2' : ¬ Under p q' := fun hu =>
            h2 (under_cons_iff.mpr ⟨p, rfl, hu⟩)
          cases p with
          | nil => exact absurd (under_nil q') h1'
          | cons x xs =>
            simp only [removeAt]
            cases hf : cs.find b with
            | some ch =>
              simp only [FSNode.lookup, FSEntries.find_set_self]
              rw [hf, ih ch q' h1' h2']
            | none => simp [FSNode.lookup, hf]
        · have hne : ¬ (a : String) = b := fun hh => hab hh.symm
          cases p with
          | nil =>
            simp only [removeAt, FSNode.lookup]
            rw [FSEntries.find_remove_ne cs (fun hh => hab hh)]
          | cons x xs =>
            simp only [removeAt]
            cases hf : cs.find a with
            | some ch =>
              simp only [FSNode.lookup]
              rw [FSEntries.find_set_ne cs _ (fun hh => hab hh)]
            | none => rfl

theorem removeAt_lookup_under (t : FSNode) (p q : Path) (hw : NodupTree t)
    (hp : p ≠ []) (hu : Under q p) : (removeAt t p).lookup q = none := by
  induction p generalizing t q with
  | nil => exact absurd rfl hp
  | cons a p ih =>
    obtain ⟨q', rfl, hu'⟩ := under_cons_iff.mp hu
    cases t with
    | file c m => simp [removeAt, FSNode.lookup]
    | dir sz mt cs =>
      cases p with
      | nil =>
        simp only [removeAt]
        have hrm := FSEntries.find_remove_self cs a hw.names_nodup
        simp [FSNode.lookup, hrm]
      | cons y ys =>
        simp only [removeAt]
        cases hf : cs.find a with
        | some ch =>
          simp only [FSNode.lookup, FSEntries.find_set_self]
          exact ih ch q' (hw.child hf) (by simp) hu'
        | none => simp [FSNode.lookup, hf]

theorem removeAt_lookup_dir_spine (t : FSNode) (p q : Path)
    (hu : Under p q) (hne : q ≠ p) {sz mt : Nat} {cs : FSEntries}
    (h : t.lookup q = some (.dir sz mt cs)) :
    ∃ cs', (removeAt t p).lookup q = some (.dir sz mt cs') := by
  induction q generalizing t p with
  | nil =>
    cases t with
    | file c m => simp [FSNode.lookup] at h
    | dir sz' mt' cs' =>
      have h' : FSNode.dir sz' mt' cs' = .dir sz mt cs := by
        simpa [FSNode.lookup] using h
      cases p with
      | nil => exact absurd rfl hne
      | cons a p =>
        injection h' with e1 e2 e3
        subst e1; subst e2
        cases p with
        | nil => exact ⟨cs'.remove a, by simp [removeAt, FSNode.lookup]⟩
        | cons x xs =>
          simp only [removeAt]
          cases hf : cs'.find a with
          | some ch => exact ⟨cs'.set a (removeAt ch (x :: xs)), by simp [FSNode.lookup]⟩
          | none => exact ⟨cs', by simp [FSNode.lookup]⟩
  | cons b q' ih =>
    obtain ⟨p', rfl, hu'⟩ := under_cons_iff.mp hu
    have hne' : q' ≠ p' := fun hh => hne (by rw [hh])
    cases t with
    | file c m => simp [FSNode.lookup] at h
    | dir sz' mt' cs' =>
      simp only [FSNode.lookup] at h
      cases hf : cs'.find b with
      | none => rw [hf] at h; cases h
      | some ch =>
        rw [hf] at h
        cases p' with
        | nil =>
          obtain ⟨r, hr⟩ := hu'
          have hq' : q' = [] := by
            cases q' with
            | nil => rfl
            | cons u us => simp at hr
          exact absurd hq' hne'
        | cons x xs =>
          simp only [removeAt]
          rw [hf]
          obtain ⟨cs'', hcs''⟩ := ih ch (x :: xs) hu' hne' h
          refine ⟨cs'', ?_⟩
          simp only [FSNode.lookup, FSEntries.find_set_self]
          exact hcs''

/-! ### Effects of `writeFile` (the destination side of `shutil.copy2`) -/

theorem writeFile_lookup_self {t t' : FSNode} {p : Path} {c : List Nat} {m : Nat}
    (h : writeFile t p c m = .ok t') : t'.lookup p = some (.file c m) := by
  induction p generalizing t t' with
  | nil =>
    cases t with
    | file c0 m0 => simp [writeFile] at h
    | dir sz mt cs => simp [writeFile] at h
  | cons a p ih =>
    cases t with
    | file c0 m0 => simp [writeFile] at h
    | dir sz mt cs =>
      cases p with
      | nil =>
        cases hf : cs.find a with
        | some ch =>
          cases ch with
          | dir s2 m2 cs2 => simp [writeFile, hf] at h
          | file c2 m2 =>
            simp only [writeFile, hf] at h
            injection h with h
            subst h
            simp [FSNode.lookup_single, FSEntries.find_set_self]
        | none =>
          simp only [writeFile, hf] at h
          injection h with h
          subst h
          simp [FSNode.lookup_single, FSEntries.find_set_self]
      | cons x xs =>
        cases hf : cs.find a with
        | some ch =>
          simp only [writeFile, hf] at h
          cases hw : writeFile ch (x :: xs) c m with
          | error e => rw [hw] at h; simp [Except.map] at h
          | ok ch' =>
            rw [hw] at h
            simp only [Except.map] at h
            injection h with h
            subst h
            simp only [FSNode.lookup, FSEntries.find_set_self]
            exact ih hw
        | none => simp [writeFile, hf] at h

theorem writeFile_frame {t t' : FSNode} {p : Path} {c : List Nat} {m : Nat}
    (h : writeFile t p c m = .ok t') (q : Path) (hq : ¬ Under p q) :
    t'.lookup q = t.lookup q := by
  induction p generalizing t t' q with
  | nil =>
    cases t with
    | file c0 m0 => simp [writeFile] at h
    | dir sz mt cs => simp [writeFile] at h
  | cons a p ih =>
    cases t with
    | file c0 m0 => simp [writeFile] at h
    | dir sz mt cs =>
      cases q with
      | nil => exact absurd (under_nil (a :: p)) hq
      | cons b q' =>
        by_cases hab : b = a
        · subst hab
          have hq' : ¬ Under p q' := fun hu => hq (under_cons_iff.mpr ⟨p, rfl, hu⟩)
          cases p with
          | nil =>
            have hq'ne : q' ≠ [] := by
              intro hh; exact hq' (hh ▸ under_refl [])
            cases hf : cs.find b with
            | some ch =>
              cases ch with
              | dir s2 m2 cs2 => simp [writeFile, hf] at h
              | file c2 m2 =>
                simp only [writeFile, hf] at h
                injection h with h
                subst h
                cases q' with
                | nil => exact absurd rfl hq'ne
                | cons u us =>
                  simp [FSNode.lookup, FSEntries.find_set_self, hf]
            | none =>
              simp only [writeFile, hf] at h
              injection h with h
              subst h
              cases q' with
              | nil => exact absurd rfl hq'ne
              | cons u us =>
                simp [FSNode.lookup, FSEntries.find_set_self, hf]
          | cons x xs =>
            cases hf : cs.find b with
            | some ch =>
              simp only [writeFile, hf] at h
              cases hw : writeFile ch (x :: xs) c m with
              | error e => rw [hw] at h; simp [Except.map] at h
              | ok ch' =>
                rw [hw] at h
                simp only [Except.map] at h
                injection h with h
                subst h
                simp only [FSNode.lookup, FSEntries.find_set_self, hf]
                exact ih hw q' hq'
            | none => simp [writeFile, hf] at h
        · have hne : ¬ (a : String) = b := fun hh => hab hh.symm
          cases p with
          | nil =>
            cases hf : cs.find a with
            | some ch =>
              cases ch with
              | dir s2 m2 cs2 => simp [writeFile, hf] at h
              | file c2 m2 =>
                simp only [writeFile, hf] at h
                injection h with h
                subst h
                simp only [FSNode.lookup]
                rw [FSEntries.find_set_ne cs _ (fun hh => hab hh)]
            | none =>
              simp only [writeFile, hf] at h
              injection h with h
              subst h
              simp only [FSNode.lookup]
              rw [FSEntries.find_set_ne cs _ (fun hh => hab hh)]
          | cons x xs =>
            cases hf : cs.find a with
            | some ch =>
              simp only [writeFile, hf] at h
              cases hw : writeFile ch (x :: xs) c m with
              | error e => rw [hw] at h; simp [Except.map] at h
              | ok ch' =>
                rw [hw] at h
                simp only [Except.map] at h
                injection h with h
                subst h
                simp only [FSNode.lookup]
                rw [FSEntries.find_set_ne cs _ (fun hh => hab hh)]
            | none => simp [writeFile, hf] at h

theorem writeFile_spine_pre {t t' : FSNode} {p : Path} {c : List Nat} {m : Nat}
    (h : writeFile t p c m = .ok t') (q : Path) (hu : Under p q) (hne : q ≠ p) :
    ∃ sz mt cs, t.lookup q = some (.dir sz mt cs) := by
  induction p generalizing t t' q with
  | nil =>
    cases t with
    | file c0 m0 => simp [writeFile] at h
    | dir sz mt cs => simp [writeFile] at h
  | cons a p ih =>
    cases t with
    | file c0 m0 => simp [writeFile] at h
    | dir sz mt cs =>
      cases q with
      | nil => exact ⟨sz, mt, cs, rfl⟩
      | cons b q' =>
        obtain ⟨r, hr⟩ := hu
        have hb : a = b := by injection hr
        subst hb
        have hr' : p = q' ++ r := by injection hr
        cases p with
        | nil =>
          have hq' : q' = [] := by
            cases q' with
            | nil => rfl
            | cons u us => simp at hr'
          exact absurd (by rw [hq'] : a :: q' = [a]) hne
        | cons x xs =>
          cases hf : cs.find a with
          | some ch =>
            simp only [writeFile, hf] at h
            cases hw : writeFile ch (x :: xs) c m with
            | error e => rw [hw] at h; simp [Except.map] at h
            | ok ch' =>
              have hne' : q' ≠ x :: xs := fun hh => hne (by rw [hh])
              obtain ⟨s2, m2, cs2, hlk⟩ := ih hw q' ⟨r, hr'⟩ hne'
              refine ⟨s2, m2, cs2, ?_⟩
              simp only [FSNode.lookup, hf]
              exact hlk
          | none => simp [writeFile, hf] at h

/-! ### Effects of `mkdirs` (`os.makedirs`) -/

theorem mkdirs_cons_some {exOk : Bool} {sz mt : Nat} {cs : FSEntries}
    {a : String} {ch : FSNode} (x : String) (xs : List String)
    (hf : cs.find a = some ch) :
    mkdirs exOk (.dir sz mt cs) (a :: x :: xs) =
      (mkdirs exOk ch (x :: xs)).map fun c' => .dir sz mt (cs.set a c') := by
  simp only [mkdirs, hf]

theorem mkdirs_cons_none {exOk : Bool} {sz mt : Nat} {cs : FSEntries}
    {a : String} (x : String) (xs : List String)
    (hf : cs.find a = none) :
    mkdirs exOk (.dir sz mt cs) (a :: x :: xs) =
      (mkdirs exOk (.dir 0 0 .nil) (x :: xs)).map fun c' => .dir sz mt (cs.set a c') := by
  simp only [mkdirs, hf]

theorem mkdirs_lookup_self {exOk : Bool} {t t' : FSNode} {p : Path}
    (h : mkdirs exOk t p = .ok t') :
    ∃ sz mt cs, t'.lookup p = some (.dir sz mt cs) := by
  induction p generalizing t t' with
  | nil =>
    cases t with
    | file c0 m0 => simp [mkdirs] at h
    | dir sz mt cs =>
      cases exOk with
      | false => simp [mkdirs] at h
      | true =>
        have h' : t' = .dir sz mt cs := by simpa [mkdirs] using h.symm
        exact ⟨sz, mt, cs, by simp [h', FSNode.lookup]⟩
  | cons a p ih =>
    cases t with
    | file c0 m0 => simp [mkdirs] at h
    | dir sz mt cs =>
      cases p with
      | nil =>
        cases hf : cs.find a with
        | some ch =>
          simp only [mkdirs, hf] at h
          by_cases hd : exOk && ch.isDirB
          · rw [if_pos hd] at h
            injection h with h
            subst h
            cases ch with
            | file c2 m2 => simp [FSNode.isDirB] at hd
            | dir s2 m2 cs2 =>
              exact ⟨s2, m2, cs2, by rw [FSNode.lookup_single, hf]⟩
          · rw [if_neg hd] at h; cases h
        | none =>
          simp only [mkdirs, hf] at h
          injection h with h
          subst h
          exact ⟨0, 0, .nil, by rw [FSNode.lookup_single, FSEntries.find_set_self]⟩
      | cons x xs =>
        cases hf : cs.find a with
        | some ch =>
          simp only [mkdirs, hf] at h
          cases hm : mkdirs exOk ch (x :: xs) with
          | error e => rw [hm] at h; simp [Except.map] at h
          | ok ch' =>
            rw [hm] at h
            simp only [Except.map] at h
            injection h with h
            subst h
            obtain ⟨s2, m2, cs2, hlk⟩ := ih hm
            exact ⟨s2, m2, cs2, by
              simp only [FSNode.lookup, FSEntries.find_set_self]
              exact hlk⟩
        | none =>
          rw [mkdirs_cons_none x xs hf] at h
          cases hm : mkdirs exOk (.dir 0 0 .nil) (x :: xs) with
          | error e => rw [hm] at h; simp [Except.map] at h
          | ok ch' =>
            rw [hm] at h
            simp only [Except.map] at h
            injection h with h
            subst h
            obtain ⟨s2, m2, cs2, hlk⟩ := ih hm
            exact ⟨s2, m2, cs2, by
              simp only [FSNode.lookup, FSEntries.find_set_self]
              exact hlk⟩

theorem mkdirs_frame {exOk : Bool} {t t' : FSNode} {p : Path}
    (h : mkdirs exOk t p = .ok t') (q : Path) (hq : ¬ Under p q) :
    t'.lookup q = t.lookup q := by
  induction p generalizing t t' q with
  | nil =>
    cases t with
    | file c0 m0 => simp [mkdirs] at h
    | dir sz mt cs =>
      cases exOk with
      | false => simp [mkdirs] at h
      | true =>
        have h' : t' = .dir sz mt cs := by simpa [mkdirs] using h.symm
        rw [h']
  | cons a p ih =>
    cases t with
    | file c0 m0 => simp [mkdirs] at h
    | dir sz mt cs =>
      cases q with
      | nil => exact absurd (under_nil (a :: p)) hq
      | cons b q' =>
        by_cases hab : b = a
        · subst hab
          have hq' : ¬ Under p q' := fun hu => hq (under_cons_iff.mpr ⟨p, rfl, hu⟩)
          cases p with
          | nil =>
            have hq'ne : q' ≠ [] := by
              intro hh; exact hq' (hh ▸ under_refl [])
            cases hf : cs.find b with
            | some ch =>
              simp only [mkdirs, hf] at h
              by_cases hd : exOk && ch.isDirB
              · rw [if_pos hd] at h
                injection h with h
                subst h
                rfl
              · rw [if_neg hd] at h; cases h
            | none =>
              simp only [mkdirs, hf] at h
              injection h with h
              subst h
              cases q' with
              | nil => exact absurd rfl hq'ne
              | cons u us =>
                simp [FSNode.lookup, FSEntries.find_set_self, hf, FSEntries.find]
          | cons x xs =>
            cases hf : cs.find b with
            | some ch =>
              simp only [mkdirs, hf] at h
              cases hm : mkdirs exOk ch (x :: xs) with
              | error e => rw [hm] at h; simp [Except.map] at h
              | ok ch' =>
                rw [hm] at h
                simp only [Except.map] at h
                injection h with h
                subst h
                simp only [FSNode.lookup, FSEntries.find_set_self, hf]
                exact ih hm q' hq'
            | none =>
              rw [mkdirs_cons_none x xs hf] at h
              cases hm : mkdirs exOk (.dir 0 0 .nil) (x :: xs) with
              | error e => rw [hm] at h; simp [Except.map] at h
              | ok ch' =>
                rw [hm] at h
                simp only [Except.map] at h
                injection h with h
                subst h
                simp only [FSNode.lookup, FSEntries.find_set_self, hf]
                rw [ih hm q' hq']
                cases q' with
                | nil => exact absurd (under_nil (x :: xs)) hq'
                | cons u us => simp [FSNode.lookup, FSEntries.find]
        · have hne : ¬ (a : String) = b := fun hh => hab hh.symm
          have hfr : ∀ cs' : FSEntries, ∀ c' : FSNode,
              (FSNode.dir sz mt (cs'.set a c')).lookup (b :: q') =
                match cs'.find b with
                | some ch => ch.lookup q'
                | none => none := by
            intro cs' c'
            simp only [FSNode.lookup]
            rw [FSEntries.find_set_ne cs' _ (fun hh => hab hh)]
          cases p with
          | nil =>
            cases hf : cs.find a with
            | some ch =>
              simp only [mkdirs, hf] at h
              by_cases hd : exOk && ch.isDirB
              · rw [if_pos hd] at h
                injection h with h
                subst h
                rfl
              · rw [if_neg hd] at h; cases h
            | none =>
              simp only [mkdirs, hf] at h
              injection h with h
              subst h
              exact hfr cs _
          | cons x xs =>
            cases hf : cs.find a with
            | some ch =>
              simp only [mkdirs, hf] at h
              cases hm : mkdirs exOk ch (x :: xs) with
              | error e => rw [hm] at h; simp [Except.map] at h
              | ok ch' =>
                rw [hm] at h
                simp only [Except.map] at h
                injection h with h
                subst h
                exact hfr cs ch'
            | none =>
              rw [mkdirs_cons_none x xs hf] at h
              cases hm : mkdirs exOk (.dir 0 0 .nil) (x :: xs) with
              | error e => rw [hm] at h; simp [Except.map] at h
              | ok ch' =>
                rw [hm] at h
                simp only [Except.map] at h
                injection h with h
                subst h
                exact hfr cs ch'

theorem NodupTree.mem {sz mt : Nat} {cs : FSEntries} {a : String} {n : FSNode}
    (h : NodupTree (.dir sz mt cs)) (hm : (a, n) ∈ cs.toList) : NodupTree n := by
  cases h with
  | dir _ _ _ _ hmem => exact hmem a n hm

theorem writeFile_file_pres {t t' : FSNode} {p : Path} {c : List Nat} {m : Nat}
    (h : writeFile t p c m = .ok t') (q : Path) (hne : q ≠ p)
    {c0 : List Nat} {m0 : Nat} (hq : t.lookup q = some (.file c0 m0)) :
    t'.lookup q = some (.file c0 m0) := by
  by_cases hu : Under p q
  · obtain ⟨s2, m2, cs2, hd⟩ := writeFile_spine_pre h q hu hne
    rw [hq] at hd
    simp at hd
  · rw [writeFile_frame h q hu, hq]

theorem writeFile_dir_pres {t t' : FSNode} {p : Path} {c : List Nat} {m : Nat}
    (h : writeFile t p c m = .ok t') (q : Path)
    {s0 mt0 : Nat} {cs0 : FSEntries} (hq : t.lookup q = some (.dir s0 mt0 cs0)) :
    ∃ cs1, t'.lookup q = some (.dir s0 mt0 cs1) := by
  induction p generalizing t t' q with
  | nil =>
    cases t with
    | file c0 m0 => simp [writeFile] at h
    | dir sz mt cs => simp [writeFile] at h
  | cons a p ih =>
    cases t with
    | file c0 m0 => simp [writeFile] at h
    | dir sz mt cs =>
      cases q with
      | nil =>
        have hq' : FSNode.dir sz mt cs = .dir s0 mt0 cs0 := by
          simpa [FSNode.lookup] using hq
        injection hq' with e1 e2 e3
        subst e1; subst e2
        cases p with
        | nil =>
          cases hf : cs.find a with
          | some ch =>
            cases ch with
            | dir s2 m2 cs2 => simp [writeFile, hf] at h
            | file c2 m2 =>
              simp only [writeFile, hf] at h
              injection h with h
              subst h
              exact ⟨cs.set a (.file c m), rfl⟩
          | none =>
            simp only [writeFile, hf] at h
            injection h with h
            subst h
            exact ⟨cs.set a (.file c m), rfl⟩
        | cons x xs =>
          cases hf : cs.find a with
          | some ch =>
            simp only [writeFile, hf] at h
            cases hw : writeFile ch (x :: xs) c m with
            | error e => rw [hw] at h; simp [Except.map] at h
            | ok ch' =>
              rw [hw] at h
              simp only [Except.map] at h
              injection h with h
              subst h
              exact ⟨cs.set a ch', rfl⟩
          | none => simp [writeFile, hf] at h
      | cons b q' =>
        by_cases hab : b = a
        · subst hab
          simp only [FSNode.lookup] at hq
          cases hf : cs.find b with
          | none => rw [hf] at hq; cases hq
          | some ch =>
            rw [hf] at hq
            cases p with
            | nil =>
              cases ch with
              | dir s2 m2 cs2 => simp [writeFile, hf] at h
              | file c2 m2 =>
                cases q' with
                | nil => simp [FSNode.lookup] at hq
                | cons u us => simp [FSNode.lookup] at hq
            | cons x xs =>
              simp only [writeFile, hf] at h
              cases hw : writeFile ch (x :: xs) c m with
              | error e => rw [hw] at h; simp [Except.map] at h
              | ok ch' =>
                rw [hw] at h
                simp only [Except.map] at h
                injection h with h
                subst h
                obtain ⟨cs1, hcs1⟩ := ih hw q' hq
                refine ⟨cs1, ?_⟩
                simp only [FSNode.lookup, FSEntries.find_set_self]
                exact hcs1
        · have hlk : t'.lookup (b :: q') = (FSNode.dir sz mt cs).lookup (b :: q') := by
            refine writeFile_frame h (b :: q') ?_
            rintro ⟨r, hr⟩
            exact hab (by injection hr with h1 _; exact h1.symm)
          exact ⟨cs0, by rw [hlk, hq]⟩

theorem mkdirs_file_pres {exOk : Bool} {t t' : FSNode} {p : Path}
    (h : mkdirs exOk t p = .ok t') (q : Path)
    {c0 : List Nat} {m0 : Nat} (hq : t.lookup q = some (.file c0 m0)) :
    t'.lookup q = some (.file c0 m0) := by
  induction p generalizing t t' q with
  | nil =>
    cases t with
    | file c1 m1 => simp [mkdirs] at h
    | dir sz mt cs =>
      cases exOk with
      | false => simp [mkdirs] at h
      | true =>
        have h' : t' = .dir sz mt cs := by simpa [mkdirs] using h.symm
        rw [h', hq]
  | cons a p ih =>
    cases t with
    | file c1 m1 => simp [mkdirs] at h
    | dir sz mt cs =>
      cases q with
      | nil => simp [FSNode.lookup] at hq
      | cons b q' =>
        by_cases hab : b = a
        · subst hab
          simp only [FSNode.lookup] at hq
          cases hf : cs.find b with
          | none => rw [hf] at hq; cases hq
          | some ch =>
            rw [hf] at hq
            cases p with
            | nil =>
              simp only [mkdirs, hf] at h
              by_cases hd : exOk && ch.isDirB
              · rw [if_pos hd] at h
                injection h with h
                subst h
                simp only [FSNode.lookup, hf]
                exact hq
              · rw [if_neg hd] at h; cases h
            | cons x xs =>
              rw [mkdirs_cons_some x xs hf] at h
              cases hm : mkdirs exOk ch (x :: xs) with
              | error e => rw [hm] at h; simp [Except.map] at h
              | ok ch' =>
                rw [hm] at h
                simp only [Except.map] at h
                injection h with h
                subst h
                simp only [FSNode.lookup, FSEntries.find_set_self]
                exact ih hm q' hq
        · have hfind : t'.lookup (b :: q') = (FSNode.dir sz mt cs).lookup (b :: q') := by
            refine mkdirs_frame h (b :: q') ?_
            rintro ⟨r, hr⟩
            exact hab (by injection hr with h1 _; exact h1.symm)
          rw [hfind, hq]

theorem mkdirs_dir_pres {exOk : Bool} {t t' : FSNode} {p : Path}
    (h : mkdirs exOk t p = .ok t') (q : Path)
    {s0 mt0 : Nat} {cs0 : FSEntries} (hq : t.lookup q = some (.dir s0 mt0 cs0)) :
    ∃ cs1, t'.lookup q = some (.dir s0 mt0 cs1) := by
  induction p generalizing t t' q with
  | nil =>
    cases t with
    | file c1 m1 => simp [mkdirs] at h
    | dir sz mt cs =>
      cases exOk with
      | false => simp [mkdirs] at h
      | true =>
        have h' : t' = .dir sz mt cs := by simpa [mkdirs] using h.symm
        exact ⟨cs0, by rw [h', hq]⟩
  | cons a p ih =>
    cases t with
    | file c1 m1 => simp [mkdirs] at h
    | dir sz mt cs =>
      cases q with
      | nil =>
        have hq' : FSNode.dir sz mt cs = .dir s0 mt0 cs0 := by
          simpa [FSNode.lookup] using hq
        injection hq' with e1 e2 e3
        subst e1; subst e2
        cases p with
        | nil =>
          cases hf : cs.find a with
          | some ch =>
            simp only [mkdirs, hf] at h
            by_cases hd : exOk && ch.isDirB
            · rw [if_pos hd] at h
              injection h with h
              subst h
              exact ⟨cs, rfl⟩
            · rw [if_neg hd] at h; cases h
          | none =>
            simp only [mkdirs, hf] at h
            injection h with h
            subst h
            exact ⟨cs.set a (.dir 0 0 .nil), rfl⟩
        | cons x xs =>
          cases hf : cs.find a with
          | some ch =>
            rw [mkdirs_cons_some x xs hf] at h
            cases hm : mkdirs exOk ch (x :: xs) with
            | error e => rw [hm] at h; simp [Except.map] at h
            | ok ch' =>
              rw [hm] at h
              simp only [Except.map] at h
              injection h with h
              subst h
              exact ⟨cs.set a ch', rfl⟩
          | none =>
            rw [mkdirs_cons_none x xs hf] at h
            cases hm : mkdirs exOk (.dir 0 0 .nil) (x :: xs) with
            | error e => rw [hm] at h; simp [Except.map] at h
            | ok ch' =>
              rw [hm] at h
              simp only [Except.map] at h
              injection h with h
              subst h
              exact ⟨cs.set a ch', rfl⟩
      | cons b q' =>
        by_cases hab : b = a
        · subst hab
          simp only [FSNode.lookup] at hq
          cases hf : cs.find b with
          | none => rw [hf] at hq; cases hq
          | some ch =>
            rw [hf] at hq
            cases p with
            | nil =>
              simp only [mkdirs, hf] at h
              by_cases hd : exOk && ch.isDirB
              · rw [if_pos hd] at h
                injection h with h
                subst h
                refine ⟨cs0, ?_⟩
                simp only [FSNode.lookup, hf]
                exact hq
              · rw [if_neg hd] at h; cases h
            | cons x xs =>
              rw [mkdirs_cons_some x xs hf] at h
              cases hm : mkdirs exOk ch (x :: xs) with
              | error e => rw [hm] at h; simp [Except.map] at h
              | ok ch' =>
                rw [hm] at h
                simp only [Except.map] at h
                injection h with h
                subst h
                obtain ⟨cs1, hcs1⟩ := ih hm q' hq
                refine ⟨cs1, ?_⟩
                simp only [FSNode.lookup, FSEntries.find_set_self]
                exact hcs1
        · have hfind : t'.lookup (b :: q') = (FSNode.dir sz mt cs).lookup (b :: q') := by
            refine mkdirs_frame h (b :: q') ?_
            rintro ⟨r, hr⟩
            exact hab (by injection hr with h1 _; exact h1.symm)
          exact ⟨cs0, by rw [hfind, hq]⟩

/-! ### Well-formedness preservation -/

theorem nodup_removeAt (t : FSNode) (p : Path) (hw : NodupTree t) :
    NodupTree (removeAt t p) := by
  induction p generalizing t with
  | nil => simpa [removeAt] using hw
  | cons a p ih =>
    cases t with
    | file c m => exact hw
    | dir sz mt cs =>
      cases p with
      | nil =>
        refine .dir sz mt (cs.remove a)
          (FSEntries.names_remove_nodup cs a hw.names_nodup) ?_
        intro b n hm
        exact hw.mem (FSEntries.toList_remove_sub cs a hm)
      | cons x xs =>
        simp only [removeAt]
        cases hf : cs.find a with
        | none => exact hw
        | some ch =>
          refine .dir sz mt _
            (FSEntries.names_set_nodup cs a _ hw.names_nodup) ?_
          intro b n hm
          rcases FSEntries.toList_set_mem cs a _ hm with ⟨rfl, rfl⟩ | hmem
          · exact ih ch (hw.child hf)
          · exact hw.mem hmem

theorem nodup_writeFile {t t' : FSNode} {p : Path} {c : List Nat} {m : Nat}
    (h : writeFile t p c m = .ok t') (hw : NodupTree t) : NodupTree t' := by
  induction p generalizing t t' with
  | nil =>
    cases t with
    | file c0 m0 => simp [writeFile] at h
    | dir sz mt cs => simp [writeFile] at h
  | cons a p ih =>
    cases t with
    | file c0 m0 => simp [writeFile] at h
    | dir sz mt cs =>
      cases p with
      | nil =>
        cases hf : cs.find a with
        | some ch =>
          cases ch with
          | dir s2 m2 cs2 => simp [writeFile, hf] at h
          | file c2 m2 =>
            simp only [writeFile, hf] at h
            injection h with h
            subst h
            refine .dir sz mt _ (FSEntries.names_set_nodup cs a _ hw.names_nodup) ?_
            intro b n hm
            rcases FSEntries.toList_set_mem cs a _ hm with ⟨rfl, rfl⟩ | hmem
            · exact .file c m
            · exact hw.mem hmem
        | none =>
          simp only [writeFile, hf] at h
          injection h with h
          subst h
          refine .dir sz mt _ (FSEntries.names_set_nodup cs a _ hw.names_nodup) ?_
          intro b n hm
          rcases FSEntries.toList_set_mem cs a _ hm with ⟨rfl, rfl⟩ | hmem
          · exact .file c m
          · exact hw.mem hmem
      | cons x xs =>
        cases hf : cs.find a with
        | some ch =>
          simp only [writeFile, hf] at h
          cases hwr : writeFile ch (x :: xs) c m with
          | error e => rw [hwr] at h; simp [Except.map] at h
          | ok ch' =>
            rw [hwr] at h
            simp only [Except.map] at h
            injection h with h
            subst h
            refine .dir sz mt _ (FSEntries.names_set_nodup cs a _ hw.names_nodup) ?_
            intro b n hm
            rcases FSEntries.toList_set_mem cs a _ hm with ⟨rfl, rfl⟩ | hmem
            · exact ih hwr (hw.child hf)
            · exact hw.mem hmem
        | none => simp [writeFile, hf] at h

theorem nodup_mkdirs {exOk : Bool} {t t' : FSNode} {p : Path}
    (h : mkdirs exOk t p = .ok t') (hw : NodupTree t) : NodupTree t' := by
  induction p generalizing t t' with
  | nil =>
    cases t with
    | file c0 m0 => simp [mkdirs] at h
    | dir sz mt cs =>
      cases exOk with
      | false => simp [mkdirs] at h
      | true =>
        have h' : t' = .dir sz mt cs := by simpa [mkdirs] using h.symm
        rw [h']; exact hw
  | cons a p ih =>
    cases t with
    | file c0 m0 => simp [mkdirs] at h
    | dir sz mt cs =>
      cases p with
      | nil =>
        cases hf : cs.find a with
        | some ch =>
          simp only [mkdirs, hf] at h
          by_cases hd : exOk && ch.isDirB
          · rw [if_pos hd] at h
            injection h with h
            subst h
            exact hw
          · rw [if_neg hd] at h; cases h
        | none =>
          simp only [mkdirs, hf] at h
          injection h with h
          subst h
          refine .dir sz mt _ (FSEntries.names_set_nodup cs a _ hw.names_nodup) ?_
          intro b n hm
          rcases FSEntries.toList_set_mem cs a _ hm with ⟨rfl, rfl⟩ | hmem
          · exact .dir 0 0 .nil (by simp [FSEntries.names]) (by simp [FSEntries.toList])
          · exact hw.mem hmem
      | cons x xs =>
        cases hf : cs.find a with
        | some ch =>
          rw [mkdirs_cons_some x xs hf] at h
          cases hm : mkdirs exOk ch (x :: xs) with
          | error e => rw [hm] at h; simp [Except.map] at h
          | ok ch' =>
            rw [hm] at h
            simp only [Except.map] at h
            injection h with h
            subst h
            refine .dir sz mt _ (FSEntries.names_set_nodup cs a _ hw.names_nodup) ?_
            intro b n hmm
            rcases FSEntries.toList_set_mem cs a _ hmm with ⟨rfl, rfl⟩ | hmem
            · exact ih hm (hw.child hf)
            · exact hw.mem hmem
        | none =>
          rw [mkdirs_cons_none x xs hf] at h
          cases hm : mkdirs exOk (.dir 0 0 .nil) (x :: xs) with
          | error e => rw [hm] at h; simp [Except.map] at h
          | ok ch' =>
            rw [hm] at h
            simp only [Except.map] at h
            injection h with h
            subst h
            refine .dir sz mt _ (FSEntries.names_set_nodup cs a _ hw.names_nodup) ?_
            intro b n hmm
            rcases FSEntries.toList_set_mem cs a _ hmm with ⟨rfl, rfl⟩ | hmem
            · exact ih hm (.dir 0 0 .nil (by simp [FSEntries.names]) (by simp [FSEntries.toList]))
            · exact hw.mem hmem

/-! ### Depth lemmas -/

theorem FSEntries.depthE_ge {cs : FSEntries} {a : String} {n : FSNode}
    (h : (a, n) ∈ cs.toList) : n.depth ≤ cs.depthE := by
  induction cs with
  | nil => simp [toList] at h
  | cons b m rest ih =>
    simp only [toList, List.mem_cons, Prod.mk.injEq] at h
    rcases h with ⟨rfl, rfl⟩ | h
    · simp [depthE]
    · simp only [depthE]
      exact le_trans (ih h) (le_max_right _ _)

theorem depth_child {sz mt : Nat} {cs : FSEntries} {a : String} {n : FSNode}
    (h : cs.find a = some n) : n.depth < (FSNode.dir sz mt cs).depth := by
  have := FSEntries.depthE_ge (FSEntries.mem_toList_of_find cs h)
  simp only [FSNode.depth]
  omega

/-! ### The Equality Oracle: streamed digest and metadata comparison -/

theorem foldl_md5Update (ls : List (List Nat)) (init : List Nat) :
    ls.foldl md5Update init = init ++ ls.flatten := by
  induction ls generalizing init with
  | nil => simp
  | cons x ls ih => simp [md5Update, ih]

theorem chunksGo_join (fuel : Nat) (l : List Nat) (h : l.length < fuel) :
    (chunksGo fuel l).flatten = l := by
  induction fuel generalizing l with
  | zero => omega
  | succ fuel ih =>
    cases l with
    | nil => simp [chunksGo]
    | cons x l' =>
      simp only [chunksGo, List.flatten_cons]
      rw [ih ((x :: l').drop 4096) (by simp [List.length_drop] at h ⊢; omega)]
      exact List.take_append_drop 4096 (x :: l')

theorem chunks_join (l : List Nat) : (chunks l).flatten = l :=
  chunksGo_join (l.length + 1) l (Nat.lt_succ_self _)

/-- Streaming the file through the MD5 state in 4096-byte chunks digests
exactly the full content. -/
theorem calculateHash_file (H : List Nat → List Nat) (c : List Nat) (m : Nat) :
    calculateHash H (.file c m) = .ok (H c) := by
  simp [calculateHash, foldl_md5Update, chunks_join]

theorem areFilesIdentical_file_checksum (H : List Nat → List Nat)
    (c1 c2 : List Nat) (m1 m2 : Nat) :
    areFilesIdentical H true (.file c1 m1) (.file c2 m2) =
      .ok (H c1 == H c2) := by
  simp [areFilesIdentical, calculateHash_file]

theorem areFilesIdentical_file_metadata (H : List Nat → List Nat)
    (c1 c2 : List Nat) (m1 m2 : Nat) :
    areFilesIdentical H false (.file c1 m1) (.file c2 m2) =
      .ok (areFilesMetadataIdentical (.file c1 m1) (.file c2 m2)) := by
  simp [areFilesIdentical]

/-- C3. `are_files_identical` on two existing regular files: in metadata
mode (use_checksum = false) it returns true iff byte sizes and
last-modified timestamps both match exactly; in checksum mode
(use_checksum = true) it returns true iff the full-content digests —
computed by streaming each file through the hash state in fixed 4096-byte
chunks (`calculateHash`) — match. -/
theorem C3_equality_oracle (H : List Nat → List Nat)
    (c1 c2 : List Nat) (m1 m2 : Nat) :
    (areFilesIdentical H false (.file c1 m1) (.file c2 m2) = .ok true ↔
      (c1.length = c2.length ∧ m1 = m2)) ∧
    (areFilesIdentical H true (.file c1 m1) (.file c2 m2) = .ok true ↔
      calculateHash H (.file c1 m1) = calculateHash H (.file c2 m2)) := by
  constructor
  · rw [areFilesIdentical_file_metadata]
    simp [areFilesMetadataIdentical, getsize, getmtime]
  · rw [areFilesIdentical_file_checksum, calculateHash_file, calculateHash_file]
    simp

/-! ### The orchestrator on missing roots -/

/-- C2. When the source root and/or the replica root is missing,
`sync_folders` emits one error-level record per missing root — the source
condition first, then the replica condition — performs no reconciliation
(zero Entry Operations), leaves the replica tree untouched, and returns
normally (no exception). -/
theorem C2_missing_roots (H : List Nat → List Nat) (uc : Bool)
    (src rep : Option FSNode) (h : src.isNone ∨ rep.isNone) :
    (syncFolders H uc src rep).result = .ok (rep, []) ∧
    (syncFolders H uc src rep).errLogs =
      (if src.isNone then ["Source directory does not exist"] else []) ++
      (if rep.isNone then ["Replica directory does not exist"] else []) ∧
    (src.isNone = true → rep.isNone = true →
      (syncFolders H uc src rep).errLogs =
        ["Source directory does not exist", "Replica directory does not exist"]) := by
  cases src with
  | none =>
    cases rep with
    | none => exact ⟨rfl, rfl, fun _ _ => rfl⟩
    | some r => exact ⟨rfl, rfl, by simp⟩
  | some s =>
    cases rep with
    | none => exact ⟨rfl, rfl, by simp⟩
    | some r => simp at h

/-- Closed witness for C2: both roots missing. -/
theorem C2_missing_roots_witness :
    (syncFolders (fun l => l) false none none).result = .ok (none, []) ∧
    (syncFolders (fun l => l) false none none).errLogs =
      ["Source directory does not exist", "Replica directory does not exist"] :=
  ⟨(C2_missing_roots (fun l => l) false none none (Or.inl rfl)).1,
   (C2_missing_roots (fun l => l) false none none (Or.inl rfl)).2.2 rfl rfl⟩

/-! ### The create-directory primitive -/

theorem mkdirs_exists_error {t : FSNode} {p : Path} (hp : p ≠ [])
    (h : (t.lookup p).isSome) : mkdirs false t p = .error .fileExists := by
  induction p generalizing t with
  | nil => exact absurd rfl hp
  | cons a p ih =>
    cases t with
    | file c m => simp [FSNode.lookup] at h
    | dir sz mt cs =>
      simp only [FSNode.lookup] at h
      cases hf : cs.find a with
      | none => rw [hf] at h; simp at h
      | some ch =>
        rw [hf] at h
        cases p with
        | nil => simp [mkdirs, hf]
        | cons x xs =>
          rw [mkdirs_cons_some x xs hf]
          rw [ih (by simp) h]
          rfl

/-- C8 counterexample: `create_directory` is `os.makedirs`, which is
recursive.  On an empty replica tree, creating "a"/"b" succeeds even though
the parent "a" does not exist, and it creates "a" as well — a non-recursive
primitive that "creates only the named directory" would have failed here. -/
theorem C8_counterexample :
    (FSNode.dir 0 0 .nil).lookup ["a"] = none ∧
    mkdirs false (.dir 0 0 .nil) ["a", "b"] =
      .ok (.dir 0 0 (.cons "a" (.dir 0 0 (.cons "b" (.dir 0 0 .nil) .nil)) .nil)) ∧
    (FSNode.dir 0 0 (.cons "a" (.dir 0 0 (.cons "b" (.dir 0 0 .nil) .nil)) .nil)).lookup
      ["a"] = some (.dir 0 0 (.cons "b" (.dir 0 0 .nil) .nil)) :=
  ⟨rfl, rfl, rfl⟩

/-- C8 (amended). The create-directory primitive (`os.makedirs` without
`exist_ok`) fails with `FileExistsError` when the path already exists, and
on success creates the named directory together with every missing
ancestor directory (it is recursive, not single-level). -/
theorem C8_create_directory (t t' : FSNode) (p : Path) (hp : p ≠ []) :
    ((t.lookup p).isSome → mkdirs false t p = .error .fileExists) ∧
    (mkdirs false t p = .ok t' →
      (∃ sz mt cs, t'.lookup p = some (.dir sz mt cs)) ∧
      ∀ q, Under p q → (t'.lookup q).isSome) := by
  refine ⟨fun h => mkdirs_exists_error hp h, fun h => ⟨mkdirs_lookup_self h, ?_⟩⟩
  intro q hq
  obtain ⟨sz, mt, cs, hlk⟩ := mkdirs_lookup_self h
  exact isSome_lookup_of_under hq (by simp [hlk])

/-- Closed witness for C8 (amended): create "a"/"b" in a replica that
already has directory "a"; then create it again after it exists. -/
theorem C8_create_directory_witness :
    (["a", "b"] : Path) ≠ [] ∧
    mkdirs false (.dir 0 0 (.cons "a" (.dir 1 1 (.cons "b" (.dir 2 2 .nil) .nil)) .nil))
      ["a", "b"] = .error .fileExists := by
  refine ⟨by simp, ?_⟩
  exact (C8_create_directory
    (.dir 0 0 (.cons "a" (.dir 1 1 (.cons "b" (.dir 2 2 .nil) .nil)) .nil))
    (.dir 0 0 .nil) ["a", "b"] (by simp)).1 (by decide)

/-! ### Per-entry behavior of the source pass -/

/-- The relative path an Entry Operation affects. -/
def Op.path : Op → Path
  | .createFile p => p
  | .copyFile p => p
  | .deleteFile p => p
  | .createDir p => p
  | .deleteDir p => p

theorem writeFile_cons_some {sz mt : Nat} {cs : FSEntries} {a : String}
    {ch : FSNode} (x : String) (xs : List String) (c : List Nat) (m : Nat)
    (hf : cs.find a = some ch) :
    writeFile (.dir sz mt cs) (a :: x :: xs) c m =
      (writeFile ch (x :: xs) c m).map fun ch' => .dir sz mt (cs.set a ch') := by
  simp only [writeFile, hf]

theorem writeFile_ok_of_file {t : FSNode} {p : Path} {c0 : List Nat} {m0 : Nat}
    (hp : p ≠ []) (h : t.lookup p = some (.file c0 m0)) (c : List Nat) (m : Nat) :
    ∃ t', writeFile t p c m = .ok t' := by
  induction p generalizing t with
  | nil => exact absurd rfl hp
  | cons a p ih =>
    cases t with
    | file c1 m1 => simp [FSNode.lookup] at h
    | dir sz mt cs =>
      simp only [FSNode.lookup] at h
      cases hf : cs.find a with
      | none => rw [hf] at h; cases h
      | some ch =>
        rw [hf] at h
        cases p with
        | nil =>
          have hch : ch = .file c0 m0 := by simpa [FSNode.lookup] using h
          subst hch
          exact ⟨.dir sz mt (cs.set a (.file c m)), by simp [writeFile, hf]⟩
        | cons x xs =>
          cases ch with
          | file c1 m1 => simp [FSNode.lookup] at h
          | dir s1 m1 cs1 =>
            obtain ⟨ch', hch'⟩ := ih (by simp) h
            exact ⟨.dir sz mt (cs.set a ch'),
              by rw [writeFile_cons_some x xs c m hf, hch']; rfl⟩

theorem areFilesIdentical_self_file (H : List Nat → List Nat) (uc : Bool)
    (c : List Nat) (m : Nat) :
    areFilesIdentical H uc (.file c m) (.file c m) = .ok true := by
  cases uc with
  | false => simp [areFilesIdentical, areFilesMetadataIdentical]
  | true => simp [areFilesIdentical_file_checksum]

theorem sourceStep_existing_dir (H : List Nat → List Nat) (uc : Bool)
    (ns : FSNode) (p : Path) (st : SState) {s m : Nat} {cs : FSEntries}
    (h : st.rep.lookup p = some (.dir s m cs)) :
    sourceStep H uc ns p st = .ok ⟨st.visited ++ [p], st.rep, st.ops⟩ := by
  simp [sourceStep, h]

theorem sourceStep_existing_file (H : List Nat → List Nat) (uc : Bool)
    (ns : FSNode) (p : Path) (st : SState) {c : List Nat} {m : Nat}
    (h : st.rep.lookup p = some (.file c m)) :
    sourceStep H uc ns p st =
      match areFilesIdentical H uc ns (.file c m) with
      | .error e => .error e
      | .ok true => .ok ⟨st.visited ++ [p], st.rep, st.ops⟩
      | .ok false =>
        match ns with
        | .file c' m' =>
          match writeFile st.rep p c' m' with
          | .error e => .error e
          | .ok r => .ok ⟨st.visited ++ [p], r, st.ops ++ [.copyFile p]⟩
        | .dir _ _ _ => .error .isADirectory := by
  simp [sourceStep, h]

theorem sourceStep_missing_file (H : List Nat → List Nat) (uc : Bool)
    {c : List Nat} {m : Nat} (p : Path) (st : SState)
    (h : st.rep.lookup p = none) :
    sourceStep H uc (.file c m) p st =
      match mkdirs true st.rep p.dropLast with
      | .error e => .error e
      | .ok r1 =>
        match writeFile r1 p c m with
        | .error e => .error e
        | .ok r2 => .ok ⟨st.visited ++ [p], r2, st.ops ++ [.createFile p]⟩ := by
  simp [sourceStep, h]

theorem sourceStep_missing_dir (H : List Nat → List Nat) (uc : Bool)
    {s m : Nat} {cs : FSEntries} (p : Path) (st : SState)
    (h : st.rep.lookup p = none) :
    sourceStep H uc (.dir s m cs) p st =
      match mkdirs false st.rep p with
      | .error e => .error e
      | .ok r => .ok ⟨st.visited ++ [p], r, st.ops ++ [.createDir p]⟩ := by
  simp [sourceStep, h]

/-- One source-pass entry is a clean no-op when the replica counterpart is
a directory, or is a file the oracle calls identical. -/
def StepNoOp (H : List Nat → List Nat) (uc : Bool) (ns nr : FSNode) : Prop :=
  (∃ s m cs, nr = .dir s m cs) ∨
  (∃ c m, nr = .file c m ∧ areFilesIdentical H uc ns nr = .ok true)

theorem sourceStep_noop {H : List Nat → List Nat} {uc : Bool}
    {ns nr : FSNode} {p : Path} {st : SState}
    (hlk : st.rep.lookup p = some nr) (hno : StepNoOp H uc ns nr) :
    sourceStep H uc ns p st = .ok ⟨st.visited ++ [p], st.rep, st.ops⟩ := by
  rcases hno with ⟨s, m, cs, rfl⟩ | ⟨c, m, rfl, hid⟩
  · exact sourceStep_existing_dir H uc ns p st hlk
  · rw [sourceStep_existing_file H uc ns p st hlk, hid]

theorem sourceStep_existing_file_src_file (H : List Nat → List Nat) (uc : Bool)
    {c c' : List Nat} {m m' : Nat} (p : Path) (st : SState)
    (h : st.rep.lookup p = some (.file c m)) :
    sourceStep H uc (.file c' m') p st =
      match areFilesIdentical H uc (.file c' m') (.file c m) with
      | .error e => .error e
      | .ok true => .ok ⟨st.visited ++ [p], st.rep, st.ops⟩
      | .ok false =>
        match writeFile st.rep p c' m' with
        | .error e => .error e
        | .ok r => .ok ⟨st.visited ++ [p], r, st.ops ++ [.copyFile p]⟩ := by
  simp [sourceStep, h]

theorem sourceStep_existing_file_src_dir (H : List Nat → List Nat) (uc : Bool)
    {c : List Nat} {m : Nat} {s' mt' : Nat} {cs' : FSEntries} (p : Path) (st : SState)
    (h : st.rep.lookup p = some (.file c m)) :
    sourceStep H uc (.dir s' mt' cs') p st =
      match areFilesIdentical H uc (.dir s' mt' cs') (.file c m) with
      | .error e => .error e
      | .ok true => .ok ⟨st.visited ++ [p], st.rep, st.ops⟩
      | .ok false => .error .isADirectory := by
  simp [sourceStep, h]

/-- Inversion: the possible successful outcomes of one source-pass entry. -/
theorem sourceStep_ok_cases {H : List Nat → List Nat} {uc : Bool}
    {ns : FSNode} {p : Path} {st st' : SState}
    (h : sourceStep H uc ns p st = .ok st') :
    st'.visited = st.visited ++ [p] ∧
    ((∃ s m cs, st.rep.lookup p = some (.dir s m cs) ∧
        st'.rep = st.rep ∧ st'.ops = st.ops) ∨
     (∃ c m, st.rep.lookup p = some (.file c m) ∧
        areFilesIdentical H uc ns (.file c m) = .ok true ∧
        st'.rep = st.rep ∧ st'.ops = st.ops) ∨
     (∃ c m c' m', st.rep.lookup p = some (.file c m) ∧
        areFilesIdentical H uc ns (.file c m) = .ok false ∧
        ns = .file c' m' ∧ writeFile st.rep p c' m' = .ok st'.rep ∧
        st'.ops = st.ops ++ [.copyFile p]) ∨
     (∃ c' m' r1, st.rep.lookup p = none ∧ ns = .file c' m' ∧
        mkdirs true st.rep p.dropLast = .ok r1 ∧
        writeFile r1 p c' m' = .ok st'.rep ∧
        st'.ops = st.ops ++ [.createFile p]) ∨
     (∃ s m cs, st.rep.lookup p = none ∧ ns = .dir s m cs ∧
        mkdirs false st.rep p = .ok st'.rep ∧
        st'.ops = st.ops ++ [.createDir p])) := by
  cases hlk : st.rep.lookup p with
  | some nr =>
    cases nr with
    | dir s m cs =>
      rw [sourceStep_existing_dir H uc ns p st hlk] at h
      injection h with h
      subst h
      exact ⟨rfl, Or.inl ⟨s, m, cs, rfl, rfl, rfl⟩⟩
    | file c m =>
      cases ns with
      | file c' m' =>
        rw [sourceStep_existing_file_src_file H uc p st hlk] at h
        cases hid : areFilesIdentical H uc (.file c' m') (.file c m) with
        | error e => rw [hid] at h; cases h
        | ok b =>
          cases b with
          | true =>
            rw [hid] at h
            injection h with h
            subst h
            exact ⟨rfl, Or.inr (Or.inl ⟨c, m, rfl, hid, rfl, rfl⟩)⟩
          | false =>
            rw [hid] at h
            cases hwf : writeFile st.rep p c' m' with
            | error e => rw [hwf] at h; cases h
            | ok r =>
              rw [hwf] at h
              injection h with h
              subst h
              exact ⟨rfl, Or.inr (Or.inr (Or.inl
                ⟨c, m, c', m', rfl, hid, rfl, hwf, rfl⟩))⟩
      | dir s' m' cs' =>
        rw [sourceStep_existing_file_src_dir H uc p st hlk] at h
        cases hid : areFilesIdentical H uc (.dir s' m' cs') (.file c m) with
        | error e => rw [hid] at h; cases h
        | ok b =>
          cases b with
          | true =>
            rw [hid] at h
            injection h with h
            subst h
            exact ⟨rfl, Or.inr (Or.inl ⟨c, m, rfl, hid, rfl, rfl⟩)⟩
          | false => rw [hid] at h; cases h
  | none =>
    cases ns with
    | file c' m' =>
      rw [sourceStep_missing_file H uc p st hlk] at h
      cases hmk : mkdirs true st.rep p.dropLast with
      | error e => rw [hmk] at h; cases h
      | ok r1 =>
        rw [hmk] at h
        dsimp only at h
        cases hwf : writeFile r1 p c' m' with
        | error e => rw [hwf] at h; cases h
        | ok r2 =>
          rw [hwf] at h
          injection h with h
          subst h
          exact ⟨rfl, Or.inr (Or.inr (Or.inr (Or.inl
            ⟨c', m', r1, rfl, rfl, rfl, hwf, rfl⟩)))⟩
    | dir s' m' cs' =>
      rw [sourceStep_missing_dir H uc p st hlk] at h
      cases hmk : mkdirs false st.rep p with
      | error e => rw [hmk] at h; cases h
      | ok r =>
        rw [hmk] at h
        injection h with h
        subst h
        exact ⟨rfl, Or.inr (Or.inr (Or.inr (Or.inr
          ⟨s', m', cs', rfl, rfl, rfl, rfl⟩)))⟩

/-! ### C4: the update decision for entries whose counterpart exists -/

theorem areFilesIdentical_checksum_dir_left (H : List Nat → List Nat)
    (s m : Nat) (cs : FSEntries) (n2 : FSNode) :
    areFilesIdentical H true (.dir s m cs) n2 = .error .isADirectory := by
  simp [areFilesIdentical, calculateHash]

/-- C4 counterexample: source has directory "d", replica has file "d"
(checksum mode).  The replica counterpart exists and the source entry is
not a file, so the claim requires "no operation is performed"; but the
code does not check the source entry's type — it enters the comparison
path, `calculate_hash` opens the directory, and the whole run aborts with
`IsADirectoryError` instead of skipping the entry. -/
theorem C4_counterexample :
    (syncFolders (fun l => l) true
      (some (.dir 0 0 (.cons "d" (.dir 7 8 .nil) .nil)))
      (some (.dir 0 0 (.cons "d" (.file [1, 2] 3) .nil)))).result =
        .error .isADirectory ∧
    (FSNode.dir 0 0 (.cons "d" (.dir 7 8 .nil) .nil)).lookup ["d"] =
        some (.dir 7 8 .nil) ∧
    (FSNode.dir 0 0 (.cons "d" (.file [1, 2] 3) .nil)).lookup ["d"] =
        some (.file [1, 2] 3) :=
  ⟨rfl, rfl, rfl⟩

/-- C4 (amended). For a source entry whose replica counterpart exists:
a directory counterpart is always a clean no-op; a file counterpart is
compared by the Equality Oracle regardless of the source entry's type,
and the update (`copy_file`) is performed iff the oracle reports
not-identical and the source entry is a file; when the source entry is a
directory the entry is not skipped — the comparison/copy path raises
`IsADirectoryError` (in checksum mode always, and in metadata mode
whenever the oracle reports not-identical). -/
theorem C4_update_decision (H : List Nat → List Nat) (uc : Bool)
    (ns : FSNode) (p : Path) (st : SState) :
    (∀ s m cs, st.rep.lookup p = some (.dir s m cs) →
      sourceStep H uc ns p st = .ok ⟨st.visited ++ [p], st.rep, st.ops⟩) ∧
    (∀ c m, st.rep.lookup p = some (.file c m) →
      areFilesIdentical H uc ns (.file c m) = .ok true →
      sourceStep H uc ns p st = .ok ⟨st.visited ++ [p], st.rep, st.ops⟩) ∧
    (∀ c m c' m', st.rep.lookup p = some (.file c m) → p ≠ [] →
      ns = .file c' m' →
      areFilesIdentical H uc ns (.file c m) = .ok false →
      ∃ r, writeFile st.rep p c' m' = .ok r ∧
        sourceStep H uc ns p st = .ok ⟨st.visited ++ [p], r, st.ops ++ [.copyFile p]⟩) ∧
    (∀ c m s' m' cs', st.rep.lookup p = some (.file c m) → ns = .dir s' m' cs' →
      areFilesIdentical H uc ns (.file c m) = .ok false →
      sourceStep H uc ns p st = .error .isADirectory) ∧
    (∀ c m s' m' cs', st.rep.lookup p = some (.file c m) → ns = .dir s' m' cs' →
      uc = true → sourceStep H uc ns p st = .error .isADirectory) := by
  refine ⟨?_, ?_, ?_, ?_, ?_⟩
  · intro s m cs hlk
    exact sourceStep_existing_dir H uc ns p st hlk
  · intro c m hlk hid
    rw [sourceStep_existing_file H uc ns p st hlk, hid]
  · intro c m c' m' hlk hp hns hid
    subst hns
    obtain ⟨r, hr⟩ := writeFile_ok_of_file hp hlk c' m'
    refine ⟨r, hr, ?_⟩
    rw [sourceStep_existing_file_src_file H uc p st hlk, hid, hr]
  · intro c m s' m' cs' hlk hns hid
    subst hns
    rw [sourceStep_existing_file_src_dir H uc p st hlk, hid]
  · intro c m s' m' cs' hlk hns huc
    subst hns
    subst huc
    rw [sourceStep_existing_file_src_dir H true p st hlk,
      areFilesIdentical_checksum_dir_left]

/-- Closed witness for C4 (amended): a replica file differing from the
source file is updated, with the copy operation logged. -/
theorem C4_update_decision_witness :
    sourceStep (fun l => l) true (.file [5] 6) ["f"]
      ⟨[], .dir 0 0 (.cons "f" (.file [9] 9) .nil), []⟩ =
      .ok ⟨[["f"]], .dir 0 0 (.cons "f" (.file [5] 6) .nil), [.copyFile ["f"]]⟩ := by
  obtain ⟨r, hr, hstep⟩ :=
    (C4_update_decision (fun l => l) true (.file [5] 6) ["f"]
      ⟨[], .dir 0 0 (.cons "f" (.file [9] 9) .nil), []⟩).2.2.1
      [9] 9 [5] 6 rfl (by simp) rfl rfl
  have hr' : r = .dir 0 0 (.cons "f" (.file [5] 6) .nil) := by
    have := hr
    rw [show writeFile (.dir 0 0 (.cons "f" (.file [9] 9) .nil)) ["f"] [5] 6 =
      .ok (.dir 0 0 (.cons "f" (.file [5] 6) .nil)) from rfl] at this
    injection this with h
    exact h.symm
  rw [hstep, hr']
  rfl

/-! ### Source walk: per-step effect bundle -/

theorem lookup_strict_isDir {t : FSNode} {q r : Path}
    (h : (t.lookup (q ++ r)).isSome) (hr : r ≠ []) :
    ∃ s m cs, t.lookup q = some (.dir s m cs) := by
  rw [FSNode.lookup_append] at h
  cases hl : t.lookup q with
  | none => rw [hl] at h; simp at h
  | some n =>
    rw [hl] at h
    cases n with
    | file c m =>
      cases r with
      | nil => exact absurd rfl hr
      | cons x xs => simp [FSNode.lookup] at h
    | dir s m cs => exact ⟨s, m, cs, rfl⟩

theorem mkdirs_created_isDir {exOk : Bool} {t t' : FSNode} {p : Path}
    (h : mkdirs exOk t p = .ok t') {q : Path} (hq0 : t.lookup q = none)
    {nr : FSNode} (hq1 : t'.lookup q = some nr) : nr.isDirB = true := by
  by_cases hu : Under p q
  · obtain ⟨r, rfl⟩ := hu
    obtain ⟨s2, m2, cs2, hp'⟩ := mkdirs_lookup_self h
    cases r with
    | nil =>
      rw [List.append_nil] at hp'
      rw [hp'] at hq1
      injection hq1 with hq1
      rw [← hq1]
      rfl
    | cons x xs =>
      obtain ⟨s3, m3, cs3, hdir⟩ :=
        lookup_strict_isDir (t := t') (q := q) (r := x :: xs) (by simp [hp']) (by simp)
      rw [hdir] at hq1
      injection hq1 with hq1
      rw [← hq1]
      rfl
  · rw [mkdirs_frame h q hu] at hq1
    rw [hq0] at hq1
    cases hq1

/-- The effects of one successful source-pass entry step, relative to the
source tree: identical files elsewhere survive untouched, files stay
files, directories stay directories (same metadata), entries created from
nothing have the kind of the source entry at their path, well-formedness
is preserved, and the processed path itself ends in a no-op state for its
source node. -/
theorem sourceStep_effects {H : List Nat → List Nat} {uc : Bool} {src : FSNode}
    {ns : FSNode} {p : Path} {st st' : SState}
    (hstep : sourceStep H uc ns p st = .ok st')
    (hagree : src.lookup p = some ns) (hp : p ≠ []) :
    (∀ q c m ns', st.rep.lookup q = some (.file c m) → src.lookup q = some ns' →
      areFilesIdentical H uc ns' (.file c m) = .ok true →
      st'.rep.lookup q = some (.file c m)) ∧
    (∀ q c m, st.rep.lookup q = some (.file c m) →
      ∃ c2 m2, st'.rep.lookup q = some (.file c2 m2)) ∧
    (∀ q s0 m0 cs0, st.rep.lookup q = some (.dir s0 m0 cs0) →
      ∃ cs1, st'.rep.lookup q = some (.dir s0 m0 cs1)) ∧
    (∀ q nr, st.rep.lookup q = none → st'.rep.lookup q = some nr →
      ∃ ns', src.lookup q = some ns' ∧ nr.isDirB = ns'.isDirB) ∧
    (NodupTree st.rep → NodupTree st'.rep) ∧
    (∃ nr, st'.rep.lookup p = some nr ∧ StepNoOp H uc ns nr ∧
      (nr.isDirB = ns.isDirB ∨
        ∃ nr0, st.rep.lookup p = some nr0 ∧ nr.isDirB = nr0.isDirB)) := by
  obtain ⟨hvis, hcases⟩ := sourceStep_ok_cases hstep
  rcases hcases with ⟨s, m, cs, hlk, hrep, hops⟩ |
    ⟨c, m, hlk, hid, hrep, hops⟩ |
    ⟨c, m, c', m', hlk, hid, hns, hwf, hops⟩ |
    ⟨c', m', r1, hlk, hns, hmk, hwf, hops⟩ |
    ⟨s, m, cs, hlk, hns, hmk, hops⟩
  · -- existing directory: no filesystem change
    rw [hrep]
    refine ⟨fun q c m ns' hq _ _ => hq, fun q c m hq => ⟨c, m, hq⟩,
      fun q s0 m0 cs0 hq => ⟨cs0, hq⟩,
      fun q nr hq0 hq1 => absurd hq1 (by simp [hq0]), fun h => h,
      ⟨.dir s m cs, hlk, Or.inl ⟨s, m, cs, rfl⟩, Or.inr ⟨.dir s m cs, hlk, rfl⟩⟩⟩
  · -- existing identical file: no filesystem change
    rw [hrep]
    refine ⟨fun q c m ns' hq _ _ => hq, fun q c m hq => ⟨c, m, hq⟩,
      fun q s0 m0 cs0 hq => ⟨cs0, hq⟩,
      fun q nr hq0 hq1 => absurd hq1 (by simp [hq0]), fun h => h,
      ⟨.file c m, hlk, Or.inr ⟨c, m, rfl, hid⟩, Or.inr ⟨.file c m, hlk, rfl⟩⟩⟩
  · -- update: copy over the differing replica file
    subst hns
    refine ⟨?_, ?_, ?_, ?_, ?_, ?_⟩
    · intro q cq mq ns' hq hsrcq hidq
      by_cases hqp : q = p
      · subst hqp
        rw [hlk] at hq
        injection hq with hq
        rw [hagree] at hsrcq
        injection hsrcq with hsrcq
        rw [← hsrcq] at hidq
        rw [hq] at hid
        rw [hidq] at hid
        cases hid
      · exact writeFile_file_pres hwf q hqp hq
    · intro q cq mq hq
      by_cases hqp : q = p
      · subst hqp
        exact ⟨c', m', writeFile_lookup_self hwf⟩
      · exact ⟨cq, mq, writeFile_file_pres hwf q hqp hq⟩
    · intro q s0 m0 cs0 hq
      exact writeFile_dir_pres hwf q hq
    · intro q nr hq0 hq1
      by_cases hu : Under p q
      · obtain ⟨r, hr⟩ := hu
        cases r with
        | nil =>
          rw [List.append_nil] at hr
          subst hr
          rw [hlk] at hq0
          cases hq0
        | cons x xs =>
          have hne : q ≠ p := by
            intro hh
            rw [hh] at hr
            have hlen := congrArg List.length hr
            simp at hlen
          obtain ⟨s3, m3, cs3, hdir⟩ := writeFile_spine_pre hwf q ⟨x :: xs, hr⟩ hne
          rw [hdir] at hq0
          cases hq0
      · rw [writeFile_frame hwf q hu] at hq1
        rw [hq0] at hq1
        cases hq1
    · exact fun h => nodup_writeFile hwf h
    · exact ⟨.file c' m', writeFile_lookup_self hwf,
        Or.inr ⟨c', m', rfl, areFilesIdentical_self_file H uc c' m'⟩, Or.inl rfl⟩
  · -- create a missing file (with defensive parent creation)
    subst hns
    refine ⟨?_, ?_, ?_, ?_, ?_, ?_⟩
    · intro q cq mq ns' hq hsrcq hidq
      have h1 := mkdirs_file_pres hmk q hq
      by_cases hqp : q = p
      · subst hqp
        rw [hlk] at hq
        cases hq
      · exact writeFile_file_pres hwf q hqp h1
    · intro q cq mq hq
      have h1 := mkdirs_file_pres hmk q hq
      by_cases hqp : q = p
      · subst hqp
        rw [hlk] at hq
        cases hq
      · exact ⟨cq, mq, writeFile_file_pres hwf q hqp h1⟩
    · intro q s0 m0 cs0 hq
      obtain ⟨cs1, h1⟩ := mkdirs_dir_pres hmk q hq
      exact writeFile_dir_pres hwf q h1
    · intro q nr hq0 hq1
      by_cases hqp : q = p
      · subst hqp
        rw [writeFile_lookup_self hwf] at hq1
        injection hq1 with hq1
        exact ⟨.file c' m', hagree, by rw [← hq1]⟩
      · -- q was created by the defensive mkdirs: it is an ancestor of p
        cases hmid : r1.lookup q with
        | some nmid =>
          have hkind := mkdirs_created_isDir hmk hq0 hmid
          cases nmid with
          | file cF mF => simp [FSNode.isDirB] at hkind
          | dir sD mD csD =>
            obtain ⟨cs1, hq1'⟩ := writeFile_dir_pres hwf q hmid
            rw [hq1'] at hq1
            injection hq1 with hq1
            subst hq1
            have hu2 : Under (List.dropLast p) q := by
              by_contra hu2
              rw [mkdirs_frame hmk q hu2] at hmid
              rw [hq0] at hmid
              cases hmid
            obtain ⟨r2, hr2⟩ := hu2
            have hps : q ++ (r2 ++ [p.getLast hp]) = p := by
              rw [← List.append_assoc, ← hr2, List.dropLast_append_getLast hp]
            obtain ⟨s3, m3, cs3, hdir⟩ :=
              lookup_strict_isDir (t := src) (q := q) (r := r2 ++ [p.getLast hp])
                (by rw [hps]; simp [hagree]) (by simp)
            exact ⟨.dir s3 m3 cs3, hdir, rfl⟩
        | none =>
          by_cases hu : Under p q
          · obtain ⟨r, hr⟩ := hu
            cases r with
            | nil =>
              rw [List.append_nil] at hr
              exact absurd hr.symm hqp
            | cons x xs =>
              have hne : q ≠ p := by
                intro hh
                rw [hh] at hr
                have hlen := congrArg List.length hr
                simp at hlen
              obtain ⟨s3, m3, cs3, hdir⟩ :=
                writeFile_spine_pre hwf q ⟨x :: xs, hr⟩ hne
              rw [hdir] at hmid
              cases hmid
          · rw [writeFile_frame hwf q hu] at hq1
            rw [hmid] at hq1
            cases hq1
    · intro h
      exact nodup_writeFile hwf (nodup_mkdirs hmk h)
    · exact ⟨.file c' m', writeFile_lookup_self hwf,
        Or.inr ⟨c', m', rfl, areFilesIdentical_self_file H uc c' m'⟩, Or.inl rfl⟩
  · -- create a missing directory
    subst hns
    refine ⟨?_, ?_, ?_, ?_, ?_, ?_⟩
    · intro q cq mq ns' hq hsrcq hidq
      exact mkdirs_file_pres hmk q hq
    · intro q cq mq hq
      exact ⟨cq, mq, mkdirs_file_pres hmk q hq⟩
    · intro q s0 m0 cs0 hq
      exact mkdirs_dir_pres hmk q hq
    · intro q nr hq0 hq1
      have hkind := mkdirs_created_isDir hmk hq0 hq1
      by_cases hqp : q = p
      · subst hqp
        exact ⟨.dir s m cs, hagree, by rw [hkind]; rfl⟩
      · have hu : Under p q := by
          by_contra hu
          rw [mkdirs_frame hmk q hu] at hq1
          rw [hq0] at hq1
          cases hq1
        obtain ⟨r, rfl⟩ := hu
        cases r with
        | nil => exact absurd (by simp) hqp
        | cons x xs =>
          obtain ⟨s3, m3, cs3, hdir⟩ :=
            lookup_strict_isDir (t := src) (q := q) (r := x :: xs)
              (by simp [hagree]) (by simp)
          exact ⟨.dir s3 m3 cs3, hdir, by rw [hkind]; rfl⟩
    · exact fun h => nodup_mkdirs hmk h
    · obtain ⟨s2, m2, cs2, hp'⟩ := mkdirs_lookup_self hmk
      exact ⟨.dir s2 m2 cs2, hp', Or.inl ⟨s2, m2, cs2, rfl⟩, Or.inl rfl⟩

/-! ### Source walk: accumulated effect relation -/

/-- How a segment of the source pass transforms the replica tree:
oracle-identical files survive untouched, files stay files, directories
keep their metadata and directory-ness, paths created from nothing carry
the kind of the source entry at that path, and well-formedness is
preserved. -/
def SrcEff (H : List Nat → List Nat) (uc : Bool) (src rep rep' : FSNode) : Prop :=
  (∀ q c m ns', rep.lookup q = some (.file c m) → src.lookup q = some ns' →
    areFilesIdentical H uc ns' (.file c m) = .ok true →
    rep'.lookup q = some (.file c m)) ∧
  (∀ q c m, rep.lookup q = some (.file c m) →
    ∃ c2 m2, rep'.lookup q = some (.file c2 m2)) ∧
  (∀ q s0 m0 cs0, rep.lookup q = some (.dir s0 m0 cs0) →
    ∃ cs1, rep'.lookup q = some (.dir s0 m0 cs1)) ∧
  (∀ q nr, rep.lookup q = none → rep'.lookup q = some nr →
    ∃ ns', src.lookup q = some ns' ∧ nr.isDirB = ns'.isDirB) ∧
  (NodupTree rep → NodupTree rep')

theorem SrcEff.refl (H : List Nat → List Nat) (uc : Bool) (src rep : FSNode) :
    SrcEff H uc src rep rep :=
  ⟨fun _ _ _ _ hq _ _ => hq, fun q c m hq => ⟨c, m, hq⟩,
   fun q s0 m0 cs0 hq => ⟨cs0, hq⟩,
   fun q nr hq0 hq1 => absurd hq1 (by simp [hq0]), fun h => h⟩

theorem SrcEff.comp {H : List Nat → List Nat} {uc : Bool} {src a b c : FSNode}
    (h1 : SrcEff H uc src a b) (h2 : SrcEff H uc src b c) :
    SrcEff H uc src a c := by
  obtain ⟨a1, a2, a3, a4, a5⟩ := h1
  obtain ⟨b1, b2, b3, b4, b5⟩ := h2
  refine ⟨?_, ?_, ?_, ?_, fun h => b5 (a5 h)⟩
  · intro q cm mm ns' hq hs hid
    exact b1 q cm mm ns' (a1 q cm mm ns' hq hs hid) hs hid
  · intro q cm mm hq
    obtain ⟨c2, m2, h1'⟩ := a2 q cm mm hq
    exact b2 q c2 m2 h1'
  · intro q s0 m0 cs0 hq
    obtain ⟨cs1, h1'⟩ := a3 q s0 m0 cs0 hq
    exact b3 q s0 m0 cs1 h1'
  · intro q nr hq0 hq1
    cases hmid : b.lookup q with
    | none => exact b4 q nr hmid hq1
    | some nmid =>
      obtain ⟨ns', hs, hk⟩ := a4 q nmid hq0 hmid
      refine ⟨ns', hs, ?_⟩
      cases nmid with
      | file cF mF =>
        obtain ⟨c2, m2, hkeep⟩ := b2 q cF mF hmid
        rw [hkeep] at hq1
        injection hq1 with hq1
        rw [← hq1]
        exact hk
      | dir sD mD csD =>
        obtain ⟨cs1, hkeep⟩ := b3 q sD mD csD hmid
        rw [hkeep] at hq1
        injection hq1 with hq1
        rw [← hq1]
        exact hk

/-- A processed source entry: the replica holds a node at its path that
the next run's step would leave alone, whose kind matches the source entry
unless the entry pre-existed in the base replica with that kind. -/
def EntryDone (H : List Nat → List Nat) (uc : Bool) (rep0 rep' : FSNode)
    (p : Path) (ns : FSNode) : Prop :=
  ∃ nr, rep'.lookup p = some nr ∧ StepNoOp H uc ns nr ∧
    (nr.isDirB = ns.isDirB ∨
      ∃ nr0, rep0.lookup p = some nr0 ∧ nr.isDirB = nr0.isDirB)

theorem EntryDone.pres {H : List Nat → List Nat} {uc : Bool} {src rep0 b c : FSNode}
    {p : Path} {ns : FSNode} (heff : SrcEff H uc src b c)
    (hs : src.lookup p = some ns) (h : EntryDone H uc rep0 b p ns) :
    EntryDone H uc rep0 c p ns := by
  obtain ⟨nr, hlk, hno, hk⟩ := h
  rcases hno with ⟨sD, mD, csD, rfl⟩ | ⟨cF, mF, rfl, hid⟩
  · obtain ⟨cs1, hkeep⟩ := heff.2.2.1 p sD mD csD hlk
    exact ⟨.dir sD mD cs1, hkeep, Or.inl ⟨sD, mD, cs1, rfl⟩, hk⟩
  · have hkeep := heff.1 p cF mF ns hlk hs hid
    exact ⟨.file cF mF, hkeep, Or.inr ⟨cF, mF, rfl, hid⟩, hk⟩

theorem EntryDone.mono_base {H : List Nat → List Nat} {uc : Bool}
    {src rep0 rep1 rep' : FSNode} {p : Path} {ns : FSNode}
    (hpre : SrcEff H uc src rep0 rep1) (hs : src.lookup p = some ns)
    (h : EntryDone H uc rep1 rep' p ns) : EntryDone H uc rep0 rep' p ns := by
  obtain ⟨nr, hlk, hno, hk⟩ := h
  refine ⟨nr, hlk, hno, ?_⟩
  rcases hk with hk | ⟨nr0, hlk0, hk0⟩
  · exact Or.inl hk
  · cases hbase : rep0.lookup p with
    | some nb =>
      cases nb with
      | file cF mF =>
        obtain ⟨c2, m2, hkeep⟩ := hpre.2.1 p cF mF hbase
        rw [hkeep] at hlk0
        injection hlk0 with hlk0
        refine Or.inr ⟨.file cF mF, rfl, ?_⟩
        rw [hk0, ← hlk0]
        rfl
      | dir sD mD csD =>
        obtain ⟨cs1, hkeep⟩ := hpre.2.2.1 p sD mD csD hbase
        rw [hkeep] at hlk0
        injection hlk0 with hlk0
        refine Or.inr ⟨.dir sD mD csD, rfl, ?_⟩
        rw [hk0, ← hlk0]
        rfl
    | none =>
      obtain ⟨ns', hs', hk'⟩ := hpre.2.2.2.1 p nr0 hbase hlk0
      rw [hs] at hs'
      injection hs' with hs'
      subst hs'
      exact Or.inl (by rw [hk0, hk'])

/-- One successful step yields the effect relation and completes its own
entry. -/
theorem sourceStep_srcEff {H : List Nat → List Nat} {uc : Bool} {src : FSNode}
    {ns : FSNode} {p : Path} {st st' : SState}
    (hstep : sourceStep H uc ns p st = .ok st')
    (hagree : src.lookup p = some ns) (hp : p ≠ []) :
    SrcEff H uc src st.rep st'.rep ∧ EntryDone H uc st.rep st'.rep p ns := by
  obtain ⟨e1, e2, e3, e4, e5, e6⟩ := sourceStep_effects hstep hagree hp
  exact ⟨⟨e1, e2, e3, e4, e5⟩, e6⟩

theorem lookup_child_eq {t : FSNode} {relRoot : Path} {d1 d2 : Nat}
    {cs : FSEntries} (hrel : t.lookup relRoot = some (.dir d1 d2 cs))
    (a : String) : t.lookup (relRoot ++ [a]) = cs.find a := by
  rw [FSNode.lookup_append, hrel]
  show (FSNode.dir d1 d2 cs).lookup [a] = cs.find a
  exact FSNode.lookup_single d1 d2 cs a

theorem ordered_agree {src : FSNode} (hsrc : NodupTree src) {relRoot : Path}
    {d1 d2 : Nat} {cs : FSEntries}
    (hrel : src.lookup relRoot = some (.dir d1 d2 cs))
    {a : String} {n : FSNode} (hm : (a, n) ∈ cs.ordered) :
    src.lookup (relRoot ++ [a]) = some n := by
  have hnd := (NodupTree.lookup hsrc hrel).names_nodup
  have hfind := FSEntries.find_eq_of_mem_toList cs hnd
    ((FSEntries.mem_ordered_iff cs a n).mp hm)
  rw [lookup_child_eq hrel a]
  exact hfind

/-- The accumulated effect of the per-directory entry loop of the source
pass, together with completion of each entry it processed. -/
theorem sourceEntries_master {H : List Nat → List Nat} {uc : Bool}
    {src : FSNode} {relRoot : Path} :
    ∀ (es : List (String × FSNode)) (st st' : SState),
    seqE (fun e st1 => sourceStep H uc e.2 (relRoot ++ [e.1]) st1) es st = .ok st' →
    (∀ e ∈ es, src.lookup (relRoot ++ [e.1]) = some e.2) →
    SrcEff H uc src st.rep st'.rep ∧
    ∀ e ∈ es, EntryDone H uc st.rep st'.rep (relRoot ++ [e.1]) e.2 := by
  intro es
  induction es with
  | nil =>
    intro st st' h _
    have h' : st = st' := by simpa [seqE] using h
    subst h'
    exact ⟨SrcEff.refl H uc src st.rep, fun e he => by simp at he⟩
  | cons e rest ih =>
    intro st st' h hag
    simp only [seqE] at h
    cases hstep : sourceStep H uc e.2 (relRoot ++ [e.1]) st with
    | error err => rw [hstep] at h; cases h
    | ok st1 =>
      rw [hstep] at h
      have hagE := hag e (by simp)
      have hagR : ∀ e' ∈ rest, src.lookup (relRoot ++ [e'.1]) = some e'.2 :=
        fun e' he' => hag e' (by simp [he'])
      obtain ⟨heff1, hdone1⟩ := sourceStep_srcEff hstep hagE (by simp)
      obtain ⟨heff2, hdone2⟩ := ih st1 st' h hagR
      refine ⟨heff1.comp heff2, ?_⟩
      intro e' he'
      rcases List.mem_cons.mp he' with rfl | he'
      · exact EntryDone.pres heff2 hagE hdone1
      · exact EntryDone.mono_base heff1 (hagR e' he') (hdone2 e' he')

/-- The relative paths the source walk records, in visit order: at each
directory, its entries (directories first, then files), then the contents
of each subdirectory. -/
def pathsAt (t : FSNode) : Nat → Path → List Path
  | 0, _ => []
  | fuel + 1, relRoot =>
    match t.lookup relRoot with
    | some (.dir _ _ cs) =>
      (cs.ordered.map fun e => relRoot ++ [e.1]) ++
        (cs.dirNames.map fun a => pathsAt t fuel (relRoot ++ [a])).flatten
    | _ => []

/-- The source pass records exactly the walk's paths into the visited set,
in order, independently of the replica tree and the comparison mode. -/
theorem walkSource_visited {H : List Nat → List Nat} {uc : Bool} {src : FSNode} :
    ∀ fuel relRoot st st',
    walkSourceAt H uc src fuel relRoot st = .ok st' →
    st'.visited = st.visited ++ pathsAt src fuel relRoot := by
  intro fuel
  induction fuel with
  | zero =>
    intro relRoot st st' h
    have h' : st = st' := by simpa [walkSourceAt] using h
    subst h'
    simp [pathsAt]
  | succ fuel ih =>
    intro relRoot st st' h
    simp only [walkSourceAt] at h
    cases hrel : src.lookup relRoot with
    | none =>
      rw [hrel] at h
      injection h with h
      subst h
      simp [pathsAt, hrel]
    | some d =>
      cases d with
      | file c m =>
        rw [hrel] at h
        injection h with h
        subst h
        simp [pathsAt, hrel]
      | dir d1 d2 cs =>
        rw [hrel] at h
        dsimp only at h
        have hentry : ∀ (es : List (String × FSNode)) st0 st1,
            seqE (fun e st2 => sourceStep H uc e.2 (relRoot ++ [e.1]) st2) es st0 = .ok st1 →
            st1.visited = st0.visited ++ es.map (fun e => relRoot ++ [e.1]) := by
          intro es
          induction es with
          | nil =>
            intro st0 st1 hh
            have hh' : st0 = st1 := by simpa [seqE] using hh
            subst hh'
            simp
          | cons e rest ihe =>
            intro st0 st1 hh
            simp only [seqE] at hh
            cases hstep : sourceStep H uc e.2 (relRoot ++ [e.1]) st0 with
            | error err => rw [hstep] at hh; cases hh
            | ok stm =>
              rw [hstep] at hh
              rw [ihe stm st1 hh, (sourceStep_ok_cases hstep).1]
              simp
        have hkids : ∀ (names : List String) st1 st2,
            seqE (fun a st3 => walkSourceAt H uc src fuel (relRoot ++ [a]) st3)
              names st1 = .ok st2 →
            st2.visited = st1.visited ++
              (names.map fun a => pathsAt src fuel (relRoot ++ [a])).flatten := by
          intro names
          induction names with
          | nil =>
            intro st1 st2 hh
            have hh' : st1 = st2 := by simpa [seqE] using hh
            subst hh'
            simp
          | cons a rest ihn =>
            intro st1 st2 hh
            simp only [seqE] at hh
            cases hw : walkSourceAt H uc src fuel (relRoot ++ [a]) st1 with
            | error e => rw [hw] at hh; cases hh
            | ok stm =>
              rw [hw] at hh
              rw [ihn stm st2 hh, ih (relRoot ++ [a]) st1 stm hw]
              simp
        cases hse : seqE (fun e st1 => sourceStep H uc e.2 (relRoot ++ [e.1]) st1)
            cs.ordered st with
        | error e => rw [hse] at h; cases h
        | ok st1 =>
          rw [hse] at h
          dsimp only at h
          rw [hkids cs.dirNames st1 st' h, hentry cs.ordered st st1 hse]
          simp only [pathsAt, hrel]
          simp

/-- Master lemma for the source walk: it transforms the replica per
`SrcEff`, and — given enough fuel — completes every source entry strictly
below the walk root. -/
theorem walkSource_master {H : List Nat → List Nat} {uc : Bool} {src : FSNode}
    (hsrc : NodupTree src) :
    ∀ fuel relRoot st st',
    walkSourceAt H uc src fuel relRoot st = .ok st' →
    (∀ d, src.lookup relRoot = some d → d.depth ≤ fuel) →
    SrcEff H uc src st.rep st'.rep ∧
    (∀ s ns, s ≠ [] → src.lookup (relRoot ++ s) = some ns →
      EntryDone H uc st.rep st'.rep (relRoot ++ s) ns) := by
  intro fuel
  induction fuel with
  | zero =>
    intro relRoot st st' h hf
    have h' : st = st' := by simpa [walkSourceAt] using h
    subst h'
    refine ⟨SrcEff.refl H uc src st.rep, ?_⟩
    intro s ns hs hlk
    obtain ⟨s3, m3, cs3, hdir⟩ :=
      lookup_strict_isDir (t := src) (q := relRoot) (r := s) (by simp [hlk]) hs
    have := hf (.dir s3 m3 cs3) hdir
    simp [FSNode.depth] at this
  | succ fuel ih =>
    intro relRoot st st' h hf
    simp only [walkSourceAt] at h
    cases hrel : src.lookup relRoot with
    | none =>
      rw [hrel] at h
      injection h with h
      subst h
      refine ⟨SrcEff.refl H uc src st.rep, ?_⟩
      intro s ns hs hlk
      obtain ⟨s3, m3, cs3, hdir⟩ :=
        lookup_strict_isDir (t := src) (q := relRoot) (r := s) (by simp [hlk]) hs
      rw [hrel] at hdir
      cases hdir
    | some d =>
      cases d with
      | file c m =>
        rw [hrel] at h
        injection h with h
        subst h
        refine ⟨SrcEff.refl H uc src st.rep, ?_⟩
        intro s ns hs hlk
        obtain ⟨s3, m3, cs3, hdir⟩ :=
          lookup_strict_isDir (t := src) (q := relRoot) (r := s) (by simp [hlk]) hs
        rw [hrel] at hdir
        cases hdir
      | dir d1 d2 cs =>
        rw [hrel] at h
        dsimp only at h
        cases hse : seqE (fun e st1 => sourceStep H uc e.2 (relRoot ++ [e.1]) st1)
            cs.ordered st with
        | error e => rw [hse] at h; cases h
        | ok st1 =>
          rw [hse] at h
          dsimp only at h
          obtain ⟨heffE, hdoneE⟩ := sourceEntries_master cs.ordered st st1 hse
            (fun e he => ordered_agree hsrc hrel he)
          have hkids : ∀ (names : List String), (∀ a ∈ names, a ∈ cs.dirNames) →
              ∀ stA stB,
              seqE (fun a st2 => walkSourceAt H uc src fuel (relRoot ++ [a]) st2)
                names stA = .ok stB →
              SrcEff H uc src stA.rep stB.rep ∧
              (∀ a s ns, a ∈ names → s ≠ [] →
                src.lookup ((relRoot ++ [a]) ++ s) = some ns →
                EntryDone H uc stA.rep stB.rep ((relRoot ++ [a]) ++ s) ns) := by
            intro names
            induction names with
            | nil =>
              intro _ stA stB hh
              have hh' : stA = stB := by simpa [seqE] using hh
              subst hh'
              exact ⟨SrcEff.refl H uc src stA.rep, fun a s ns ha => by simp at ha⟩
            | cons a rest ihn =>
              intro hsub stA stB hh
              simp only [seqE] at hh
              cases hw : walkSourceAt H uc src fuel (relRoot ++ [a]) stA with
              | error e => rw [hw] at hh; cases hh
              | ok st2 =>
                rw [hw] at hh
                have hfC : ∀ d', src.lookup (relRoot ++ [a]) = some d' →
                    d'.depth ≤ fuel := by
                  intro d' hd'
                  rw [lookup_child_eq hrel a] at hd'
                  have h1 := @depth_child d1 d2 cs a d' hd'
                  have h2 := hf (.dir d1 d2 cs) hrel
                  simp only [FSNode.depth] at h1 h2
                  omega
                obtain ⟨heffC, hdoneC⟩ := ih (relRoot ++ [a]) stA st2 hw hfC
                obtain ⟨heffR, hdoneR⟩ := ihn
                  (fun a' ha' => hsub a' (by simp [ha'])) st2 stB hh
                refine ⟨heffC.comp heffR, ?_⟩
                intro a' s ns ha' hs hlk
                rcases List.mem_cons.mp ha' with rfl | ha'
                · exact EntryDone.pres heffR hlk (hdoneC s ns hs hlk)
                · exact EntryDone.mono_base heffC hlk (hdoneR a' s ns ha' hs hlk)
          obtain ⟨heffK, hdoneK⟩ := hkids cs.dirNames (fun a ha => ha) st1 st' h
          refine ⟨heffE.comp heffK, ?_⟩
          intro s ns hs hlk
          cases s with
          | nil => exact absurd rfl hs
          | cons a s' =>
            cases s' with
            | nil =>
              -- depth-one entry: processed by the entry loop
              have hfind : cs.find a = some ns := by
                rw [← lookup_child_eq hrel a]
                exact hlk
              have hmem : (a, ns) ∈ cs.ordered :=
                (FSEntries.mem_ordered_iff cs a ns).mpr
                  (FSEntries.mem_toList_of_find cs hfind)
              exact EntryDone.pres heffK hlk (hdoneE (a, ns) hmem)
            | cons b s'' =>
              -- deeper entry: handled by the child walk
              have hsplit : relRoot ++ a :: b :: s'' = (relRoot ++ [a]) ++ (b :: s'') := by
                simp
              rw [hsplit] at hlk ⊢
              obtain ⟨sC, mC, csC, hchild⟩ :=
                lookup_strict_isDir (t := src) (q := relRoot ++ [a]) (r := b :: s'')
                  (by rw [hlk]; rfl) (by simp)
              have hfind : cs.find a = some (.dir sC mC csC) := by
                rw [← lookup_child_eq hrel a]
                exact hchild
              have hdirn : a ∈ cs.dirNames :=
                (FSEntries.mem_dirNames_iff cs a).mpr
                  ⟨.dir sC mC csC, FSEntries.mem_toList_of_find cs hfind, rfl⟩
              exact EntryDone.mono_base heffE hlk
                (hdoneK a (b :: s'') ns hdirn (by simp) hlk)

/-- With enough fuel, the walk's path list enumerates exactly the relative
paths present in the source tree. -/
theorem mem_pathsAt {src : FSNode} (hsrc : NodupTree src) :
    ∀ fuel relRoot p,
    (∀ d, src.lookup relRoot = some d → d.depth ≤ fuel) →
    (p ∈ pathsAt src fuel relRoot ↔
      ∃ s, s ≠ [] ∧ p = relRoot ++ s ∧ (src.lookup p).isSome) := by
  intro fuel
  induction fuel with
  | zero =>
    intro relRoot p hf
    simp only [pathsAt, List.not_mem_nil, false_iff]
    rintro ⟨s, hs, rfl, hlk⟩
    obtain ⟨s3, m3, cs3, hdir⟩ :=
      lookup_strict_isDir (t := src) (q := relRoot) (r := s) hlk hs
    have := hf (.dir s3 m3 cs3) hdir
    simp [FSNode.depth] at this
  | succ fuel ih =>
    intro relRoot p hf
    cases hrel : src.lookup relRoot with
    | none =>
      simp only [pathsAt, hrel, List.not_mem_nil, false_iff]
      rintro ⟨s, hs, rfl, hlk⟩
      obtain ⟨s3, m3, cs3, hdir⟩ :=
        lookup_strict_isDir (t := src) (q := relRoot) (r := s) hlk hs
      rw [hrel] at hdir
      cases hdir
    | some d =>
      cases d with
      | file c m =>
        simp only [pathsAt, hrel, List.not_mem_nil, false_iff]
        rintro ⟨s, hs, rfl, hlk⟩
        obtain ⟨s3, m3, cs3, hdir⟩ :=
          lookup_strict_isDir (t := src) (q := relRoot) (r := s) hlk hs
        rw [hrel] at hdir
        cases hdir
      | dir d1 d2 cs =>
        have hfC : ∀ a, a ∈ cs.dirNames →
            ∀ d', src.lookup (relRoot ++ [a]) = some d' → d'.depth ≤ fuel := by
          intro a _ d' hd'
          rw [lookup_child_eq hrel a] at hd'
          have h1 := @depth_child d1 d2 cs a d' hd'
          have h2 := hf (.dir d1 d2 cs) hrel
          simp only [FSNode.depth] at h1 h2
          omega
        simp only [pathsAt, hrel, List.mem_append, List.mem_map, List.mem_flatten]
        constructor
        · rintro (⟨e, hme, rfl⟩ | ⟨l, ⟨⟨a, hma, rfl⟩, hpl⟩⟩)
          · refine ⟨[e.1], by simp, rfl, ?_⟩
            rw [lookup_child_eq hrel e.1]
            have := FSEntries.mem_names_of_mem_toList cs
              ((FSEntries.mem_ordered_iff cs e.1 e.2).mp
                (by cases e; exact hme))
            exact (FSEntries.mem_names_iff_find cs e.1).mp this
          · obtain ⟨s', hs', rfl, hlk⟩ :=
              (ih (relRoot ++ [a]) p (hfC a hma)).mp hpl
            exact ⟨a :: s', by simp, by simp, hlk⟩
        · rintro ⟨s, hs, rfl, hlk⟩
          cases s with
          | nil => exact absurd rfl hs
          | cons a s' =>
            cases s' with
            | nil =>
              left
              have hfind : (cs.find a).isSome := by
                rw [← lookup_child_eq hrel a]
                exact hlk
              obtain ⟨n, hn⟩ := Option.isSome_iff_exists.mp hfind
              exact ⟨(a, n), (FSEntries.mem_ordered_iff cs a n).mpr
                (FSEntries.mem_toList_of_find cs hn), rfl⟩
            | cons b s'' =>
              right
              have hsplit : relRoot ++ a :: b :: s'' = (relRoot ++ [a]) ++ (b :: s'') := by
                simp
              rw [hsplit] at hlk
              obtain ⟨sC, mC, csC, hchild⟩ :=
                lookup_strict_isDir (t := src) (q := relRoot ++ [a]) (r := b :: s'')
                  hlk (by simp)
              have hfind : cs.find a = some (.dir sC mC csC) := by
                rw [← lookup_child_eq hrel a]
                exact hchild
              have hdirn : a ∈ cs.dirNames :=
                (FSEntries.mem_dirNames_iff cs a).mpr
                  ⟨.dir sC mC csC, FSEntries.mem_toList_of_find cs hfind, rfl⟩
              refine ⟨pathsAt src fuel (relRoot ++ [a]), ⟨a, hdirn, rfl⟩, ?_⟩
              rw [ih (relRoot ++ [a]) (relRoot ++ a :: b :: s'') (hfC a hdirn)]
              exact ⟨b :: s'', by simp, by simp, by rw [hsplit]; exact hlk⟩

/-- C6. The source pass records the relative path of every entry it
encounters, unconditionally: on success its visited set is exactly the
walk's path enumeration of the source tree alone (independent of the
replica tree, the digest function and the comparison mode), and membership
in it is exactly existence of a nonempty relative path in the source
tree. -/
theorem C6_visited_set (H : List Nat → List Nat) (uc : Bool)
    (src rep : FSNode) (st' : SState) (hsrc : NodupTree src)
    (h : traverseSourceFiles H uc src rep = .ok st') :
    st'.visited = pathsAt src (src.depth + 1) [] ∧
    (∀ p, p ∈ st'.visited ↔ p ≠ [] ∧ (src.lookup p).isSome) := by
  have hv := walkSource_visited (src.depth + 1) [] ⟨[], rep, []⟩ st' h
  simp only [List.nil_append] at hv
  refine ⟨hv, ?_⟩
  intro p
  rw [hv]
  rw [mem_pathsAt hsrc (src.depth + 1) [] p
    (fun d hd => by
      simp only [FSNode.lookup] at hd
      injection hd with hd
      rw [← hd]
      omega)]
  constructor
  · rintro ⟨s, hs, rfl, hlk⟩
    exact ⟨by simpa using hs, hlk⟩
  · rintro ⟨hp, hlk⟩
    exact ⟨p, hp, by simp, hlk⟩

/-- Closed witness for C6: a one-file source tree against an empty
replica. -/
theorem C6_visited_set_witness :
    (⟨[["a"]], .dir 0 0 (.cons "a" (.file [1] 2) .nil),
        [.createFile ["a"]]⟩ : SState).visited =
      pathsAt (.dir 5 6 (.cons "a" (.file [1] 2) .nil))
        ((FSNode.dir 5 6 (.cons "a" (.file [1] 2) .nil)).depth + 1) [] ∧
    ((["a"] : Path) ∈ (⟨[["a"]], .dir 0 0 (.cons "a" (.file [1] 2) .nil),
        [.createFile ["a"]]⟩ : SState).visited ↔
      (["a"] : Path) ≠ [] ∧
      ((FSNode.dir 5 6 (.cons "a" (.file [1] 2) .nil)).lookup ["a"]).isSome) := by
  have h := C6_visited_set (fun l => l) false
    (.dir 5 6 (.cons "a" (.file [1] 2) .nil)) (.dir 0 0 .nil)
    ⟨[["a"]], .dir 0 0 (.cons "a" (.file [1] 2) .nil), [.createFile ["a"]]⟩
    (nodupB_sound _ rfl) rfl
  exact ⟨h.1, h.2 ["a"]⟩

/-! ### Replica walk: per-step behavior -/

theorem replicaStep_mem {visited : List Path} {p : Path} {st : RState}
    (h : p ∈ visited) :
    replicaStep visited p st = .ok ⟨st.rVisited ++ [p], st.rep, st.ops⟩ := by
  simp [replicaStep, h]

theorem replicaStep_del_file {visited : List Path} {p : Path} {st : RState}
    {c : List Nat} {m : Nat} (h : p ∉ visited)
    (hlk : st.rep.lookup p = some (.file c m)) :
    replicaStep visited p st =
      .ok ⟨st.rVisited ++ [p], removeAt st.rep p, st.ops ++ [.deleteFile p]⟩ := by
  simp [replicaStep, h, isfileAt, hlk, osRemove]

theorem replicaStep_del_dir {visited : List Path} {p : Path} {st : RState}
    {s m : Nat} {cs : FSEntries} (h : p ∉ visited)
    (hlk : st.rep.lookup p = some (.dir s m cs)) :
    replicaStep visited p st =
      .ok ⟨st.rVisited ++ [p], removeAt st.rep p, st.ops ++ [.deleteDir p]⟩ := by
  simp [replicaStep, h, isfileAt, hlk, rmtree]

theorem dirFileNames_nodup {sz mt : Nat} {cs : FSEntries}
    (hw : NodupTree (.dir sz mt cs)) :
    (cs.dirNames ++ cs.fileNames).Nodup := by
  have hnd := hw.names_nodup
  rw [FSEntries.names_eq_map] at hnd
  have h1 : cs.dirNames.Nodup := by
    have hsub : List.Sublist ((cs.toList.filter fun e => e.2.isDirB).map Prod.fst)
        (cs.toList.map Prod.fst) :=
      List.Sublist.map Prod.fst (List.filter_sublist cs.toList)
    exact List.Nodup.sublist hsub hnd
  have h2 : cs.fileNames.Nodup := by
    have hsub : List.Sublist ((cs.toList.filter fun e => !e.2.isDirB).map Prod.fst)
        (cs.toList.map Prod.fst) :=
      List.Sublist.map Prod.fst (List.filter_sublist cs.toList)
    exact List.Nodup.sublist hsub hnd
  rw [List.nodup_append]
  refine ⟨h1, h2, ?_⟩
  intro a ha hb
  obtain ⟨n1, hm1, hd1⟩ := (FSEntries.mem_dirNames_iff cs a).mp ha
  obtain ⟨n2, hm2, hd2⟩ := (FSEntries.mem_fileNames_iff cs a).mp hb
  have hf1 := FSEntries.find_eq_of_mem_toList cs hw.names_nodup hm1
  have hf2 := FSEntries.find_eq_of_mem_toList cs hw.names_nodup hm2
  rw [hf1] at hf2
  injection hf2 with hf2
  rw [hf2] at hd1
  rw [hd1] at hd2
  cases hd2

theorem names_mem_find {sz mt : Nat} {cs : FSEntries} {a : String}
    (hm : a ∈ cs.dirNames ++ cs.fileNames) : (cs.find a).isSome :=
  (FSEntries.mem_allNames_iff cs a).mp hm

/-- An entry strictly below the walk root survives the replica pass iff
every nonempty prefix of its relative path (from the walk root) was
recorded by the source pass. -/
def Kept (visited : List Path) (relRoot : Path) (s : Path) : Prop :=
  ∀ s1, s1 ≠ [] → Under s s1 → (relRoot ++ s1) ∈ visited

theorem removeAt_none_pres (t : FSNode) (p q : Path) (hw : NodupTree t)
    (h : t.lookup q = none) : (removeAt t p).lookup q = none := by
  by_cases hu1 : Under q p
  · cases p with
    | nil => simpa [removeAt] using h
    | cons x xs => exact removeAt_lookup_under t (x :: xs) q hw (by simp) hu1
  · by_cases hu2 : Under p q
    · obtain ⟨r, rfl⟩ := hu2
      have hpn : t.lookup (q ++ r) = none := by
        rw [FSNode.lookup_append, h]
        rfl
      rw [removeAt_of_lookup_none t (q ++ r) hpn]
      exact h
    · rw [removeAt_lookup_disjoint t p q hu1 hu2]
      exact h

theorem not_under_singleton {relRoot : Path} {a b : String} (hab : a ≠ b) :
    ¬ Under (relRoot ++ [a]) (relRoot ++ [b]) := by
  rintro ⟨r, hr⟩
  have hl := congrArg List.length hr
  simp only [List.length_append, List.length_cons, List.length_nil] at hl
  have hr0 : r = [] := List.length_eq_zero.mp (by omega)
  subst hr0
  rw [List.append_nil] at hr
  have := List.append_cancel_left hr
  injection this with h1
  exact hab h1

theorem walkReplica_skip {visited : List Path} {fuel : Nat} {relRoot : Path}
    {st : RState} (h : ∀ s m cs, st.rep.lookup relRoot ≠ some (.dir s m cs)) :
    walkReplicaAt visited fuel relRoot st = .ok st := by
  cases fuel with
  | zero => rfl
  | succ fuel =>
    rw [walkReplicaAt]
    cases hlk : st.rep.lookup relRoot with
    | none => rfl
    | some n =>
      cases n with
      | file c m => rfl
      | dir s m cs => exact absurd hlk (h s m cs)

theorem under_sib_left {p : Path} {a b : String} {s : Path} (hab : a ≠ b) :
    ¬ Under (p ++ [a] ++ s) (p ++ [b]) := by
  rintro ⟨r, hr⟩
  rw [List.append_assoc, List.append_assoc] at hr
  have h1 := List.append_cancel_left hr
  simp only [List.singleton_append] at h1
  injection h1 with h1
  exact hab h1

theorem under_sib_right {p : Path} {a b : String} {s : Path} (hab : a ≠ b) :
    ¬ Under (p ++ [b]) (p ++ [a] ++ s) := by
  rintro ⟨r, hr⟩
  simp only [List.append_assoc] at hr
  have h1 := List.append_cancel_left hr
  simp only [List.singleton_append] at h1
  injection h1 with h1
  exact hab h1.symm

theorem under_snoc {p : Path} {a : String} {q : Path}
    (h : Under (p ++ [a]) q) : Under p q ∨ q = p ++ [a] := by
  obtain ⟨r, hr⟩ := h
  rcases List.eq_nil_or_concat r with rfl | ⟨r1, x, rfl⟩
  · right
    simpa using hr.symm
  · left
    have h2 : p ++ [a] = (q ++ r1) ++ [x] := by
      simpa [List.append_assoc] using hr
    exact ⟨r1, ((List.append_inj' h2.symm (by simp)).1).symm⟩

theorem kept_nil (visited : List Path) (relRoot : Path) :
    Kept visited relRoot [] := by
  rintro s1 h1 ⟨r, hr⟩
  exact absurd (List.append_eq_nil.mp hr.symm).1 h1

theorem kept_cons_iff {visited : List Path} {relRoot : Path} {a : String}
    {s : Path} :
    Kept visited relRoot (a :: s) ↔
      (relRoot ++ [a]) ∈ visited ∧ Kept visited (relRoot ++ [a]) s := by
  constructor
  · intro h
    refine ⟨h [a] (by simp) ⟨s, rfl⟩, ?_⟩
    intro s1 h1 hu
    have h2 : relRoot ++ (a :: s1) ∈ visited := by
      refine h (a :: s1) (by simp) ?_
      obtain ⟨r, rfl⟩ := hu
      exact ⟨r, rfl⟩
    rw [List.append_cons] at h2
    exact h2
  · rintro ⟨hm, hk⟩ s1 h1 hu
    obtain ⟨r, hr⟩ := hu
    cases s1 with
    | nil => exact absurd rfl h1
    | cons x xs =>
      injection hr with e1 e2
      subst e1
      rcases eq_or_ne xs [] with rfl | hxs
      · simpa using hm
      · have h3 := hk xs hxs ⟨r, e2⟩
        rw [List.append_cons]
        exact h3

/-- A minimal orphan below the walk root: a nonempty relative path not
recorded by the source pass, every proper nonempty prefix of which was
recorded.  These are exactly the paths the replica pass deletes at. -/
def MinOrphan (visited : List Path) (relRoot : Path) (s : Path) : Prop :=
  s ≠ [] ∧ (relRoot ++ s) ∉ visited ∧
    ∀ s1, s1 ≠ [] → s1 ≠ s → Under s s1 → (relRoot ++ s1) ∈ visited

theorem minOrphan_single_iff {visited : List Path} {relRoot : Path}
    {a : String} :
    MinOrphan visited relRoot [a] ↔ (relRoot ++ [a]) ∉ visited := by
  constructor
  · exact fun h => h.2.1
  · intro h
    refine ⟨by simp, h, ?_⟩
    rintro s1 h1 h2 ⟨r, hr⟩
    cases s1 with
    | nil => exact absurd rfl h1
    | cons x xs =>
      injection hr with e1 e2
      subst e1
      have e3 := (List.append_eq_nil.mp e2.symm).1
      subst e3
      exact absurd rfl h2

theorem minOrphan_cons_iff {visited : List Path} {relRoot : Path} {a : String}
    {s : Path} (hs : s ≠ []) :
    MinOrphan visited relRoot (a :: s) ↔
      (relRoot ++ [a]) ∈ visited ∧ MinOrphan visited (relRoot ++ [a]) s := by
  constructor
  · rintro ⟨h0, h1, h2⟩
    refine ⟨h2 [a] (by simp)
        (by intro hc; injection hc with e1 e2; exact hs e2.symm) ⟨s, rfl⟩,
      hs, by rw [← List.append_cons]; exact h1, ?_⟩
    intro s1 hn1 hn2 hu
    obtain ⟨r, hr⟩ := hu
    have h3 : relRoot ++ (a :: s1) ∈ visited := by
      refine h2 (a :: s1) (by simp)
        (by intro hc; injection hc with e1 e2; exact hn2 e2) ⟨r, by simp [hr]⟩
    rw [List.append_cons] at h3
    exact h3
  · rintro ⟨hm, hs2, hnm, hmin⟩
    refine ⟨by simp, by rw [List.append_cons]; exact hnm, ?_⟩
    rintro s1 hn1 hn2 ⟨r, hr⟩
    cases s1 with
    | nil => exact absurd rfl hn1
    | cons x xs =>
      injection hr with e1 e2
      subst e1
      rcases eq_or_ne xs [] with rfl | hxs
      · simpa using hm
      · have hxne : xs ≠ s := by
          intro hc
          subst hc
          exact hn2 rfl
        have h3 := hmin xs hxs hxne ⟨r, e2⟩
        rw [List.append_cons]
        exact h3

/-- The accumulated effect of the per-directory entry loop of the replica
pass: each orphan child is deleted by one delete operation whose kind
matches the child node, entries disjoint from every orphan child are
untouched, the spine keeps its directory payloads, nothing is created, and
well-formedness is preserved. -/
theorem replicaEntries_master {visited : List Path} {relRoot : Path} :
    ∀ (names : List String) (st st' : RState), NodupTree st.rep →
    names.Nodup →
    (∀ a ∈ names, ((st.rep.lookup (relRoot ++ [a])).isSome)) →
    seqE (fun a st1 => replicaStep visited (relRoot ++ [a]) st1) names st = .ok st' →
    (∀ q, (∀ b ∈ names, relRoot ++ [b] ∉ visited →
        ¬ Under q (relRoot ++ [b]) ∧ ¬ Under (relRoot ++ [b]) q) →
      st'.rep.lookup q = st.rep.lookup q) ∧
    (∀ b ∈ names, relRoot ++ [b] ∉ visited →
      ∀ q, Under q (relRoot ++ [b]) → st'.rep.lookup q = none) ∧
    (∀ q, Under relRoot q → ∀ sz mt cs0,
      st.rep.lookup q = some (.dir sz mt cs0) →
      ∃ cs1, st'.rep.lookup q = some (.dir sz mt cs1)) ∧
    (∃ newOps, st'.ops = st.ops ++ newOps ∧
      (∀ op ∈ newOps, ∃ b n, b ∈ names ∧ relRoot ++ [b] ∉ visited ∧
        st.rep.lookup (relRoot ++ [b]) = some n ∧
        ((n.isDirB = false ∧ op = Op.deleteFile (relRoot ++ [b])) ∨
         (n.isDirB = true ∧ op = Op.deleteDir (relRoot ++ [b])))) ∧
      (∀ b ∈ names, relRoot ++ [b] ∉ visited → ∀ n,
        st.rep.lookup (relRoot ++ [b]) = some n →
        (n.isDirB = false → Op.deleteFile (relRoot ++ [b]) ∈ newOps) ∧
        (n.isDirB = true → Op.deleteDir (relRoot ++ [b]) ∈ newOps))) ∧
    NodupTree st'.rep ∧
    (∀ q, st.rep.lookup q = none → st'.rep.lookup q = none) := by
  intro names
  induction names with
  | nil =>
    intro st st' hw hnd hex h
    have h' : st = st' := by simpa [seqE] using h
    subst h'
    refine ⟨fun q _ => rfl, fun b hb => absurd hb (List.not_mem_nil b),
      fun q _ sz mt cs0 h0 => ⟨cs0, h0⟩,
      ⟨[], by simp, fun op hop => absurd hop (List.not_mem_nil op),
        fun b hb => absurd hb (List.not_mem_nil b)⟩,
      hw, fun q h0 => h0⟩
  | cons a rest ih =>
    intro st st' hw hnd hex h
    simp only [seqE] at h
    cases hstep : replicaStep visited (relRoot ++ [a]) st with
    | error e => rw [hstep] at h; cases h
    | ok stm =>
      rw [hstep] at h
      have hnd1 : rest.Nodup := hnd.of_cons
      have hna : a ∉ rest := (List.nodup_cons.mp hnd).1
      by_cases hv : relRoot ++ [a] ∈ visited
      · rw [replicaStep_mem hv] at hstep
        injection hstep with hstep
        subst hstep
        obtain ⟨F1, F2, F3, ⟨newOps, hops, hsound, hcompl⟩, F5, F6⟩ :=
          ih ⟨st.rVisited ++ [relRoot ++ [a]], st.rep, st.ops⟩ st' hw hnd1
            (fun b hb => hex b (List.mem_cons_of_mem a hb)) h
        refine ⟨?_, ?_, F3, ⟨newOps, hops, ?_, ?_⟩, F5, F6⟩
        · intro q hq
          exact F1 q (fun b hb => hq b (List.mem_cons_of_mem a hb))
        · intro b hb hbv q hq
          rcases List.mem_cons.mp hb with rfl | hb
          · exact absurd hv hbv
          · exact F2 b hb hbv q hq
        · intro op hop
          obtain ⟨b, n, hb, hbv, hlk, hkind⟩ := hsound op hop
          exact ⟨b, n, List.mem_cons_of_mem a hb, hbv, hlk, hkind⟩
        · intro b hb hbv n hlk
          rcases List.mem_cons.mp hb with rfl | hb
          · exact absurd hv hbv
          · exact hcompl b hb hbv n hlk
      · have hsome := hex a (by simp)
        obtain ⟨n, hn⟩ := Option.isSome_iff_exists.mp hsome
        have hstm : stm = ⟨st.rVisited ++ [relRoot ++ [a]],
            removeAt st.rep (relRoot ++ [a]),
            st.ops ++ [if n.isDirB then Op.deleteDir (relRoot ++ [a])
              else Op.deleteFile (relRoot ++ [a])]⟩ := by
          cases n with
          | file c m =>
            rw [replicaStep_del_file hv hn] at hstep
            injection hstep with hstep
            rw [← hstep]
            rfl
          | dir s m cs =>
            rw [replicaStep_del_dir hv hn] at hstep
            injection hstep with hstep
            rw [← hstep]
            rfl
        subst hstm
        have hw1 : NodupTree (removeAt st.rep (relRoot ++ [a])) :=
          nodup_removeAt st.rep (relRoot ++ [a]) hw
        have hdisj : ∀ b ∈ rest,
            (removeAt st.rep (relRoot ++ [a])).lookup (relRoot ++ [b]) =
              st.rep.lookup (relRoot ++ [b]) := by
          intro b hb
          have hab : a ≠ b := fun hc => hna (hc ▸ hb)
          exact removeAt_lookup_disjoint st.rep (relRoot ++ [a]) (relRoot ++ [b])
            (not_under_singleton (fun hc => hab hc.symm))
            (not_under_singleton hab)
        obtain ⟨F1, F2, F3, ⟨newOps, hops, hsound, hcompl⟩, F5, F6⟩ :=
          ih _ st' hw1 hnd1
            (fun b hb => by
              show ((removeAt st.rep (relRoot ++ [a])).lookup (relRoot ++ [b])).isSome
              rw [hdisj b hb]
              exact hex b (List.mem_cons_of_mem a hb)) h
        refine ⟨?_, ?_, ?_, ?_, F5, ?_⟩
        · intro q hq
          obtain ⟨hq1, hq2⟩ := hq a (by simp) hv
          have h1 := F1 q (fun b hb => hq b (List.mem_cons_of_mem a hb))
          rw [h1]
          exact removeAt_lookup_disjoint st.rep (relRoot ++ [a]) q hq1 hq2
        · intro b hb hbv q hq
          rcases List.mem_cons.mp hb with rfl | hb
          · have h1 : (removeAt st.rep (relRoot ++ [b])).lookup q = none :=
              removeAt_lookup_under st.rep (relRoot ++ [b]) q hw (by simp) hq
            exact F6 q h1
          · exact F2 b hb hbv q hq
        · intro q hq sz mt cs0 h0
          have hup : Under (relRoot ++ [a]) q :=
            Under.trans ⟨[a], rfl⟩ hq
          have hne : q ≠ relRoot ++ [a] := by
            intro hc
            subst hc
            obtain ⟨r, hr⟩ := hq
            have := congrArg List.length hr
            simp [List.length_append] at this
          obtain ⟨cs1, h1⟩ :=
            removeAt_lookup_dir_spine st.rep (relRoot ++ [a]) q hup hne h0
          obtain ⟨cs2, h2⟩ := F3 q hq sz mt cs1 h1
          exact ⟨cs2, h2⟩
        · refine ⟨(if n.isDirB then Op.deleteDir (relRoot ++ [a])
              else Op.deleteFile (relRoot ++ [a])) :: newOps, ?_, ?_, ?_⟩
          · rw [hops]
            simp
          · intro op hop
            rcases List.mem_cons.mp hop with rfl | hop
            · refine ⟨a, n, by simp, hv, hn, ?_⟩
              cases hd : n.isDirB with
              | false => exact Or.inl ⟨rfl, by simp⟩
              | true => exact Or.inr ⟨rfl, by simp⟩
            · obtain ⟨b, n1, hb, hbv, hlk, hkind⟩ := hsound op hop
              rw [hdisj b hb] at hlk
              exact ⟨b, n1, List.mem_cons_of_mem a hb, hbv, hlk, hkind⟩
          · intro b hb hbv n1 hlk
            rcases List.mem_cons.mp hb with rfl | hb
            · rw [hn] at hlk
              injection hlk with hlk
              subst hlk
              constructor
              · intro hd
                rw [hd]
                simp
              · intro hd
                rw [hd]
                simp
            · have h1 := hcompl b hb hbv n1 (by rw [hdisj b hb]; exact hlk)
              exact ⟨fun hd => List.mem_cons_of_mem _ (h1.1 hd),
                fun hd => List.mem_cons_of_mem _ (h1.2 hd)⟩
        · intro q h0
          exact F6 q (removeAt_none_pres st.rep (relRoot ++ [a]) q hw h0)

/-- Master lemma for the replica walk: an entry below the walk root
survives iff every nonempty prefix of its relative path was recorded by
the source pass; surviving files are byte- and timestamp-exact, surviving
directories keep their metadata; deleted subtrees vanish entirely; nothing
is created; entries outside the walked subtree are untouched; and the
recorded operations are exactly one delete, of the matching kind, per
minimal orphan. -/
theorem walkReplica_master {visited : List Path} :
    ∀ fuel relRoot st st', NodupTree st.rep →
    walkReplicaAt visited fuel relRoot st = .ok st' →
    (∀ d, st.rep.lookup relRoot = some d → d.depth ≤ fuel) →
    (∀ s c m, Kept visited relRoot s →
      st.rep.lookup (relRoot ++ s) = some (.file c m) →
      st'.rep.lookup (relRoot ++ s) = some (.file c m)) ∧
    (∀ s e1 e2 cs0, Kept visited relRoot s →
      st.rep.lookup (relRoot ++ s) = some (.dir e1 e2 cs0) →
      ∃ cs1, st'.rep.lookup (relRoot ++ s) = some (.dir e1 e2 cs1)) ∧
    (∀ s, ¬ Kept visited relRoot s → st'.rep.lookup (relRoot ++ s) = none) ∧
    (∀ q, st.rep.lookup q = none → st'.rep.lookup q = none) ∧
    (∀ q, ¬ Under q relRoot → ¬ Under relRoot q →
      st'.rep.lookup q = st.rep.lookup q) ∧
    (∀ q, Under relRoot q → ∀ sz mt cs0,
      st.rep.lookup q = some (.dir sz mt cs0) →
      ∃ cs1, st'.rep.lookup q = some (.dir sz mt cs1)) ∧
    (∃ newOps, st'.ops = st.ops ++ newOps ∧
      (∀ op ∈ newOps, ∃ s n, MinOrphan visited relRoot s ∧
        st.rep.lookup (relRoot ++ s) = some n ∧
        ((n.isDirB = false ∧ op = Op.deleteFile (relRoot ++ s)) ∨
         (n.isDirB = true ∧ op = Op.deleteDir (relRoot ++ s)))) ∧
      (∀ s n, MinOrphan visited relRoot s →
        st.rep.lookup (relRoot ++ s) = some n →
        (n.isDirB = false → Op.deleteFile (relRoot ++ s) ∈ newOps) ∧
        (n.isDirB = true → Op.deleteDir (relRoot ++ s) ∈ newOps))) ∧
    NodupTree st'.rep := by
  intro fuel
  induction fuel with
  | zero =>
    intro relRoot st st' hw h hf
    have h' : st = st' := by simpa [walkReplicaAt] using h
    subst h'
    have hnone : ∀ s : Path, s ≠ [] → st.rep.lookup (relRoot ++ s) = none := by
      intro s hs
      cases hlk : st.rep.lookup (relRoot ++ s) with
      | none => rfl
      | some n =>
        obtain ⟨s3, m3, cs3, hdir⟩ :=
          lookup_strict_isDir (t := st.rep) (q := relRoot) (r := s)
            (by rw [hlk]; rfl) hs
        have := hf (.dir s3 m3 cs3) hdir
        simp [FSNode.depth] at this
    refine ⟨fun s c m _ h0 => h0, fun s e1 e2 cs0 _ h0 => ⟨cs0, h0⟩, ?_,
      fun q h0 => h0, fun q _ _ => rfl, fun q _ sz mt cs0 h0 => ⟨cs0, h0⟩,
      ⟨[], by simp, fun op hop => absurd hop (List.not_mem_nil op), ?_⟩, hw⟩
    · intro s hk
      have hs : s ≠ [] := by
        rintro rfl
        exact hk (kept_nil visited relRoot)
      exact hnone s hs
    · intro s n hmo hlk
      rw [hnone s hmo.1] at hlk
      cases hlk
  | succ fuel ih =>
    intro relRoot st st' hw h hf
    have hkids : ∀ (ds : List String) (st1 st2 : RState), NodupTree st1.rep →
        ds.Nodup →
        seqE (fun a2 st3 => walkReplicaAt visited fuel (relRoot ++ [a2]) st3)
          ds st1 = .ok st2 →
        (∀ a ∈ ds, ∀ d, st1.rep.lookup (relRoot ++ [a]) = some d →
          d.depth ≤ fuel) →
        (∀ a ∈ ds, ∀ s c m, Kept visited (relRoot ++ [a]) s →
          st1.rep.lookup (relRoot ++ [a] ++ s) = some (.file c m) →
          st2.rep.lookup (relRoot ++ [a] ++ s) = some (.file c m)) ∧
        (∀ a ∈ ds, ∀ s e1 e2 cs0, Kept visited (relRoot ++ [a]) s →
          st1.rep.lookup (relRoot ++ [a] ++ s) = some (.dir e1 e2 cs0) →
          ∃ cs1, st2.rep.lookup (relRoot ++ [a] ++ s) = some (.dir e1 e2 cs1)) ∧
        (∀ a ∈ ds, ∀ s, ¬ Kept visited (relRoot ++ [a]) s →
          st2.rep.lookup (relRoot ++ [a] ++ s) = none) ∧
        (∀ q, st1.rep.lookup q = none → st2.rep.lookup q = none) ∧
        (∀ q, (∀ a ∈ ds, ¬ Under q (relRoot ++ [a]) ∧
            ¬ Under (relRoot ++ [a]) q) →
          st2.rep.lookup q = st1.rep.lookup q) ∧
        (∀ q, Under relRoot q → ∀ sz mt cs0,
          st1.rep.lookup q = some (.dir sz mt cs0) →
          ∃ cs1, st2.rep.lookup q = some (.dir sz mt cs1)) ∧
        (∃ kOps, st2.ops = st1.ops ++ kOps ∧
          (∀ op ∈ kOps, ∃ a s n, a ∈ ds ∧
            MinOrphan visited (relRoot ++ [a]) s ∧
            st1.rep.lookup (relRoot ++ [a] ++ s) = some n ∧
            ((n.isDirB = false ∧ op = Op.deleteFile (relRoot ++ [a] ++ s)) ∨
             (n.isDirB = true ∧ op = Op.deleteDir (relRoot ++ [a] ++ s)))) ∧
          (∀ a ∈ ds, ∀ s n, MinOrphan visited (relRoot ++ [a]) s →
            st1.rep.lookup (relRoot ++ [a] ++ s) = some n →
            (n.isDirB = false → Op.deleteFile (relRoot ++ [a] ++ s) ∈ kOps) ∧
            (n.isDirB = true → Op.deleteDir (relRoot ++ [a] ++ s) ∈ kOps))) ∧
        NodupTree st2.rep := by
      intro ds
      induction ds with
      | nil =>
        intro st1 st2 hw1 hnd1 hseq hfd
        have h' : st1 = st2 := by simpa [seqE] using hseq
        subst h'
        exact ⟨fun a ha => absurd ha (List.not_mem_nil a),
          fun a ha => absurd ha (List.not_mem_nil a),
          fun a ha => absurd ha (List.not_mem_nil a),
          fun q h0 => h0, fun q _ => rfl,
          fun q _ sz mt cs0 h0 => ⟨cs0, h0⟩,
          ⟨[], by simp, fun op hop => absurd hop (List.not_mem_nil op),
            fun a ha => absurd ha (List.not_mem_nil a)⟩, hw1⟩
      | cons a ds ihd =>
        intro st1 st2 hw1 hnd1 hseq hfd
        simp only [seqE] at hseq
        cases hwa : walkReplicaAt visited fuel (relRoot ++ [a]) st1 with
        | error e => rw [hwa] at hseq; cases hseq
        | ok sta =>
          rw [hwa] at hseq
          have hna : a ∉ ds := (List.nodup_cons.mp hnd1).1
          have hndd : ds.Nodup := hnd1.of_cons
          obtain ⟨R1a, R2a, R3a, R4a, R5a, R6a,
              ⟨opsA, hopsA, hsoundA, hcomplA⟩, R8a⟩ :=
            ih (relRoot ++ [a]) st1 sta hw1 hwa (hfd a (by simp))
          have hfr : ∀ b ∈ ds, ∀ s : Path,
              sta.rep.lookup (relRoot ++ [b] ++ s) =
                st1.rep.lookup (relRoot ++ [b] ++ s) := by
            intro b hb s
            have hab : b ≠ a := fun hc => hna (hc ▸ hb)
            exact R5a _ (under_sib_left hab) (under_sib_right hab)
          have hfr0 : ∀ b ∈ ds,
              sta.rep.lookup (relRoot ++ [b]) =
                st1.rep.lookup (relRoot ++ [b]) := by
            intro b hb
            have := hfr b hb []
            simpa using this
          obtain ⟨K1, K2, K3, K4, K5, K6,
              ⟨opsK, hopsK, hsoundK, hcomplK⟩, K8⟩ :=
            ihd sta st2 R8a hndd hseq
              (fun b hb d hd => hfd b (List.mem_cons_of_mem a hb) d
                (by rw [← hfr0 b hb]; exact hd))
          refine ⟨?_, ?_, ?_, ?_, ?_, ?_, ?_, K8⟩
          · intro a2 ha2 s c m hk h0
            rcases List.mem_cons.mp ha2 with rfl | ha2
            · have h1 := R1a s c m hk h0
              have h5 : st2.rep.lookup (relRoot ++ [a2] ++ s) =
                  sta.rep.lookup (relRoot ++ [a2] ++ s) := by
                refine K5 _ (fun b hb => ?_)
                have hab : a2 ≠ b := fun hc => hna (hc ▸ hb)
                exact ⟨under_sib_left hab, under_sib_right hab⟩
              rw [h5]
              exact h1
            · exact K1 a2 ha2 s c m hk (by rw [hfr a2 ha2 s]; exact h0)
          · intro a2 ha2 s e1 e2 cs0 hk h0
            rcases List.mem_cons.mp ha2 with rfl | ha2
            · obtain ⟨cs1, h1⟩ := R2a s e1 e2 cs0 hk h0
              have h5 : st2.rep.lookup (relRoot ++ [a2] ++ s) =
                  sta.rep.lookup (relRoot ++ [a2] ++ s) := by
                refine K5 _ (fun b hb => ?_)
                have hab : a2 ≠ b := fun hc => hna (hc ▸ hb)
                exact ⟨under_sib_left hab, under_sib_right hab⟩
              exact ⟨cs1, by rw [h5]; exact h1⟩
            · exact K2 a2 ha2 s e1 e2 cs0 hk (by rw [hfr a2 ha2 s]; exact h0)
          · intro a2 ha2 s hk
            rcases List.mem_cons.mp ha2 with rfl | ha2
            · exact K4 _ (R3a s hk)
            · exact K3 a2 ha2 s hk
          · intro q h0
            exact K4 q (R4a q h0)
          · intro q hq
            have h5 := K5 q (fun b hb => hq b (List.mem_cons_of_mem a hb))
            have h5a := R5a q (hq a (by simp)).1 (hq a (by simp)).2
            rw [h5, h5a]
          · intro q hq sz mt cs0 h0
            obtain ⟨cs1, h1⟩ := R6a q (Under.trans ⟨[a], rfl⟩ hq) sz mt cs0 h0
            exact K6 q hq sz mt cs1 h1
          · refine ⟨opsA ++ opsK, ?_, ?_, ?_⟩
            · rw [hopsK, hopsA, List.append_assoc]
            · intro op hop
              rcases List.mem_append.mp hop with hop | hop
              · obtain ⟨s, n, hmo, hlk, hkind⟩ := hsoundA op hop
                exact ⟨a, s, n, by simp, hmo, hlk, hkind⟩
              · obtain ⟨b, s, n, hb, hmo, hlk, hkind⟩ := hsoundK op hop
                exact ⟨b, s, n, List.mem_cons_of_mem a hb, hmo,
                  by rw [← hfr b hb s]; exact hlk, hkind⟩
            · intro a2 ha2 s n hmo hlk
              rcases List.mem_cons.mp ha2 with rfl | ha2
              · have h1 := hcomplA s n hmo hlk
                exact ⟨fun hd => List.mem_append_left _ (h1.1 hd),
                  fun hd => List.mem_append_left _ (h1.2 hd)⟩
              · have h1 := hcomplK a2 ha2 s n hmo
                  (by rw [hfr a2 ha2 s]; exact hlk)
                exact ⟨fun hd => List.mem_append_right _ (h1.1 hd),
                  fun hd => List.mem_append_right _ (h1.2 hd)⟩
    rw [walkReplicaAt] at h
    cases hrel : st.rep.lookup relRoot with
    | none =>
      rw [hrel] at h
      injection h with h
      subst h
      have hnone2 : ∀ s : Path, s ≠ [] →
          st.rep.lookup (relRoot ++ s) = none := by
        intro s hs
        rw [FSNode.lookup_append, hrel]
        rfl
      refine ⟨fun s c m _ h0 => h0, fun s e1 e2 cs0 _ h0 => ⟨cs0, h0⟩, ?_,
        fun q h0 => h0, fun q _ _ => rfl, fun q _ sz mt cs0 h0 => ⟨cs0, h0⟩,
        ⟨[], by simp, fun op hop => absurd hop (List.not_mem_nil op), ?_⟩, hw⟩
      · intro s hk
        have hs : s ≠ [] := by
          rintro rfl
          exact hk (kept_nil visited relRoot)
        exact hnone2 s hs
      · intro s n hmo hlk
        rw [hnone2 s hmo.1] at hlk
        cases hlk
    | some d0 =>
      cases d0 with
      | file c0 m0 =>
        rw [hrel] at h
        injection h with h
        subst h
        have hnone2 : ∀ s : Path, s ≠ [] →
            st.rep.lookup (relRoot ++ s) = none := by
          intro s hs
          rw [FSNode.lookup_append, hrel]
          cases s with
          | nil => exact absurd rfl hs
          | cons x xs => rfl
        refine ⟨fun s c m _ h0 => h0, fun s e1 e2 cs0 _ h0 => ⟨cs0, h0⟩, ?_,
          fun q h0 => h0, fun q _ _ => rfl,
          fun q _ sz mt cs0 h0 => ⟨cs0, h0⟩,
          ⟨[], by simp, fun op hop => absurd hop (List.not_mem_nil op), ?_⟩, hw⟩
        · intro s hk
          have hs : s ≠ [] := by
            rintro rfl
            exact hk (kept_nil visited relRoot)
          exact hnone2 s hs
        · intro s n hmo hlk
          rw [hnone2 s hmo.1] at hlk
          cases hlk
      | dir d1 d2 cs =>
        rw [hrel] at h
        dsimp only at h
        cases hse : seqE (fun a st1 => replicaStep visited (relRoot ++ [a]) st1)
            (cs.dirNames ++ cs.fileNames) st with
        | error e => rw [hse] at h; cases h
        | ok st1 =>
          rw [hse] at h
          dsimp only at h
          have hwdir : NodupTree (FSNode.dir d1 d2 cs) := NodupTree.lookup hw hrel
          have hndall : (cs.dirNames ++ cs.fileNames).Nodup :=
            dirFileNames_nodup hwdir
          obtain ⟨hdn, hfn, hdisj⟩ := List.nodup_append.mp hndall
          have hexn : ∀ a ∈ cs.dirNames ++ cs.fileNames,
              ((st.rep.lookup (relRoot ++ [a])).isSome) := by
            intro a ha
            rw [lookup_child_eq hrel a]
            exact (FSEntries.mem_allNames_iff cs a).mp ha
          obtain ⟨E1, E2, E3, ⟨ops1, hops1, hsound1, hcompl1⟩, E5, E6⟩ :=
            replicaEntries_master (cs.dirNames ++ cs.fileNames) st st1
              hw hndall hexn hse
          have hpres : ∀ (a : String) (s : Path), relRoot ++ [a] ∈ visited →
              st1.rep.lookup (relRoot ++ [a] ++ s) =
                st.rep.lookup (relRoot ++ [a] ++ s) := by
            intro a s hv
            refine E1 _ (fun b hb hbv => ?_)
            have hab : a ≠ b := fun hc => hbv (hc ▸ hv)
            exact ⟨under_sib_left hab, under_sib_right hab⟩
          have hpres0 : ∀ a : String, relRoot ++ [a] ∈ visited →
              st1.rep.lookup (relRoot ++ [a]) =
                st.rep.lookup (relRoot ++ [a]) := by
            intro a hv
            have := hpres a [] hv
            simpa using this
          have hfk : ∀ a ∈ cs.dirNames, ∀ d,
              st1.rep.lookup (relRoot ++ [a]) = some d → d.depth ≤ fuel := by
            intro a ha d hd
            by_cases hv : relRoot ++ [a] ∈ visited
            · rw [hpres0 a hv, lookup_child_eq hrel a] at hd
              have h1 := @depth_child d1 d2 cs a d hd
              have h2 := hf (.dir d1 d2 cs) hrel
              simp only [FSNode.depth] at h1 h2
              omega
            · rw [E2 a (List.mem_append_left _ ha) hv (relRoot ++ [a])
                (under_refl _)] at hd
              cases hd
          obtain ⟨K1, K2, K3, K4, K5, K6,
              ⟨opsK, hopsK, hsoundK, hcomplK⟩, K8⟩ :=
            hkids cs.dirNames st1 st' E5 hdn h hfk
          refine ⟨?_, ?_, ?_, ?_, ?_, ?_, ?_, K8⟩
          · intro s c m hk h0
            cases s with
            | nil =>
              rw [List.append_nil] at h0
              rw [hrel] at h0
              cases h0
            | cons a s1 =>
              rw [List.append_cons] at h0 ⊢
              obtain ⟨hva, hk1⟩ := kept_cons_iff.mp hk
              rcases eq_or_ne s1 [] with rfl | hs1
              · have hfind : cs.find a = some (.file c m) := by
                  rw [← lookup_child_eq hrel a]
                  simpa using h0
                have hafile : a ∈ cs.fileNames :=
                  (FSEntries.mem_fileNames_iff cs a).mpr
                    ⟨.file c m, FSEntries.mem_toList_of_find cs hfind, rfl⟩
                have h5 : st'.rep.lookup (relRoot ++ [a]) =
                    st1.rep.lookup (relRoot ++ [a]) := by
                  refine K5 _ (fun b hb => ?_)
                  have hab : a ≠ b := fun hc => hdisj (hc ▸ hb) hafile
                  exact ⟨not_under_singleton hab,
                    not_under_singleton (fun hc => hab hc.symm)⟩
                rw [show relRoot ++ [a] ++ ([] : Path) = relRoot ++ [a]
                  by simp] at h0 ⊢
                rw [h5, hpres0 a hva]
                exact h0
              · obtain ⟨sC, mC, csC, hchild⟩ :=
                  lookup_strict_isDir (t := st.rep) (q := relRoot ++ [a])
                    (r := s1) (by rw [h0]; rfl) hs1
                have hfind : cs.find a = some (.dir sC mC csC) := by
                  rw [← lookup_child_eq hrel a]
                  exact hchild
                have hadir : a ∈ cs.dirNames :=
                  (FSEntries.mem_dirNames_iff cs a).mpr
                    ⟨_, FSEntries.mem_toList_of_find cs hfind, rfl⟩
                refine K1 a hadir s1 c m hk1 ?_
                rw [hpres a s1 hva]
                exact h0
          · intro s e1 e2 cs0 hk h0
            cases s with
            | nil =>
              rw [List.append_nil] at h0 ⊢
              obtain ⟨cs1, h1⟩ := E3 relRoot (under_refl _) e1 e2 cs0 h0
              exact K6 relRoot (under_refl _) e1 e2 cs1 h1
            | cons a s1 =>
              rw [List.append_cons] at h0 ⊢
              obtain ⟨hva, hk1⟩ := kept_cons_iff.mp hk
              have hchild : ∃ sC mC csC,
                  st.rep.lookup (relRoot ++ [a]) = some (.dir sC mC csC) := by
                rcases eq_or_ne s1 [] with rfl | hs1
                · exact ⟨e1, e2, cs0, by simpa using h0⟩
                · exact lookup_strict_isDir (t := st.rep) (q := relRoot ++ [a])
                    (r := s1) (by rw [h0]; rfl) hs1
              obtain ⟨sC, mC, csC, hchild⟩ := hchild
              have hfind : cs.find a = some (.dir sC mC csC) := by
                rw [← lookup_child_eq hrel a]
                exact hchild
              have hadir : a ∈ cs.dirNames :=
                (FSEntries.mem_dirNames_iff cs a).mpr
                  ⟨_, FSEntries.mem_toList_of_find cs hfind, rfl⟩
              refine K2 a hadir s1 e1 e2 cs0 hk1 ?_
              rw [hpres a s1 hva]
              exact h0
          · intro s hk
            cases s with
            | nil => exact absurd (kept_nil visited relRoot) hk
            | cons a s1 =>
              rw [List.append_cons]
              by_cases hva : relRoot ++ [a] ∈ visited
              · have hk1 : ¬ Kept visited (relRoot ++ [a]) s1 :=
                  fun hc => hk (kept_cons_iff.mpr ⟨hva, hc⟩)
                cases hcf : cs.find a with
                | none =>
                  have h0 : st.rep.lookup (relRoot ++ [a] ++ s1) = none := by
                    rw [FSNode.lookup_append, lookup_child_eq hrel a, hcf]
                    rfl
                  exact K4 _ (E6 _ h0)
                | some ch =>
                  cases ch with
                  | file cF mF =>
                    have hs1 : s1 ≠ [] := fun hc =>
                      hk1 (hc ▸ kept_nil visited (relRoot ++ [a]))
                    have h0 : st.rep.lookup (relRoot ++ [a] ++ s1) = none := by
                      rw [FSNode.lookup_append, lookup_child_eq hrel a, hcf]
                      cases s1 with
                      | nil => exact absurd rfl hs1
                      | cons x xs => rfl
                    exact K4 _ (E6 _ h0)
                  | dir sC mC csC =>
                    have hadir : a ∈ cs.dirNames :=
                      (FSEntries.mem_dirNames_iff cs a).mpr
                        ⟨_, FSEntries.mem_toList_of_find cs hcf, rfl⟩
                    exact K3 a hadir s1 hk1
              · cases hcf : cs.find a with
                | none =>
                  have h0 : st.rep.lookup (relRoot ++ [a] ++ s1) = none := by
                    rw [FSNode.lookup_append, lookup_child_eq hrel a, hcf]
                    rfl
                  exact K4 _ (E6 _ h0)
                | some ch =>
                  have hmem : a ∈ cs.dirNames ++ cs.fileNames :=
                    (FSEntries.mem_allNames_iff cs a).mpr (by rw [hcf]; rfl)
                  have h1 := E2 a hmem hva (relRoot ++ [a] ++ s1) ⟨s1, rfl⟩
                  exact K4 _ h1
          · intro q h0
            exact K4 q (E6 q h0)
          · intro q hq1 hq2
            have hcond : ∀ b : String, ¬ Under q (relRoot ++ [b]) ∧
                ¬ Under (relRoot ++ [b]) q := by
              intro b
              constructor
              · intro hc
                exact hq1 (Under.trans hc ⟨[b], rfl⟩)
              · intro hc
                rcases under_snoc hc with hc | rfl
                · exact hq2 hc
                · exact hq1 ⟨[b], rfl⟩
            have h5 := K5 q (fun b _ => hcond b)
            have h1 := E1 q (fun b _ _ => hcond b)
            rw [h5, h1]
          · intro q hq sz mt cs0 h0
            obtain ⟨cs1, h1⟩ := E3 q hq sz mt cs0 h0
            exact K6 q hq sz mt cs1 h1
          · refine ⟨ops1 ++ opsK, ?_, ?_, ?_⟩
            · rw [hopsK, hops1, List.append_assoc]
            · intro op hop
              rcases List.mem_append.mp hop with hop | hop
              · obtain ⟨b, n, hbmem, hbv, hlk, hkind⟩ := hsound1 op hop
                exact ⟨[b], n, minOrphan_single_iff.mpr hbv, hlk, hkind⟩
              · obtain ⟨a, s, n, hadir, hmo, hlk, hkind⟩ := hsoundK op hop
                have hva : relRoot ++ [a] ∈ visited := by
                  by_contra hva
                  rw [E2 a (List.mem_append_left _ hadir) hva
                    (relRoot ++ [a] ++ s) ⟨s, rfl⟩] at hlk
                  cases hlk
                refine ⟨a :: s, n, (minOrphan_cons_iff hmo.1).mpr ⟨hva, hmo⟩,
                  ?_, ?_⟩
                · rw [List.append_cons, ← hpres a s hva]
                  exact hlk
                · rcases hkind with ⟨hd, rfl⟩ | ⟨hd, rfl⟩
                  · exact Or.inl ⟨hd, by simp⟩
                  · exact Or.inr ⟨hd, by simp⟩
            · intro s n hmo hlk
              cases s with
              | nil => exact absurd rfl hmo.1
              | cons a s1 =>
                rcases eq_or_ne s1 [] with rfl | hs1
                · have hbv := minOrphan_single_iff.mp hmo
                  have hfind : cs.find a = some n := by
                    rw [← lookup_child_eq hrel a]
                    exact hlk
                  have hmem : a ∈ cs.dirNames ++ cs.fileNames :=
                    (FSEntries.mem_allNames_iff cs a).mpr (by rw [hfind]; rfl)
                  have h1 := hcompl1 a hmem hbv n hlk
                  exact ⟨fun hd => List.mem_append_left _ (h1.1 hd),
                    fun hd => List.mem_append_left _ (h1.2 hd)⟩
                · obtain ⟨hva, hmo1⟩ := (minOrphan_cons_iff hs1).mp hmo
                  rw [List.append_cons] at hlk
                  obtain ⟨sC, mC, csC, hchild⟩ :=
                    lookup_strict_isDir (t := st.rep) (q := relRoot ++ [a])
                      (r := s1) (by rw [hlk]; rfl) hs1
                  have hfind : cs.find a = some (.dir sC mC csC) := by
                    rw [← lookup_child_eq hrel a]
                    exact hchild
                  have hadir : a ∈ cs.dirNames :=
                    (FSEntries.mem_dirNames_iff cs a).mpr
                      ⟨_, FSEntries.mem_toList_of_find cs hfind, rfl⟩
                  have h1 := hcomplK a hadir s1 n hmo1
                    (by rw [hpres a s1 hva]; exact hlk)
                  constructor
                  · intro hd
                    rw [List.append_cons]
                    exact List.mem_append_right _ (h1.1 hd)
                  · intro hd
                    rw [List.append_cons]
                    exact List.mem_append_right _ (h1.2 hd)

/-- When every entry below the walk root was recorded by the source pass,
the replica walk deletes nothing and performs no operation. -/
theorem walkReplica_all_kept {visited : List Path} :
    ∀ fuel relRoot st st',
    walkReplicaAt visited fuel relRoot st = .ok st' →
    (∀ s : Path, s ≠ [] → ((st.rep.lookup (relRoot ++ s)).isSome) →
      (relRoot ++ s) ∈ visited) →
    st'.rep = st.rep ∧ st'.ops = st.ops := by
  intro fuel
  induction fuel with
  | zero =>
    intro relRoot st st' h hv
    have h' : st = st' := by simpa [walkReplicaAt] using h
    subst h'
    exact ⟨rfl, rfl⟩
  | succ fuel ih =>
    intro relRoot st st' h hv
    rw [walkReplicaAt] at h
    cases hrel : st.rep.lookup relRoot with
    | none =>
      rw [hrel] at h
      injection h with h
      subst h
      exact ⟨rfl, rfl⟩
    | some d0 =>
      cases d0 with
      | file c0 m0 =>
        rw [hrel] at h
        injection h with h
        subst h
        exact ⟨rfl, rfl⟩
      | dir d1 d2 cs =>
        rw [hrel] at h
        dsimp only at h
        have hent : ∀ (names : List String) (st0 st1 : RState),
            (∀ a ∈ names, relRoot ++ [a] ∈ visited) →
            seqE (fun a st2 => replicaStep visited (relRoot ++ [a]) st2)
              names st0 = .ok st1 →
            st1.rep = st0.rep ∧ st1.ops = st0.ops := by
          intro names
          induction names with
          | nil =>
            intro st0 st1 _ hh
            have hh' : st0 = st1 := by simpa [seqE] using hh
            subst hh'
            exact ⟨rfl, rfl⟩
          | cons a rest ihe =>
            intro st0 st1 hmem hh
            simp only [seqE] at hh
            rw [replicaStep_mem (hmem a (by simp))] at hh
            dsimp only at hh
            exact ihe ⟨st0.rVisited ++ [relRoot ++ [a]], st0.rep, st0.ops⟩ st1
              (fun b hb => hmem b (List.mem_cons_of_mem a hb)) hh
        cases hse : seqE (fun a st1 => replicaStep visited (relRoot ++ [a]) st1)
            (cs.dirNames ++ cs.fileNames) st with
        | error e => rw [hse] at h; cases h
        | ok st1 =>
          rw [hse] at h
          dsimp only at h
          have hmemall : ∀ a ∈ cs.dirNames ++ cs.fileNames,
              relRoot ++ [a] ∈ visited := by
            intro a ha
            refine hv [a] (by simp) ?_
            rw [lookup_child_eq hrel a]
            exact (FSEntries.mem_allNames_iff cs a).mp ha
          obtain ⟨hrep1, hops1⟩ := hent _ st st1 hmemall hse
          have hkid : ∀ (ds : List String) (st2 st3 : RState),
              st2.rep = st.rep →
              seqE (fun a st4 => walkReplicaAt visited fuel (relRoot ++ [a]) st4)
                ds st2 = .ok st3 →
              st3.rep = st2.rep ∧ st3.ops = st2.ops := by
            intro ds
            induction ds with
            | nil =>
              intro st2 st3 _ hh
              have hh' : st2 = st3 := by simpa [seqE] using hh
              subst hh'
              exact ⟨rfl, rfl⟩
            | cons a rest ihk =>
              intro st2 st3 heq hh
              simp only [seqE] at hh
              cases hwa : walkReplicaAt visited fuel (relRoot ++ [a]) st2 with
              | error e => rw [hwa] at hh; cases hh
              | ok sta =>
                rw [hwa] at hh
                obtain ⟨ha1, ha2⟩ := ih (relRoot ++ [a]) st2 sta hwa
                  (by
                    intro s hs hsome
                    rw [heq] at hsome
                    have h2 : ((st.rep.lookup (relRoot ++ (a :: s))).isSome) := by
                      rw [List.append_cons]
                      exact hsome
                    have h3 := hv (a :: s) (by simp) h2
                    rw [List.append_cons] at h3
                    exact h3)
                obtain ⟨hb1, hb2⟩ := ihk sta st3 (ha1.trans heq) hh
                exact ⟨hb1.trans ha1, hb2.trans ha2⟩
          obtain ⟨hk1, hk2⟩ := hkid cs.dirNames st1 st' hrep1 h
          exact ⟨(hk1.trans hrep1), (hk2.trans hops1)⟩

/-- On a replica already synchronized below the walk root, the source walk
succeeds, records exactly its path enumeration, and changes neither the
replica nor the operation log. -/
theorem walkSource_stable {H : List Nat → List Nat} {uc : Bool} {src : FSNode}
    (hsrc : NodupTree src) :
    ∀ fuel relRoot st,
    (∀ s ns, s ≠ [] → src.lookup (relRoot ++ s) = some ns →
      ∃ nr, st.rep.lookup (relRoot ++ s) = some nr ∧ StepNoOp H uc ns nr) →
    walkSourceAt H uc src fuel relRoot st =
      .ok ⟨st.visited ++ pathsAt src fuel relRoot, st.rep, st.ops⟩ := by
  intro fuel
  induction fuel with
  | zero =>
    intro relRoot st _
    simp [walkSourceAt, pathsAt]
  | succ fuel ih =>
    intro relRoot st hstab
    rw [walkSourceAt]
    cases hrel : src.lookup relRoot with
    | none => simp [pathsAt, hrel]
    | some d0 =>
      cases d0 with
      | file c0 m0 => simp [pathsAt, hrel]
      | dir d1 d2 cs =>
        dsimp only
        have hag : ∀ e ∈ cs.ordered, src.lookup (relRoot ++ [e.1]) = some e.2 := by
          intro e he
          cases e with
          | mk a n => exact ordered_agree hsrc hrel he
        have hno : ∀ e ∈ cs.ordered, ∃ nr,
            st.rep.lookup (relRoot ++ [e.1]) = some nr ∧ StepNoOp H uc e.2 nr :=
          fun e he => hstab [e.1] e.2 (by simp) (hag e he)
        have hent : ∀ (es : List (String × FSNode)) (st0 : SState),
            (∀ e ∈ es, src.lookup (relRoot ++ [e.1]) = some e.2) →
            (∀ e ∈ es, ∃ nr, st0.rep.lookup (relRoot ++ [e.1]) = some nr ∧
              StepNoOp H uc e.2 nr) →
            seqE (fun e st1 => sourceStep H uc e.2 (relRoot ++ [e.1]) st1) es st0 =
              .ok ⟨st0.visited ++ es.map (fun e => relRoot ++ [e.1]),
                st0.rep, st0.ops⟩ := by
          intro es
          induction es with
          | nil =>
            intro st0 _ _
            simp [seqE]
          | cons e rest ihe =>
            intro st0 hag0 hno0
            obtain ⟨nr, hnr, hsno⟩ := hno0 e (by simp)
            simp only [seqE]
            rw [sourceStep_noop hnr hsno]
            dsimp only
            rw [ihe ⟨st0.visited ++ [relRoot ++ [e.1]], st0.rep, st0.ops⟩
              (fun e2 he2 => hag0 e2 (by simp [he2]))
              (fun e2 he2 => hno0 e2 (by simp [he2]))]
            simp
        have hsuball : ∀ a, ∀ s ns, s ≠ [] →
            src.lookup ((relRoot ++ [a]) ++ s) = some ns →
            ∃ nr, st.rep.lookup ((relRoot ++ [a]) ++ s) = some nr ∧
              StepNoOp H uc ns nr := by
          intro a s ns hs hlk
          have h1 : src.lookup (relRoot ++ (a :: s)) = some ns := by
            rw [List.append_cons]
            exact hlk
          obtain ⟨nr, hnr, hsno⟩ := hstab (a :: s) ns (by simp) h1
          rw [List.append_cons] at hnr
          exact ⟨nr, hnr, hsno⟩
        have hkid : ∀ (ds : List String) (v0 : List Path),
            seqE (fun a st2 => walkSourceAt H uc src fuel (relRoot ++ [a]) st2)
              ds ⟨v0, st.rep, st.ops⟩ =
              .ok ⟨v0 ++ (ds.map fun a => pathsAt src fuel (relRoot ++ [a])).flatten,
                st.rep, st.ops⟩ := by
          intro ds
          induction ds with
          | nil =>
            intro v0
            simp [seqE]
          | cons a rest ihk =>
            intro v0
            simp only [seqE]
            rw [ih (relRoot ++ [a]) ⟨v0, st.rep, st.ops⟩
              (fun s ns hs hlk => hsuball a s ns hs hlk)]
            dsimp only
            rw [ihk (v0 ++ pathsAt src fuel (relRoot ++ [a]))]
            simp
        rw [hent cs.ordered st hag hno]
        dsimp only
        rw [hkid cs.dirNames (st.visited ++ cs.ordered.map fun e => relRoot ++ [e.1])]
        simp [pathsAt, hrel]

/-- The replica walk never raises: every entry it reaches still resolves
when its deletion is attempted, because recursive deletes only remove
subtrees the walk will subsequently skip. -/
theorem walkReplica_total {visited : List Path} :
    ∀ fuel relRoot st, NodupTree st.rep →
    (∀ d, st.rep.lookup relRoot = some d → d.depth ≤ fuel) →
    ∃ st', walkReplicaAt visited fuel relRoot st = .ok st' := by
  intro fuel
  induction fuel with
  | zero =>
    intro relRoot st _ _
    exact ⟨st, rfl⟩
  | succ fuel ih =>
    intro relRoot st hw hf
    rw [walkReplicaAt]
    cases hrel : st.rep.lookup relRoot with
    | none => exact ⟨st, rfl⟩
    | some d0 =>
      cases d0 with
      | file c0 m0 => exact ⟨st, rfl⟩
      | dir d1 d2 cs =>
        dsimp only
        have hent : ∀ (names : List String) (st0 : RState), NodupTree st0.rep →
            names.Nodup →
            (∀ a ∈ names, ((st0.rep.lookup (relRoot ++ [a])).isSome)) →
            ∃ st1, seqE (fun a st2 => replicaStep visited (relRoot ++ [a]) st2)
              names st0 = .ok st1 := by
          intro names
          induction names with
          | nil =>
            intro st0 _ _ _
            exact ⟨st0, rfl⟩
          | cons a rest ihe =>
            intro st0 hw0 hnd0 hex0
            simp only [seqE]
            by_cases hv : relRoot ++ [a] ∈ visited
            · rw [replicaStep_mem hv]
              dsimp only
              exact ihe ⟨st0.rVisited ++ [relRoot ++ [a]], st0.rep, st0.ops⟩
                hw0 hnd0.of_cons
                (fun b hb => hex0 b (List.mem_cons_of_mem a hb))
            · obtain ⟨n, hn⟩ := Option.isSome_iff_exists.mp (hex0 a (by simp))
              have hna : a ∉ rest := (List.nodup_cons.mp hnd0).1
              have hpr : ∀ b ∈ rest,
                  (removeAt st0.rep (relRoot ++ [a])).lookup (relRoot ++ [b]) =
                    st0.rep.lookup (relRoot ++ [b]) := by
                intro b hb
                have hab : a ≠ b := fun hc => hna (hc ▸ hb)
                exact removeAt_lookup_disjoint st0.rep (relRoot ++ [a])
                  (relRoot ++ [b]) (not_under_singleton (fun hc => hab hc.symm))
                  (not_under_singleton hab)
              cases n with
              | file cF mF =>
                rw [replicaStep_del_file hv hn]
                dsimp only
                refine ihe ⟨st0.rVisited ++ [relRoot ++ [a]],
                    removeAt st0.rep (relRoot ++ [a]),
                    st0.ops ++ [Op.deleteFile (relRoot ++ [a])]⟩
                  (nodup_removeAt _ _ hw0) hnd0.of_cons (fun b hb => ?_)
                show (((removeAt st0.rep (relRoot ++ [a])).lookup
                  (relRoot ++ [b])).isSome)
                rw [hpr b hb]
                exact hex0 b (List.mem_cons_of_mem a hb)
              | dir sD mD csD =>
                rw [replicaStep_del_dir hv hn]
                dsimp only
                refine ihe ⟨st0.rVisited ++ [relRoot ++ [a]],
                    removeAt st0.rep (relRoot ++ [a]),
                    st0.ops ++ [Op.deleteDir (relRoot ++ [a])]⟩
                  (nodup_removeAt _ _ hw0) hnd0.of_cons (fun b hb => ?_)
                show (((removeAt st0.rep (relRoot ++ [a])).lookup
                  (relRoot ++ [b])).isSome)
                rw [hpr b hb]
                exact hex0 b (List.mem_cons_of_mem a hb)
        have hwdir : NodupTree (FSNode.dir d1 d2 cs) := NodupTree.lookup hw hrel
        have hndall : (cs.dirNames ++ cs.fileNames).Nodup :=
          dirFileNames_nodup hwdir
        have hexn : ∀ a ∈ cs.dirNames ++ cs.fileNames,
            ((st.rep.lookup (relRoot ++ [a])).isSome) := by
          intro a ha
          rw [lookup_child_eq hrel a]
          exact (FSEntries.mem_allNames_iff cs a).mp ha
        obtain ⟨st1, hse⟩ := hent (cs.dirNames ++ cs.fileNames) st hw hndall hexn
        rw [hse]
        dsimp only
        obtain ⟨E1, E2, E3, E4, E5, E6⟩ :=
          replicaEntries_master (cs.dirNames ++ cs.fileNames) st st1
            hw hndall hexn hse
        have hpres0 : ∀ a : String, relRoot ++ [a] ∈ visited →
            st1.rep.lookup (relRoot ++ [a]) = st.rep.lookup (relRoot ++ [a]) := by
          intro a hv
          refine E1 _ (fun b hb hbv => ?_)
          have hab : a ≠ b := fun hc => hbv (hc ▸ hv)
          exact ⟨not_under_singleton hab,
            not_under_singleton (fun hc => hab hc.symm)⟩
        have hfk : ∀ a ∈ cs.dirNames, ∀ d,
            st1.rep.lookup (relRoot ++ [a]) = some d → d.depth ≤ fuel := by
          intro a ha d hd
          by_cases hv : relRoot ++ [a] ∈ visited
          · rw [hpres0 a hv, lookup_child_eq hrel a] at hd
            have h1 := @depth_child d1 d2 cs a d hd
            have h2 := hf (.dir d1 d2 cs) hrel
            simp only [FSNode.depth] at h1 h2
            omega
          · rw [E2 a (List.mem_append_left _ ha) hv (relRoot ++ [a])
              (under_refl _)] at hd
            cases hd
        have hdn : cs.dirNames.Nodup := (List.nodup_append.mp hndall).1
        have hkid : ∀ (ds : List String) (st2 : RState), NodupTree st2.rep →
            ds.Nodup →
            (∀ a ∈ ds, ∀ d, st2.rep.lookup (relRoot ++ [a]) = some d →
              d.depth ≤ fuel) →
            ∃ st3, seqE (fun a st4 => walkReplicaAt visited fuel (relRoot ++ [a]) st4)
              ds st2 = .ok st3 := by
          intro ds
          induction ds with
          | nil =>
            intro st2 _ _ _
            exact ⟨st2, rfl⟩
          | cons a rest ihk =>
            intro st2 hw2 hnd2 hfd
            simp only [seqE]
            obtain ⟨sta, hwa⟩ := ih (relRoot ++ [a]) st2 hw2 (hfd a (by simp))
            rw [hwa]
            dsimp only
            obtain ⟨M1, M2, M3, M4, M5, M6, M7, M8⟩ :=
              walkReplica_master fuel (relRoot ++ [a]) st2 sta hw2 hwa
                (hfd a (by simp))
            have hna : a ∉ rest := (List.nodup_cons.mp hnd2).1
            refine ihk sta M8 hnd2.of_cons (fun b hb d hd => ?_)
            have hab : b ≠ a := fun hc => hna (hc ▸ hb)
            have h5 := M5 (relRoot ++ [b]) (not_under_singleton hab)
              (not_under_singleton (fun hc => hab hc.symm))
            refine hfd b (List.mem_cons_of_mem a hb) d ?_
            rw [← h5]
            exact hd
        obtain ⟨st3, hk⟩ := hkid cs.dirNames st1 E5 hdn hfk
        exact ⟨st3, hk⟩

/-- One source-pass step neither rewrites nor logs a copy for a replica
file whose own comparison (if its path is the step's path) is identical. -/
theorem sourceStep_idle {H : List Nat → List Nat} {uc : Bool} {ns : FSNode}
    {p : Path} {st st' : SState} (hstep : sourceStep H uc ns p st = .ok st')
    {q : Path} {c : List Nat} {m : Nat}
    (hq : st.rep.lookup q = some (.file c m))
    (hid : p = q → areFilesIdentical H uc ns (.file c m) = .ok true) :
    st'.rep.lookup q = some (.file c m) ∧
    (Op.copyFile q ∉ st.ops → Op.copyFile q ∉ st'.ops) := by
  obtain ⟨hv, hc⟩ := sourceStep_ok_cases hstep
  rcases hc with ⟨s1, m1, cs1, hlk, hrep, hops⟩ |
    ⟨c1, m1, hlk, hidt, hrep, hops⟩ |
    ⟨c1, m1, c2, m2, hlk, hidf, hns, hwf, hops⟩ |
    ⟨c2, m2, r1, hlk, hns, hmk, hwf, hops⟩ |
    ⟨s1, m1, cs1, hlk, hns, hmk, hops⟩
  · rw [hrep, hops]
    exact ⟨hq, fun hni => hni⟩
  · rw [hrep, hops]
    exact ⟨hq, fun hni => hni⟩
  · by_cases hpq : p = q
    · subst hpq
      rw [hq] at hlk
      injection hlk with hlk
      injection hlk with e1 e2
      subst e1
      subst e2
      rw [hid rfl] at hidf
      simp at hidf
    · constructor
      · exact writeFile_file_pres hwf q (fun hcq => hpq hcq.symm) hq
      · intro hni
        rw [hops]
        intro hmem
        rcases List.mem_append.mp hmem with hmem | hmem
        · exact hni hmem
        · simp at hmem
          exact hpq hmem.symm
  · have hpq : p ≠ q := fun hc2 => by rw [hc2, hq] at hlk; cases hlk
    constructor
    · exact writeFile_file_pres hwf q (fun hcq => hpq hcq.symm)
        (mkdirs_file_pres hmk q hq)
    · intro hni
      rw [hops]
      intro hmem
      rcases List.mem_append.mp hmem with hmem | hmem
      · exact hni hmem
      · simp at hmem
  · have hpq : p ≠ q := fun hc2 => by rw [hc2, hq] at hlk; cases hlk
    constructor
    · exact mkdirs_file_pres hmk q hq
    · intro hni
      rw [hops]
      intro hmem
      rcases List.mem_append.mp hmem with hmem | hmem
      · exact hni hmem
      · simp at hmem

/-- Across the whole source walk, a replica file that the Equality Oracle
calls identical to its source counterpart (or that has none) is never
rewritten and never the target of a `copy_file` operation. -/
theorem walkSource_idle {H : List Nat → List Nat} {uc : Bool} {src : FSNode}
    (hsrc : NodupTree src) :
    ∀ fuel relRoot st st',
    walkSourceAt H uc src fuel relRoot st = .ok st' →
    ∀ q c m, st.rep.lookup q = some (.file c m) →
    (∀ ns, src.lookup q = some ns →
      areFilesIdentical H uc ns (.file c m) = .ok true) →
    Op.copyFile q ∉ st.ops →
    st'.rep.lookup q = some (.file c m) ∧ Op.copyFile q ∉ st'.ops := by
  intro fuel
  induction fuel with
  | zero =>
    intro relRoot st st' h q c m hq hid hni
    have h' : st = st' := by simpa [walkSourceAt] using h
    subst h'
    exact ⟨hq, hni⟩
  | succ fuel ih =>
    intro relRoot st st' h q c m hq hid hni
    rw [walkSourceAt] at h
    cases hrel : src.lookup relRoot with
    | none =>
      rw [hrel] at h
      injection h with h
      subst h
      exact ⟨hq, hni⟩
    | some d0 =>
      cases d0 with
      | file c0 m0 =>
        rw [hrel] at h
        injection h with h
        subst h
        exact ⟨hq, hni⟩
      | dir d1 d2 cs =>
        rw [hrel] at h
        dsimp only at h
        have hent : ∀ (es : List (String × FSNode)) (st0 st1 : SState),
            (∀ e ∈ es, src.lookup (relRoot ++ [e.1]) = some e.2) →
            seqE (fun e st2 => sourceStep H uc e.2 (relRoot ++ [e.1]) st2)
              es st0 = .ok st1 →
            st0.rep.lookup q = some (.file c m) → Op.copyFile q ∉ st0.ops →
            st1.rep.lookup q = some (.file c m) ∧ Op.copyFile q ∉ st1.ops := by
          intro es
          induction es with
          | nil =>
            intro st0 st1 _ hh hq0 hn0
            have hh' : st0 = st1 := by simpa [seqE] using hh
            subst hh'
            exact ⟨hq0, hn0⟩
          | cons e rest ihe =>
            intro st0 st1 hag hh hq0 hn0
            simp only [seqE] at hh
            cases hstep : sourceStep H uc e.2 (relRoot ++ [e.1]) st0 with
            | error err => rw [hstep] at hh; cases hh
            | ok stm =>
              rw [hstep] at hh
              obtain ⟨hq1, hn1⟩ := sourceStep_idle hstep hq0
                (fun hpq => hid e.2 (by rw [← hpq]; exact hag e (by simp)))
              exact ihe stm st1 (fun e2 he2 => hag e2 (by simp [he2])) hh
                hq1 (hn1 hn0)
        cases hse : seqE (fun e st1 => sourceStep H uc e.2 (relRoot ++ [e.1]) st1)
            cs.ordered st with
        | error e => rw [hse] at h; cases h
        | ok st1 =>
          rw [hse] at h
          dsimp only at h
          have hag : ∀ e ∈ cs.ordered,
              src.lookup (relRoot ++ [e.1]) = some e.2 := by
            intro e he
            cases e with
            | mk a n => exact ordered_agree hsrc hrel he
          obtain ⟨hq1, hn1⟩ := hent cs.ordered st st1 hag hse hq hni
          have hkid : ∀ (ds : List String) (st2 st3 : SState),
              seqE (fun a st4 => walkSourceAt H uc src fuel (relRoot ++ [a]) st4)
                ds st2 = .ok st3 →
              st2.rep.lookup q = some (.file c m) → Op.copyFile q ∉ st2.ops →
              st3.rep.lookup q = some (.file c m) ∧ Op.copyFile q ∉ st3.ops := by
            intro ds
            induction ds with
            | nil =>
              intro st2 st3 hh hq2 hn2
              have hh' : st2 = st3 := by simpa [seqE] using hh
              subst hh'
              exact ⟨hq2, hn2⟩
            | cons a rest ihk =>
              intro st2 st3 hh hq2 hn2
              simp only [seqE] at hh
              cases hwa : walkSourceAt H uc src fuel (relRoot ++ [a]) st2 with
              | error e2 => rw [hwa] at hh; cases hh
              | ok sta =>
                rw [hwa] at hh
                obtain ⟨hq3, hn3⟩ := ih (relRoot ++ [a]) st2 sta hwa q c m hq2 hid hn2
                exact ihk sta st3 hh hq3 hn3
          exact hkid cs.dirNames st1 st' h hq1 hn1

/-- Ample fuel for a walk started at the root of a tree. -/
theorem rootFuel (t : FSNode) : ∀ d, t.lookup [] = some d →
    d.depth ≤ t.depth + 1 := by
  intro d hd
  simp only [FSNode.lookup] at hd
  injection hd with hd
  rw [← hd]
  omega

/-- Inversion of a successful `sync_folders` run with both roots present:
the two passes ran in sequence and their outputs assemble the result. -/
theorem syncFolders_ok_inv {H : List Nat → List Nat} {uc : Bool}
    {src rep repF : FSNode} {ops : List Op}
    (hres : (syncFolders H uc (some src) (some rep)).result =
      .ok (some repF, ops)) :
    ∃ st1 st2, traverseSourceFiles H uc src rep = .ok st1 ∧
      traverseReplicaFiles st1.visited st1.rep = .ok st2 ∧
      st2.rep = repF ∧ ops = st1.ops ++ st2.ops := by
  cases hS : traverseSourceFiles H uc src rep with
  | error e =>
    simp [syncFolders, hS] at hres
  | ok st1 =>
    cases hR : traverseReplicaFiles st1.visited st1.rep with
    | error e =>
      simp [syncFolders, hS, hR] at hres
    | ok st2 =>
      simp only [syncFolders, hS, hR] at hres
      injection hres with hres
      injection hres with h1 h2
      injection h1 with h1
      exact ⟨st1, st2, rfl, hR, h1, h2.symm⟩

/-- The visited set of a successful source pass holds exactly the nonempty
relative paths present in the source tree. -/
theorem sourceVisited_iff {H : List Nat → List Nat} {uc : Bool}
    {src rep : FSNode} {st1 : SState} (hsrc : NodupTree src)
    (hS : traverseSourceFiles H uc src rep = .ok st1) :
    ∀ p, p ∈ st1.visited ↔ p ≠ [] ∧ ((src.lookup p).isSome) := by
  intro p
  have hv := walkSource_visited (src.depth + 1) [] ⟨[], rep, []⟩ st1 hS
  simp only [List.nil_append] at hv
  rw [hv]
  rw [mem_pathsAt hsrc (src.depth + 1) [] p (rootFuel src)]
  constructor
  · rintro ⟨s, hs, rfl, hlk⟩
    exact ⟨by simpa using hs, hlk⟩
  · rintro ⟨hp, hlk⟩
    exact ⟨p, hp, by simp, hlk⟩

/-- Because the source path set is closed under nonempty prefixes, a path
survives the replica pass precisely when it was itself visited. -/
theorem sourceKept_iff {H : List Nat → List Nat} {uc : Bool}
    {src rep : FSNode} {st1 : SState} (hsrc : NodupTree src)
    (hS : traverseSourceFiles H uc src rep = .ok st1) :
    ∀ p, p ≠ [] → (Kept st1.visited [] p ↔ p ∈ st1.visited) := by
  intro p hp
  constructor
  · intro hk
    have h1 := hk p hp (under_refl p)
    simpa using h1
  · intro hm s1 h1 hu
    rw [sourceVisited_iff hsrc hS] at hm
    rw [sourceVisited_iff hsrc hS]
    refine ⟨by simpa using h1, ?_⟩
    simp only [List.nil_append]
    exact isSome_lookup_of_under hu hm.2

/-- C5. During the replica pass, an entry of the (post-source-pass) replica
tree survives iff its relative path is in the visited-source-paths set;
surviving files are untouched and surviving directories keep their
metadata; every operation the pass performs is a delete at an unvisited
path — `delete_file` when that entry is a file, the recursive
`delete_directory` when it is a directory — and every unvisited entry the
walk reaches (a minimal orphan) receives its delete of the matching
kind. -/
theorem C5_replica_deletion (H : List Nat → List Nat) (uc : Bool)
    (src rep : FSNode) (st1 : SState) (st2 : RState)
    (hsrc : NodupTree src) (hrep : NodupTree rep)
    (hS : traverseSourceFiles H uc src rep = .ok st1)
    (hR : traverseReplicaFiles st1.visited st1.rep = .ok st2) :
    (∀ p, p ≠ [] → ((st1.rep.lookup p).isSome) →
      (((st2.rep.lookup p).isSome) ↔ p ∈ st1.visited)) ∧
    (∀ p c m, p ∈ st1.visited → st1.rep.lookup p = some (.file c m) →
      st2.rep.lookup p = some (.file c m)) ∧
    (∀ p e1 e2 cs0, p ∈ st1.visited →
      st1.rep.lookup p = some (.dir e1 e2 cs0) →
      ∃ cs1, st2.rep.lookup p = some (.dir e1 e2 cs1)) ∧
    (∀ op ∈ st2.ops, ∃ p n, p ∉ st1.visited ∧ st1.rep.lookup p = some n ∧
      ((n.isDirB = false ∧ op = Op.deleteFile p) ∨
       (n.isDirB = true ∧ op = Op.deleteDir p))) ∧
    (∀ p n, MinOrphan st1.visited [] p → st1.rep.lookup p = some n →
      (n.isDirB = false → Op.deleteFile p ∈ st2.ops) ∧
      (n.isDirB = true → Op.deleteDir p ∈ st2.ops)) := by
  have hw1 : NodupTree st1.rep := by
    have hm := walkSource_master hsrc (src.depth + 1) [] ⟨[], rep, []⟩ st1 hS
      (rootFuel src)
    exact hm.1.2.2.2.2 hrep
  obtain ⟨R1, R2, R3, R4, R5, R6, ⟨newOps, hops, hsound, hcompl⟩, R8⟩ :=
    walkReplica_master (st1.rep.depth + 1) [] ⟨[], st1.rep, []⟩ st2 hw1 hR
      (rootFuel st1.rep)
  dsimp only at R1 R2 R3 hsound hcompl hops
  simp only [List.nil_append] at R1 R2 R3 hsound hcompl hops
  have hkiff := sourceKept_iff hsrc hS
  refine ⟨?_, ?_, ?_, ?_, ?_⟩
  · intro p hp hsome
    constructor
    · intro h2
      by_contra hnv
      rw [R3 p (fun hk => hnv ((hkiff p hp).mp hk))] at h2
      simp at h2
    · intro hm
      obtain ⟨n, hn⟩ := Option.isSome_iff_exists.mp hsome
      have hk := (hkiff p hp).mpr hm
      cases n with
      | file c m =>
        rw [R1 p c m hk hn]
        rfl
      | dir e1 e2 cs0 =>
        obtain ⟨cs1, h1⟩ := R2 p e1 e2 cs0 hk hn
        rw [h1]
        rfl
  · intro p c m hm hn
    have hp : p ≠ [] := ((sourceVisited_iff hsrc hS p).mp hm).1
    exact R1 p c m ((hkiff p hp).mpr hm) hn
  · intro p e1 e2 cs0 hm hn
    have hp : p ≠ [] := ((sourceVisited_iff hsrc hS p).mp hm).1
    exact R2 p e1 e2 cs0 ((hkiff p hp).mpr hm) hn
  · intro op hop
    rw [hops] at hop
    obtain ⟨s, n, hmo, hlk, hkind⟩ := hsound op hop
    exact ⟨s, n, by simpa using hmo.2.1, hlk, hkind⟩
  · intro p n hmo hn
    rw [hops]
    exact hcompl p n hmo hn

/-- C9. Deleting an orphaned replica directory removes it and all of its
descendants through the single recursive `delete_directory` operation; the
continuing walk tolerates the vanished subtree, the pass completes without
error, and no delete is recorded for any of the directory's proper
descendants. -/
theorem C9_recursive_delete (H : List Nat → List Nat) (uc : Bool)
    (src rep : FSNode) (st1 : SState) (p : Path) (dz dm : Nat)
    (dcs : FSEntries) (hsrc : NodupTree src) (hrep : NodupTree rep)
    (hS : traverseSourceFiles H uc src rep = .ok st1)
    (hmo : MinOrphan st1.visited [] p)
    (hdir : st1.rep.lookup p = some (.dir dz dm dcs)) :
    ∃ st2, traverseReplicaFiles st1.visited st1.rep = .ok st2 ∧
      Op.deleteDir p ∈ st2.ops ∧
      (∀ q, Under q p → st2.rep.lookup q = none) ∧
      (∀ op ∈ st2.ops, ∀ q, q ≠ p → Under q p →
        op ≠ Op.deleteFile q ∧ op ≠ Op.deleteDir q) := by
  have hw1 : NodupTree st1.rep := by
    have hm := walkSource_master hsrc (src.depth + 1) [] ⟨[], rep, []⟩ st1 hS
      (rootFuel src)
    exact hm.1.2.2.2.2 hrep
  obtain ⟨st2, hR⟩ := walkReplica_total (st1.rep.depth + 1) []
    ⟨[], st1.rep, []⟩ hw1 (rootFuel st1.rep)
  obtain ⟨R1, R2, R3, R4, R5, R6, ⟨newOps, hops, hsound, hcompl⟩, R8⟩ :=
    walkReplica_master (st1.rep.depth + 1) [] ⟨[], st1.rep, []⟩ st2 hw1 hR
      (rootFuel st1.rep)
  dsimp only at R3 hsound hcompl hops
  simp only [List.nil_append] at R3 hsound hcompl hops
  refine ⟨st2, hR, ?_, ?_, ?_⟩
  · rw [hops]
    exact (hcompl p (.dir dz dm dcs) hmo hdir).2 rfl
  · intro q hq
    refine R3 q (fun hk => ?_)
    exact absurd (hk p hmo.1 hq) hmo.2.1
  · intro op hop q hqne hq
    rw [hops] at hop
    obtain ⟨s, n, hmo2, hlk, hkind⟩ := hsound op hop
    constructor
    · intro hceq
      rcases hkind with ⟨hd, he⟩ | ⟨hd, he⟩
      · rw [he] at hceq
        injection hceq with hceq
        subst hceq
        exact absurd (hmo2.2.2 p hmo.1 (fun hc => hqne hc.symm) hq) hmo.2.1
      · rw [he] at hceq
        simp at hceq
    · intro hceq
      rcases hkind with ⟨hd, he⟩ | ⟨hd, he⟩
      · rw [he] at hceq
        simp at hceq
      · rw [he] at hceq
        injection hceq with hceq
        subst hceq
        exact absurd (hmo2.2.2 p hmo.1 (fun hc => hqne hc.symm) hq) hmo.2.1

/-- C7. Idempotence: after a successful run, an immediately repeated run
(no intervening change) succeeds, performs zero Entry Operations and
leaves the replica tree untouched, in either comparison mode. -/
theorem C7_idempotence (H : List Nat → List Nat) (uc : Bool)
    (src rep repF : FSNode) (ops : List Op)
    (hsrc : NodupTree src) (hrep : NodupTree rep)
    (hres : (syncFolders H uc (some src) (some rep)).result =
      .ok (some repF, ops)) :
    (syncFolders H uc (some src) (some repF)).result = .ok (some repF, []) := by
  obtain ⟨st1, st2, hS, hR, hrepF, hops⟩ := syncFolders_ok_inv hres
  obtain ⟨heff, hdone⟩ := walkSource_master hsrc (src.depth + 1) []
    ⟨[], rep, []⟩ st1 hS (rootFuel src)
  have hw1 : NodupTree st1.rep := heff.2.2.2.2 hrep
  obtain ⟨R1, R2, R3, R4, R5, R6, R7, R8⟩ :=
    walkReplica_master (st1.rep.depth + 1) [] ⟨[], st1.rep, []⟩ st2 hw1 hR
      (rootFuel st1.rep)
  dsimp only at R1 R2 R3 hdone
  simp only [List.nil_append] at R1 R2 R3 hdone
  have hkiff := sourceKept_iff hsrc hS
  have hviff := sourceVisited_iff hsrc hS
  have hveq := walkSource_visited (src.depth + 1) [] ⟨[], rep, []⟩ st1 hS
  simp only [List.nil_append] at hveq
  have hwF : NodupTree repF := by
    rw [← hrepF]
    exact R8
  have hstab : ∀ s ns, s ≠ [] → src.lookup ([] ++ s) = some ns →
      ∃ nr, (⟨[], repF, []⟩ : SState).rep.lookup ([] ++ s) = some nr ∧
        StepNoOp H uc ns nr := by
    intro s ns hs hlk
    simp only [List.nil_append] at hlk ⊢
    obtain ⟨nr1, hlk1, hno1, hkind1⟩ := hdone s ns hs hlk
    have hmem : s ∈ st1.visited := (hviff s).mpr ⟨hs, by rw [hlk]; rfl⟩
    have hk := (hkiff s hs).mpr hmem
    cases nr1 with
    | file cF mF =>
      have h1 := R1 s cF mF hk hlk1
      refine ⟨.file cF mF, ?_, hno1⟩
      rw [← hrepF]
      exact h1
    | dir sD mD csD =>
      obtain ⟨cs1, h1⟩ := R2 s sD mD csD hk hlk1
      refine ⟨.dir sD mD cs1, ?_, Or.inl ⟨sD, mD, cs1, rfl⟩⟩
      rw [← hrepF]
      exact h1
  have hS2 := walkSource_stable hsrc (src.depth + 1) [] ⟨[], repF, []⟩ hstab
  obtain ⟨st2b, hR2⟩ := @walkReplica_total
    ((⟨[], repF, []⟩ : SState).visited ++ pathsAt src (src.depth + 1) [])
    (repF.depth + 1) [] ⟨[], repF, []⟩ hwF (rootFuel repF)
  have hall : ∀ s : Path, s ≠ [] →
      (((⟨[], repF, []⟩ : RState).rep.lookup ([] ++ s)).isSome) →
      ([] ++ s) ∈ ((⟨[], repF, []⟩ : SState).visited ++
        pathsAt src (src.depth + 1) []) := by
    intro s hs hsome
    dsimp only at hsome ⊢
    simp only [List.nil_append] at hsome ⊢
    have hk : Kept st1.visited [] s := by
      by_contra hnk
      have h3 := R3 s hnk
      rw [hrepF] at h3
      rw [h3] at hsome
      simp at hsome
    have hmem : s ∈ st1.visited := (hkiff s hs).mp hk
    rw [← hveq]
    exact hmem
  obtain ⟨hb1, hb2⟩ := walkReplica_all_kept (repF.depth + 1) []
    ⟨[], repF, []⟩ st2b hR2 hall
  dsimp only at hb1 hb2
  show (syncFolders H uc (some src) (some repF)).result = .ok (some repF, [])
  simp only [syncFolders]
  rw [show traverseSourceFiles H uc src repF =
    .ok ⟨(⟨[], repF, []⟩ : SState).visited ++ pathsAt src (src.depth + 1) [],
      repF, []⟩ from hS2]
  dsimp only
  rw [show traverseReplicaFiles
    ((⟨[], repF, []⟩ : SState).visited ++ pathsAt src (src.depth + 1) [])
    repF = .ok st2b from hR2]
  dsimp only
  rw [hb1, hb2]
  rfl

/-- C1 as stated fails on a type conflict the source pass never checks
for: with a source file and a replica directory at the same relative path,
`sync_folders` completes without error and without any Entry Operation,
yet the path holds a directory in the replica and a file in the source,
which the Equality Oracle does not call identical. -/
theorem C1_counterexample :
    (syncFolders (fun l => l) false
      (some (.dir 0 0 (.cons "a" (.file [1] 2) .nil)))
      (some (.dir 0 0 (.cons "a" (.dir 3 4 .nil) .nil)))).result =
      .ok (some (.dir 0 0 (.cons "a" (.dir 3 4 .nil) .nil)), []) ∧
    FSNode.lookup (.dir 0 0 (.cons "a" (.file [1] 2) .nil)) ["a"] =
      some (.file [1] 2) ∧
    FSNode.lookup (.dir 0 0 (.cons "a" (.dir 3 4 .nil) .nil)) ["a"] =
      some (.dir 3 4 .nil) ∧
    areFilesIdentical (fun l => l) false (.file [1] 2) (.dir 3 4 .nil) =
      .ok false := by
  exact ⟨rfl, rfl, rfl, rfl⟩

/-- C1 (amended). When both roots exist and no relative path holds
entries of conflicting kinds in the two trees, a completed `sync_folders`
run converges: every nonempty source path is present in the final replica
with the matching kind — with the Equality Oracle confirming file contents
— and every nonempty path of the final replica is present in the
source. -/
theorem C1_convergence (H : List Nat → List Nat) (uc : Bool)
    (src rep repF : FSNode) (ops : List Op)
    (hsrc : NodupTree src) (hrep : NodupTree rep)
    (hnc : ∀ p ns nr, p ≠ [] → src.lookup p = some ns →
      rep.lookup p = some nr → nr.isDirB = ns.isDirB)
    (hres : (syncFolders H uc (some src) (some rep)).result =
      .ok (some repF, ops)) :
    (∀ p ns, p ≠ [] → src.lookup p = some ns →
      ∃ nr, repF.lookup p = some nr ∧ nr.isDirB = ns.isDirB ∧
        ∀ c m, ns = .file c m →
          ∃ c2 m2, nr = .file c2 m2 ∧
            areFilesIdentical H uc ns nr = .ok true) ∧
    (∀ p, p ≠ [] → ((repF.lookup p).isSome) → ((src.lookup p).isSome)) := by
  obtain ⟨st1, st2, hS, hR, hrepF, hops⟩ := syncFolders_ok_inv hres
  obtain ⟨heff, hdone⟩ := walkSource_master hsrc (src.depth + 1) []
    ⟨[], rep, []⟩ st1 hS (rootFuel src)
  have hw1 : NodupTree st1.rep := heff.2.2.2.2 hrep
  obtain ⟨R1, R2, R3, R4, R5, R6, R7, R8⟩ :=
    walkReplica_master (st1.rep.depth + 1) [] ⟨[], st1.rep, []⟩ st2 hw1 hR
      (rootFuel st1.rep)
  dsimp only at R1 R2 R3 hdone
  simp only [List.nil_append] at R1 R2 R3 hdone
  have hkiff := sourceKept_iff hsrc hS
  have hviff := sourceVisited_iff hsrc hS
  constructor
  · intro p ns hp hs
    obtain ⟨nr1, hlk1, hno1, hkind1⟩ := hdone p ns hp hs
    have hkd : nr1.isDirB = ns.isDirB := by
      rcases hkind1 with hkd | ⟨nr0, hlk0, hkd0⟩
      · exact hkd
      · rw [hkd0]
        exact hnc p ns nr0 hp hs hlk0
    have hmem : p ∈ st1.visited := (hviff p).mpr ⟨hp, by rw [hs]; rfl⟩
    have hk := (hkiff p hp).mpr hmem
    cases nr1 with
    | file cF mF =>
      have h1 := R1 p cF mF hk hlk1
      refine ⟨.file cF mF, by rw [← hrepF]; exact h1, hkd, ?_⟩
      intro c m hns
      rcases hno1 with ⟨sD, mD, csD, hcd⟩ | ⟨cI, mI, hcf, hid⟩
      · cases hcd
      · exact ⟨cF, mF, rfl, hid⟩
    | dir sD mD csD =>
      obtain ⟨cs1, h1⟩ := R2 p sD mD csD hk hlk1
      refine ⟨.dir sD mD cs1, by rw [← hrepF]; exact h1, hkd, ?_⟩
      intro c m hns
      rw [hns] at hkd
      simp [FSNode.isDirB] at hkd
  · intro p hp hsome
    have hk : Kept st1.visited [] p := by
      by_contra hnk
      have h3 := R3 p hnk
      rw [hrepF] at h3
      rw [h3] at hsome
      simp at hsome
    exact ((hviff p).mp ((hkiff p hp).mp hk)).2

/-- C10. In checksum mode, files with byte-identical content compare
identical regardless of size or timestamp metadata: the Equality Oracle
returns true on them, the source pass performs no `copy_file` for such a
path, and the replica file — timestamp difference included — survives the
whole sync untouched. -/
theorem C10_checksum_content (H : List Nat → List Nat)
    (src rep repF : FSNode) (ops : List Op) (p : Path)
    (c : List Nat) (m1 m2 : Nat)
    (hsrc : NodupTree src) (hrep : NodupTree rep) (hp : p ≠ [])
    (hs : src.lookup p = some (.file c m1))
    (hr : rep.lookup p = some (.file c m2))
    (hres : (syncFolders H true (some src) (some rep)).result =
      .ok (some repF, ops)) :
    areFilesIdentical H true (.file c m1) (.file c m2) = .ok true ∧
    repF.lookup p = some (.file c m2) ∧
    Op.copyFile p ∉ ops := by
  have hid : areFilesIdentical H true (.file c m1) (.file c m2) = .ok true := by
    simp [areFilesIdentical, calculateHash]
  obtain ⟨st1, st2, hS, hR, hrepF, hops⟩ := syncFolders_ok_inv hres
  obtain ⟨hq1, hn1⟩ := walkSource_idle hsrc (src.depth + 1) [] ⟨[], rep, []⟩
    st1 hS p c m2 hr
    (fun ns hns => by
      rw [hs] at hns
      injection hns with hns
      rw [← hns]
      exact hid)
    (List.not_mem_nil _)
  obtain ⟨heff, hdone⟩ := walkSource_master hsrc (src.depth + 1) []
    ⟨[], rep, []⟩ st1 hS (rootFuel src)
  have hw1 : NodupTree st1.rep := heff.2.2.2.2 hrep
  obtain ⟨R1, R2, R3, R4, R5, R6, ⟨newOps, hops2, hsound, hcompl⟩, R8⟩ :=
    walkReplica_master (st1.rep.depth + 1) [] ⟨[], st1.rep, []⟩ st2 hw1 hR
      (rootFuel st1.rep)
  dsimp only at R1 hsound hops2
  simp only [List.nil_append] at R1 hsound hops2
  have hmem : p ∈ st1.visited :=
    (sourceVisited_iff hsrc hS p).mpr ⟨hp, by rw [hs]; rfl⟩
  have hk := (sourceKept_iff hsrc hS p hp).mpr hmem
  refine ⟨hid, ?_, ?_⟩
  · rw [← hrepF]
    exact R1 p c m2 hk hq1
  · rw [hops]
    intro hmem2
    rcases List.mem_append.mp hmem2 with hmem2 | hmem2
    · exact hn1 hmem2
    · rw [hops2] at hmem2
      obtain ⟨s, n, hmo, hlk, hkind⟩ := hsound _ hmem2
      rcases hkind with ⟨hd, he⟩ | ⟨hd, he⟩
      · simp at he
      · simp at he

/-- Closed witness for C5: a replica with one kept file, one orphan file
and one orphan directory. -/
theorem C5_replica_deletion_witness :
    traverseSourceFiles (fun l => l) false
      (.dir 0 0 (.cons "a" (.file [1] 2) .nil))
      (.dir 0 0 (.cons "a" (.file [1] 2) (.cons "b" (.file [3] 4)
        (.cons "d" (.dir 7 8 (.cons "x" (.file [9] 9) .nil)) .nil)))) =
      .ok ⟨[["a"]], (.dir 0 0 (.cons "a" (.file [1] 2) (.cons "b" (.file [3] 4)
        (.cons "d" (.dir 7 8 (.cons "x" (.file [9] 9) .nil)) .nil)))), []⟩ ∧
    FSNode.lookup (.dir 0 0 (.cons "a" (.file [1] 2) .nil)) ["a"] =
      some (.file [1] 2) ∧
    Op.deleteFile ["b"] ∈ [Op.deleteDir ["d"], Op.deleteFile ["b"]] ∧
    Op.deleteDir ["d"] ∈ [Op.deleteDir ["d"], Op.deleteFile ["b"]] := by
  have h := C5_replica_deletion (fun l => l) false
    (.dir 0 0 (.cons "a" (.file [1] 2) .nil))
    (.dir 0 0 (.cons "a" (.file [1] 2) (.cons "b" (.file [3] 4)
      (.cons "d" (.dir 7 8 (.cons "x" (.file [9] 9) .nil)) .nil))))
    ⟨[["a"]], (.dir 0 0 (.cons "a" (.file [1] 2) (.cons "b" (.file [3] 4)
      (.cons "d" (.dir 7 8 (.cons "x" (.file [9] 9) .nil)) .nil)))), []⟩
    ⟨[["d"], ["a"], ["b"]], .dir 0 0 (.cons "a" (.file [1] 2) .nil),
      [Op.deleteDir ["d"], Op.deleteFile ["b"]]⟩
    (nodupB_sound _ rfl) (nodupB_sound _ rfl) rfl rfl
  exact ⟨rfl, h.2.1 ["a"] [1] 2 (by decide) rfl,
    (h.2.2.2.2 ["b"] (.file [3] 4)
      (minOrphan_single_iff.mpr (by decide)) rfl).1 rfl,
    (h.2.2.2.2 ["d"] (.dir 7 8 (.cons "x" (.file [9] 9) .nil))
      (minOrphan_single_iff.mpr (by decide)) rfl).2 rfl⟩

/-- Closed witness for C9: an empty source and a replica holding one
orphan directory with one descendant file. -/
theorem C9_recursive_delete_witness :
    traverseSourceFiles (fun l => l) false (.dir 0 0 .nil)
      (.dir 0 0 (.cons "d" (.dir 7 8 (.cons "x" (.file [9] 9) .nil)) .nil)) =
      .ok ⟨[], (.dir 0 0 (.cons "d" (.dir 7 8 (.cons "x" (.file [9] 9) .nil))
        .nil)), []⟩ ∧
    ∃ st2, traverseReplicaFiles []
        (.dir 0 0 (.cons "d" (.dir 7 8 (.cons "x" (.file [9] 9) .nil)) .nil)) =
        .ok st2 ∧
      Op.deleteDir ["d"] ∈ st2.ops ∧
      (∀ q, Under q ["d"] → st2.rep.lookup q = none) ∧
      (∀ op ∈ st2.ops, ∀ q, q ≠ ["d"] → Under q ["d"] →
        op ≠ Op.deleteFile q ∧ op ≠ Op.deleteDir q) :=
  ⟨rfl, C9_recursive_delete (fun l => l) false (.dir 0 0 .nil)
    (.dir 0 0 (.cons "d" (.dir 7 8 (.cons "x" (.file [9] 9) .nil)) .nil))
    ⟨[], (.dir 0 0 (.cons "d" (.dir 7 8 (.cons "x" (.file [9] 9) .nil))
      .nil)), []⟩
    ["d"] 7 8 (.cons "x" (.file [9] 9) .nil)
    (nodupB_sound _ rfl) (nodupB_sound _ rfl) rfl
    (minOrphan_single_iff.mpr (by decide)) rfl⟩

/-- Closed witness for C7: a first run creates one file; the repeated run
performs zero operations and returns the same replica. -/
theorem C7_idempotence_witness :
    (syncFolders (fun l => l) false
      (some (.dir 0 0 (.cons "a" (.file [1] 2) .nil)))
      (some (.dir 0 0 .nil))).result =
      .ok (some (.dir 0 0 (.cons "a" (.file [1] 2) .nil)),
        [Op.createFile ["a"]]) ∧
    (syncFolders (fun l => l) false
      (some (.dir 0 0 (.cons "a" (.file [1] 2) .nil)))
      (some (.dir 0 0 (.cons "a" (.file [1] 2) .nil)))).result =
      .ok (some (.dir 0 0 (.cons "a" (.file [1] 2) .nil)), []) :=
  ⟨rfl, C7_idempotence (fun l => l) false
    (.dir 0 0 (.cons "a" (.file [1] 2) .nil)) (.dir 0 0 .nil)
    (.dir 0 0 (.cons "a" (.file [1] 2) .nil)) [Op.createFile ["a"]]
    (nodupB_sound _ rfl) (nodupB_sound _ rfl) rfl⟩

/-- Closed witness for the amended C1: syncing a one-file source into an
empty replica converges. -/
theorem C1_convergence_witness :
    (syncFolders (fun l => l) false
      (some (.dir 0 0 (.cons "a" (.file [1] 2) .nil)))
      (some (.dir 0 0 .nil))).result =
      .ok (some (.dir 0 0 (.cons "a" (.file [1] 2) .nil)),
        [Op.createFile ["a"]]) ∧
    (∀ p ns, p ≠ [] →
      FSNode.lookup (.dir 0 0 (.cons "a" (.file [1] 2) .nil)) p = some ns →
      ∃ nr, FSNode.lookup (.dir 0 0 (.cons "a" (.file [1] 2) .nil)) p =
          some nr ∧ nr.isDirB = ns.isDirB ∧
        ∀ c m, ns = .file c m →
          ∃ c2 m2, nr = .file c2 m2 ∧
            areFilesIdentical (fun l => l) false ns nr = .ok true) ∧
    (∀ p, p ≠ [] →
      ((FSNode.lookup (.dir 0 0 (.cons "a" (.file [1] 2) .nil)) p).isSome) →
      ((FSNode.lookup (.dir 0 0 (.cons "a" (.file [1] 2) .nil)) p).isSome)) := by
  have h := C1_convergence (fun l => l) false
    (.dir 0 0 (.cons "a" (.file [1] 2) .nil)) (.dir 0 0 .nil)
    (.dir 0 0 (.cons "a" (.file [1] 2) .nil)) [Op.createFile ["a"]]
    (nodupB_sound _ rfl) (nodupB_sound _ rfl)
    (by
      intro p ns nr hp hs hrr
      cases p with
      | nil => exact absurd rfl hp
      | cons a q => simp [FSNode.lookup, FSEntries.find] at hrr)
    rfl
  exact ⟨rfl, h.1, h.2⟩

/-- Closed witness for C10: same bytes, different timestamps, checksum
mode — the replica file and its timestamp survive and no copy happens. -/
theorem C10_checksum_content_witness :
    (syncFolders (fun l => l) true
      (some (.dir 0 0 (.cons "a" (.file [5] 1) .nil)))
      (some (.dir 0 0 (.cons "a" (.file [5] 2) .nil)))).result =
      .ok (some (.dir 0 0 (.cons "a" (.file [5] 2) .nil)), []) ∧
    areFilesIdentical (fun l => l) true (.file [5] 1) (.file [5] 2) =
      .ok true ∧
    FSNode.lookup (.dir 0 0 (.cons "a" (.file [5] 2) .nil)) ["a"] =
      some (.file [5] 2) ∧
    Op.copyFile ["a"] ∉ ([] : List Op) := by
  have h := C10_checksum_content (fun l => l)
    (.dir 0 0 (.cons "a" (.file [5] 1) .nil))
    (.dir 0 0 (.cons "a" (.file [5] 2) .nil))
    (.dir 0 0 (.cons "a" (.file [5] 2) .nil)) [] ["a"] [5] 1 2
    (nodupB_sound _ rfl) (nodupB_sound _ rfl) (by simp) rfl rfl rfl
  exact ⟨rfl, h.1, h.2.1, h.2.2⟩

end Veeam
